import Mathlib

/-!
Verification of the `RunHistory` trial ledger of SMAC3
(`src/smac/runhistory/runhistory.py`).

The Python class is shallowly embedded as follows.

* Python `float` values (costs, times, budgets) are modelled by `ℚ`;
  `float('nan')` results are modelled by `Option`-style sentinels where the
  code can produce them (`none` = NaN), and `±inf` by the dedicated type `XQ`.
* Python `dict`s (which preserve insertion order, update values in place and
  keep the originally inserted key object) are modelled by association lists
  `List (α × β)` with `odLookup` / `odInsert`.
* Python exceptions are modelled by `Except`; because an exception raised in
  the middle of a method leaves all mutations made so far in place, the
  mutating operations return `Except (PyErr × State) State`: the error case
  carries the partially mutated state at the moment of the raise.
* `np.asarray(cost).squeeze()` turns any input of total size one into a
  scalar, so scalar costs and one-element cost lists coincide; we therefore
  represent a cost uniformly as `List ℚ` where a singleton list is a scalar.
-/

set_option linter.unusedVariables false

namespace SMAC

/-! ### Ordered-dictionary helpers (Python `dict` semantics) -/

/-- Lookup in an insertion-ordered association list (`d.get(k)` / `d[k]`). -/
def odLookup {α β : Type} [DecidableEq α] (m : List (α × β)) (k : α) : Option β :=
  (m.find? (fun p => p.1 = k)).map (·.2)

/-- `d[k] = v` on a Python dict: replaces the value in place if the key is
present (keeping the originally inserted key object), else appends. -/
def odInsert {α β : Type} [DecidableEq α] : List (α × β) → α → β → List (α × β)
  | [], k, v => [(k, v)]
  | (k', v') :: t, k, v =>
    if k' = k then (k', v) :: t else (k', v') :: odInsert t k v

/-- `list(dict.fromkeys(l))`: removes duplicates keeping first occurrences. -/
def pyDedup {α : Type} [DecidableEq α] (l : List α) : List α :=
  l.foldl (fun acc x => if x ∈ acc then acc else acc ++ [x]) []

/-! ### Data model -/

/-- Modelled from the spec: `smac.runhistory.enumerations.StatusType` is not
among the sources; the spec (section 6) lists the discrete trial outcomes
`SUCCESS`, `RUNNING`, `CRASHED`, `DONOTADVANCE` "and similar externally
defined outcomes" (we include `TIMEOUT` and `MEMORYOUT`), an integer enum. -/
inductive StatusType where
  | RUNNING
  | SUCCESS
  | TIMEOUT
  | CRASHED
  | DONOTADVANCE
  | MEMORYOUT
  deriving DecidableEq

/-- The integer value of a `StatusType` member (used by JSON persistence). -/
def StatusType.toInt : StatusType → ℤ
  | .RUNNING => 0
  | .SUCCESS => 1
  | .TIMEOUT => 2
  | .CRASHED => 3
  | .DONOTADVANCE => 4
  | .MEMORYOUT => 5

/-- `StatusType(value)`: member lookup by value, `none` models the
`ValueError` raised for an unknown value. -/
def StatusType.ofInt : ℤ → Option StatusType
  | 0 => some .RUNNING
  | 1 => some .SUCCESS
  | 2 => some .TIMEOUT
  | 3 => some .CRASHED
  | 4 => some .DONOTADVANCE
  | 5 => some .MEMORYOUT
  | _ => none

/-- Modelled from the spec: `smac.runhistory.enumerations.DataOrigin` is not
among the sources; `runhistory.py` branches on exactly these three members. -/
inductive DataOrigin where
  | INTERNAL
  | EXTERNAL_SAME_INSTANCES
  | EXTERNAL_DIFFERENT_INSTANCES
  deriving DecidableEq

mutual

/-- JSON values, as produced by Python's `json` module.  Python distinguishes
ints from floats when (de)serializing, hence separate constructors.  `jobjI`
models a JSON object all of whose keys are decimal string renderings of
integers (Python stringifies integer dict keys on `json.dump`, and
`runhistory.py` parses them back with `int(...)`; since `str`/`int` are
mutually inverse on such keys we carry the integer value itself).  Arrays and
objects use the bespoke list types `JArr`/`JObj`/`JObjI` (isomorphic to
lists) so that equality is decidable. -/
inductive Json where
  | null
  | jbool (b : Bool)
  | jint (z : ℤ)
  | jnum (q : ℚ)
  | jstr (s : String)
  | jarr (l : JArr)
  | jobj (l : JObj)
  | jobjI (l : JObjI)
  deriving DecidableEq

inductive JArr where
  | nil
  | cons (hd : Json) (tl : JArr)
  deriving DecidableEq

inductive JObj where
  | nil
  | cons (k : String) (v : Json) (tl : JObj)
  deriving DecidableEq

inductive JObjI where
  | nil
  | cons (k : ℤ) (v : Json) (tl : JObjI)
  deriving DecidableEq

end

/-- View a JSON array as a list. -/
def JArr.toList : JArr → List Json
  | .nil => []
  | .cons h t => h :: t.toList

/-- Build a JSON array from a list. -/
def JArr.ofList : List Json → JArr
  | [] => .nil
  | h :: t => .cons h (JArr.ofList t)

/-- View a string-keyed JSON object as an association list. -/
def JObj.toList : JObj → List (String × Json)
  | .nil => []
  | .cons k v t => (k, v) :: t.toList

/-- View an integer-keyed JSON object as an association list. -/
def JObjI.toList : JObjI → List (ℤ × Json)
  | .nil => []
  | .cons k v t => (k, v) :: t.toList

/-- Build an integer-keyed JSON object from an association list. -/
def JObjI.ofList : List (ℤ × Json) → JObjI
  | [] => .nil
  | (k, v) :: t => .cons k v (JObjI.ofList t)

@[simp] theorem jarrToList_ofList (l : List Json) : (JArr.ofList l).toList = l := by
  induction l with
  | nil => rfl
  | cons h t ih => simp [JArr.ofList, JArr.toList, ih]

@[simp] theorem jobjIToList_ofList (l : List (ℤ × Json)) : (JObjI.ofList l).toList = l := by
  induction l with
  | nil => rfl
  | cons h t ih => cases h; simp [JObjI.ofList, JObjI.toList, ih]

/-- An externally owned `ConfigSpace.Configuration`: an opaque hyperparameter
dictionary (`values`, abstracted to an integer, returned by
`get_dictionary()`) together with an `origin` tag.  Configuration equality in
ConfigSpace is value equality, so dictionary keying uses `values` only. -/
structure Config where
  values : ℤ
  origin : Option String
  deriving DecidableEq

/-- Lookup in a `Configuration`-keyed Python dict: keys compare by value
equality (`values` only, not `origin`). -/
def cfgLookup {β : Type} (m : List (Config × β)) (c : Config) : Option β :=
  (m.find? (fun p => p.1.values = c.values)).map (·.2)

/-- Assignment in a `Configuration`-keyed Python dict. -/
def cfgInsert {β : Type} : List (Config × β) → Config → β → List (Config × β)
  | [], c, v => [(c, v)]
  | (c', v') :: t, c, v =>
    if c'.values = c.values then (c', v) :: t else (c', v') :: cfgInsert t c v

/-- `InstanceSeedKey(instance, seed)`. -/
structure InstanceSeedKey where
  inst : Option String
  seed : Option ℤ
  deriving DecidableEq

/-- `TrialKey(config_id, instance, seed, budget)`. -/
structure TrialKey where
  config_id : ℤ
  inst : Option String
  seed : Option ℤ
  budget : Option ℚ
  deriving DecidableEq

/-- `InstanceSeedBudgetKey(instance, seed, budget)`. -/
structure InstanceSeedBudgetKey where
  inst : Option String
  seed : Option ℤ
  budget : Option ℚ
  deriving DecidableEq

/-- `TrialValue(cost, time, status, starttime, endtime, additional_info)`.
`cost` is a scalar or a list of floats; after the squeeze in `add` a scalar
is exactly a one-element list, so it is stored as `List ℚ`.
`additional_info` is an arbitrary Python object; `none` models an object that
is not JSON-serializable, `some j` a serializable one with JSON rendering
`j`. -/
structure TrialValue where
  cost : List ℚ
  time : ℚ
  status : StatusType
  starttime : ℚ
  endtime : ℚ
  additional_info : Option Json
  deriving DecidableEq

/-- Extended rationals, for the `±np.inf` entries of `objective_bounds`. -/
inductive XQ where
  | ninf
  | fin (q : ℚ)
  | pinf
  deriving DecidableEq

/-- Python exceptions raised by the embedded code. -/
inductive PyErr where
  /-- `ValueError`: cost dimensionality disagrees with `n_objectives`. -/
  | objectiveMismatch
  /-- `ValueError`: mixing `None`/`str` instances (from `_add`). -/
  | mixedInstanceTypes
  /-- `ValueError`: mixing `None`/`float` budgets (from `_add`). -/
  | mixedBudgetTypes
  /-- `ValueError`: a field fails `_check_json_serializable`. -/
  | notSerializable
  /-- `ValueError` from numpy or from enum member lookup. -/
  | valueError
  /-- `KeyError` from a `d[k]` access. -/
  | keyError
  /-- `IndexError` from a `l[i]` access. -/
  | indexError
  /-- A failed `assert`. -/
  | assertionError
  /-- `AttributeError` (e.g. `.get` on a non-dict). -/
  | attributeError
  /-- `TypeError` (e.g. `float(x)` on a non-numeric value). -/
  | typeError
  deriving DecidableEq

/-- The part of the `RunHistory` state that `add` manipulates after the
configuration id has been resolved (everything set up in `reset` except the
three id-assignment fields).  `overwrite_existing_trials` is the constructor
flag. -/
structure Core where
  overwrite_existing_trials : Bool
  data : List (TrialKey × TrialValue)
  config_id_to_isk_to_budget : List (ℤ × List (InstanceSeedKey × List (Option ℚ)))
  cost_per_config : List (ℤ × Option (List ℚ))
  min_cost_per_config : List (ℤ × Option (List ℚ))
  num_trials_per_config : List (ℤ × ℕ)
  external : List (TrialKey × DataOrigin)
  n_objectives : ℤ
  objective_bounds : List (XQ × XQ)
  deriving DecidableEq

/-- The full `RunHistory` state: the configuration id tables plus the core. -/
structure RunHistory where
  config_ids : List (Config × ℤ)
  ids_config : List (ℤ × Config)
  n_id : ℤ
  core : Core
  deriving DecidableEq

/-- `RunHistory(overwrite_existing_trials)` followed by `reset()`. -/
def RunHistory.init (overwrite_existing_trials : Bool) : RunHistory :=
  { config_ids := []
    ids_config := []
    n_id := 0
    core :=
      { overwrite_existing_trials := overwrite_existing_trials
        data := []
        config_id_to_isk_to_budget := []
        cost_per_config := []
        min_cost_per_config := []
        num_trials_per_config := []
        external := []
        n_objectives := -1
        objective_bounds := [] } }

/-! ### Numpy-style helpers -/

/-- Python's built-in `max` over a list of floats (`none` models the
`ValueError` raised on an empty sequence). -/
def pyMax (l : List ℚ) : Option ℚ :=
  match l with
  | [] => none
  | h :: t => some (t.foldl max h)

/-- `np.<f>(costs, axis=0)`: fold the rows of a matrix pointwise. -/
def npAxis0 (f : ℚ → ℚ → ℚ) : List (List ℚ) → List ℚ
  | [] => []
  | h :: t => t.foldl (fun acc l => List.zipWith f acc l) h

/-- Rectangularity of a list of rows (numpy raises on ragged input). -/
def rect (costs : List (List ℚ)) : Bool :=
  costs.all (fun l => l.length = (costs.headD []).length)

/-- `float(np.mean(l))` for a flat list: NaN (`none`) on an empty list. -/
def npMean (l : List ℚ) : Option ℚ :=
  if l.isEmpty then none else some (l.sum / l.length)

/-- `float(np.min(l))` for a flat list (`none` models the error on empty). -/
def npMinFlat (l : List ℚ) : Option ℚ :=
  match l with
  | [] => none
  | h :: t => some (t.foldl min h)

/-! ### Read-only cost queries -/

/-- Modelled from the spec: `smac.multi_objective.utils.normalize_costs` is
not among the sources; per the spec each objective is normalized into [0, 1]
using the corresponding entry of `objective_bounds`. -/
def normalize_costs (values : List ℚ) (bounds : List (XQ × XQ)) : List ℚ :=
  (values.zip bounds).map (fun p =>
    match p.2.1, p.2.2 with
    | .fin lo, .fin hi => if lo = hi then 1 else (p.1 - lo) / (hi - lo)
    | _, _ => 1)

/-- The `only_max_observed_budget` collapse in `get_trials`: a key ever run
unbudgeted (`None` in its budget list) keeps only `None`, otherwise only the
maximal observed budget.  A budget list is never empty in a reachable state;
Python's `max([])` would raise, which we render as no surviving budget. -/
def maxBudgets (v : List (Option ℚ)) : List (Option ℚ) :=
  if none ∈ v then [none]
  else
    match pyMax (v.filterMap id) with
    | some m => [some m]
    | none => []

/-- `RunHistory.get_trials`, after the `config_id` has been looked up
(`self._config_ids.get(config)` is the first line of the Python method). -/
def get_trials_id (core : Core) (config_id : Option ℤ) (only_max_observed_budget : Bool) :
    List InstanceSeedBudgetKey :=
  let trials : List (InstanceSeedKey × List (Option ℚ)) :=
    match config_id with
    | some cid => (odLookup core.config_id_to_isk_to_budget cid).getD []
    | none => []
  let trials :=
    if only_max_observed_budget then trials.map (fun p => (p.1, maxBudgets p.2)) else trials
  trials.flatMap (fun p => p.2.map (fun b => ⟨p.1.inst, p.1.seed, b⟩))

/-- `RunHistory.get_trials(config, only_max_observed_budget)`. -/
def RunHistory.get_trials (rh : RunHistory) (config : Config)
    (only_max_observed_budget : Bool := true) : List InstanceSeedBudgetKey :=
  get_trials_id rh.core (cfgLookup rh.config_ids config) only_max_observed_budget

/-- The loop of `RunHistory._cost`: read `self._data[k].cost` for each
instance-seed-budget key (`KeyError` if a key is missing from the ledger). -/
def lookupCosts (core : Core) (id_ : ℤ) :
    List InstanceSeedBudgetKey → Except PyErr (List (List ℚ))
  | [] => .ok []
  | key :: t =>
    match odLookup core.data ⟨id_, key.inst, key.seed, key.budget⟩ with
    | none => .error .keyError
    | some v => (lookupCosts core id_ t).map (v.cost :: ·)

/-- `RunHistory._cost`, after the `config_id` lookup (`none` models the
caught `KeyError` for a configuration that was never run, returning `[]`). -/
def costsOf_id (core : Core) (config_id : Option ℤ)
    (instance_seed_budget_keys : Option (List InstanceSeedBudgetKey)) :
    Except PyErr (List (List ℚ)) :=
  match config_id with
  | none => .ok []
  | some id_ =>
    lookupCosts core id_
      (instance_seed_budget_keys.getD (get_trials_id core (some id_) true))

/-- `RunHistory._cost(config, instance_seed_budget_keys)`. -/
def RunHistory.costsOf (rh : RunHistory) (config : Config)
    (instance_seed_budget_keys : Option (List InstanceSeedBudgetKey) := none) :
    Except PyErr (List (List ℚ)) :=
  costsOf_id rh.core (cfgLookup rh.config_ids config) instance_seed_budget_keys

/-- `RunHistory.average_cost`, after the `config_id` lookup.  The result is a
Python float or list of floats: `none` is NaN, `some [x]` the scalar `x`,
`some l` a per-objective list. -/
def average_cost_id (core : Core) (config_id : Option ℤ)
    (instance_seed_budget_keys : Option (List InstanceSeedBudgetKey))
    (normalize : Bool) : Except PyErr (Option (List ℚ)) := do
  let costs ← costsOf_id core config_id instance_seed_budget_keys
  if costs.isEmpty then
    .ok none
  else
    if core.n_objectives > 1 then
      if rect costs then
        let averaged := (npAxis0 (· + ·) costs).map (· / (costs.length : ℚ))
        if normalize then
          .ok ((npMean (normalize_costs averaged core.objective_bounds)).map ([·]))
        else
          .ok (some averaged)
      else
        .error .valueError
    else
      .ok ((npMean costs.flatten).map ([·]))

/-- `RunHistory.average_cost(config, instance_seed_budget_keys, normalize)`. -/
def RunHistory.average_cost (rh : RunHistory) (config : Config)
    (instance_seed_budget_keys : Option (List InstanceSeedBudgetKey) := none)
    (normalize : Bool := false) : Except PyErr (Option (List ℚ)) :=
  average_cost_id rh.core (cfgLookup rh.config_ids config) instance_seed_budget_keys normalize

/-- `RunHistory.sum_cost`, after the `config_id` lookup.  Note the Python
control flow: only the `costs` nonempty, multi-objective case returns early;
everything else (including empty `costs`) falls through to
`float(np.sum(costs))`, which is `0.0` on an empty list. -/
def sum_cost_id (core : Core) (config_id : Option ℤ)
    (instance_seed_budget_keys : Option (List InstanceSeedBudgetKey))
    (normalize : Bool) : Except PyErr (Option (List ℚ)) := do
  let costs ← costsOf_id core config_id instance_seed_budget_keys
  if ¬costs.isEmpty ∧ core.n_objectives > 1 then
    if rect costs then
      let summed := npAxis0 (· + ·) costs
      if normalize then
        .ok ((npMean (normalize_costs summed core.objective_bounds)).map ([·]))
      else
        .ok (some summed)
    else
      .error .valueError
  else
    .ok (some [(costs.flatten).sum])

/-- `RunHistory.sum_cost(config, instance_seed_budget_keys, normalize)`. -/
def RunHistory.sum_cost (rh : RunHistory) (config : Config)
    (instance_seed_budget_keys : Option (List InstanceSeedBudgetKey) := none)
    (normalize : Bool := false) : Except PyErr (Option (List ℚ)) :=
  sum_cost_id rh.core (cfgLookup rh.config_ids config) instance_seed_budget_keys normalize

/-- `RunHistory.min_cost`, after the `config_id` lookup. -/
def min_cost_id (core : Core) (config_id : Option ℤ)
    (instance_seed_budget_keys : Option (List InstanceSeedBudgetKey))
    (normalize : Bool) : Except PyErr (Option (List ℚ)) := do
  let costs ← costsOf_id core config_id instance_seed_budget_keys
  if costs.isEmpty then
    .ok none
  else
    if core.n_objectives > 1 then
      if rect costs then
        let min_costs := npAxis0 min costs
        if normalize then
          .ok ((npMean (normalize_costs min_costs core.objective_bounds)).map ([·]))
        else
          .ok (some min_costs)
      else
        .error .valueError
    else
      match npMinFlat costs.flatten with
      | some m => .ok (some [m])
      | none => .error .valueError

/-- `RunHistory.min_cost(config, instance_seed_budget_keys, normalize)`. -/
def RunHistory.min_cost (rh : RunHistory) (config : Config)
    (instance_seed_budget_keys : Option (List InstanceSeedBudgetKey) := none)
    (normalize : Bool := false) : Except PyErr (Option (List ℚ)) :=
  min_cost_id rh.core (cfgLookup rh.config_ids config) instance_seed_budget_keys normalize

/-- Read a per-configuration cache: `cache.get(config_id, np.nan)` where
`config_id` may itself be `None`.  The outer `none` layers (unknown
configuration, no cache entry) and a stored NaN all collapse to `none`. -/
def cacheRead (cache : List (ℤ × Option (List ℚ))) (config_id : Option ℤ) :
    Option (List ℚ) :=
  (config_id.bind (odLookup cache)).getD none

/-- `RunHistory.get_cost(config)`: read the `_cost_per_config` cache.  The
result is a float: `none` is NaN.  In the multi-objective case the cached
value must be a list (`assert isinstance(cost, list)` fails on NaN and on a
scalar — in this model a scalar is exactly a one-element list), in the
single-objective case a float (`assert isinstance(cost, float)`). -/
def RunHistory.get_cost (rh : RunHistory) (config : Config) :
    Except PyErr (Option ℚ) :=
  let cost := cacheRead rh.core.cost_per_config (cfgLookup rh.config_ids config)
  if rh.core.n_objectives > 1 then
    match cost with
    | none => .error .assertionError
    | some l =>
      if l.length = 1 then .error .assertionError
      else .ok (npMean (normalize_costs l rh.core.objective_bounds))
  else
    match cost with
    | none => .ok none
    | some [q] => .ok (some q)
    | some _ => .error .assertionError

/-- `RunHistory.get_min_cost(config)`: the same shape over
`_min_cost_per_config`. -/
def RunHistory.get_min_cost (rh : RunHistory) (config : Config) :
    Except PyErr (Option ℚ) :=
  let cost := cacheRead rh.core.min_cost_per_config (cfgLookup rh.config_ids config)
  if rh.core.n_objectives > 1 then
    match cost with
    | none => .error .assertionError
    | some l =>
      if l.length = 1 then .error .assertionError
      else .ok (npMean (normalize_costs l rh.core.objective_bounds))
  else
    match cost with
    | none => .ok none
    | some [q] => .ok (some q)
    | some _ => .error .assertionError

/-- The scan of `RunHistory.get_incumbent`: `lowest_cost` starts at `np.inf`
(`none`); a NaN cost (`none` from `get_cost`) is never `<` anything. -/
def incumbentLoop (rh : RunHistory) :
    List (Config × ℤ) → Option Config → Option ℚ → Except PyErr (Option Config)
  | [], incumbent, _ => .ok incumbent
  | (config, _) :: t, incumbent, lowest_cost => do
    let cost ← rh.get_cost config
    match cost with
    | some q =>
      if (match lowest_cost with | none => true | some lw => decide (q < lw)) then
        incumbentLoop rh t (some config) (some q)
      else
        incumbentLoop rh t incumbent lowest_cost
    | none => incumbentLoop rh t incumbent lowest_cost

/-- `RunHistory.get_incumbent()`. -/
def RunHistory.get_incumbent (rh : RunHistory) : Except PyErr (Option Config) :=
  incumbentLoop rh rh.config_ids none none

/-! ### Mutating operations -/

/-- The collection loop of `_update_objective_bounds`: gather the cost
vectors of all `SUCCESS` trials in ledger order (a scalar cost is wrapped
into a one-element list, which in this model it already is), asserting that
each has exactly `n_objectives` entries. -/
def collectSuccessCosts (n : ℤ) : List TrialValue → Except PyErr (List (List ℚ))
  | [] => .ok []
  | v :: t =>
    if v.status = .SUCCESS then
      if (v.cost.length : ℤ) = n then (collectSuccessCosts n t).map (v.cost :: ·)
      else .error .assertionError
    else collectSuccessCosts n t

/-- `RunHistory._update_objective_bounds`.  With no `SUCCESS` trial the
bounds are `[(np.inf, -np.inf)] * n_objectives` (the empty list if
`n_objectives` is still `-1`, as in Python). -/
def Core.update_objective_bounds (core : Core) : Except PyErr Core := do
  let all_costs ← collectSuccessCosts core.n_objectives (core.data.map (·.2))
  if all_costs.isEmpty then
    .ok { core with
          objective_bounds :=
            List.replicate core.n_objectives.toNat (XQ.pinf, XQ.ninf) }
  else
    let min_values := npAxis0 min all_costs
    let max_values := npAxis0 max all_costs
    .ok { core with
          objective_bounds :=
            (min_values.zip max_values).map (fun p => (XQ.fin p.1, XQ.fin p.2)) }

/-- `RunHistory.incremental_update_cost`, after the `config_id` lookup.  The
moving-average update; all raises happen before any assignment, so the error
case leaves the core unchanged.  A stored NaN (`none`) propagates through
the arithmetic as NaN. -/
def incremental_update_cost_id (core : Core) (config_id : ℤ) (cost : List ℚ) :
    Except PyErr Core :=
  let n_trials : ℕ := (odLookup core.num_trials_per_config config_id).getD 0
  if core.n_objectives > 1 then
    let old_costs : Option (List ℚ) :=
      (odLookup core.cost_per_config config_id).getD
        (some (List.replicate core.n_objectives.toNat 0))
    match old_costs with
    | none =>
      .ok { core with
            cost_per_config := odInsert core.cost_per_config config_id none
            num_trials_per_config :=
              odInsert core.num_trials_per_config config_id (n_trials + 1) }
    | some old =>
      -- numpy vector arithmetic on equal-length vectors; a shape mismatch
      -- (unreachable in any state built through `add`) raises
      if old.length = cost.length then
        let new_costs :=
          (old.zip cost).map (fun p => (p.1 * (n_trials : ℚ) + p.2) / ((n_trials : ℚ) + 1))
        .ok { core with
              cost_per_config := odInsert core.cost_per_config config_id (some new_costs)
              num_trials_per_config :=
                odInsert core.num_trials_per_config config_id (n_trials + 1) }
      else .error .valueError
  else
    -- `assert isinstance(cost, float)`: a scalar is a one-element list;
    -- `assert isinstance(old_cost, float)`: NaN (`none`) is a float
    match cost, (odLookup core.cost_per_config config_id).getD (some [0]) with
    | [c], none =>
      .ok { core with
            cost_per_config := odInsert core.cost_per_config config_id none
            num_trials_per_config :=
              odInsert core.num_trials_per_config config_id (n_trials + 1) }
    | [c], some [old] =>
      .ok { core with
            cost_per_config :=
              odInsert core.cost_per_config config_id
                (some [(old * (n_trials : ℚ) + c) / ((n_trials : ℚ) + 1)])
            num_trials_per_config :=
              odInsert core.num_trials_per_config config_id (n_trials + 1) }
    | _, _ => .error .assertionError

/-- `RunHistory.incremental_update_cost(config, cost)`. -/
def RunHistory.incremental_update_cost (rh : RunHistory) (config : Config)
    (cost : List ℚ) : Except (PyErr × RunHistory) RunHistory :=
  match cfgLookup rh.config_ids config with
  | none => .error (.keyError, rh)
  | some config_id =>
    match incremental_update_cost_id rh.core config_id cost with
    | .ok c => .ok { rh with core := c }
    | .error e => .error (e, rh)

/-- `RunHistory.update_cost`, after the `config_id` lookup.  The queries it
issues (`get_trials`, `average_cost`, `min_cost`) re-look up the same
configuration in the unmodified `_config_ids` table, yielding this same
`config_id` again; we pass it directly. -/
def update_cost_id (core : Core) (config_id : ℤ) : Except (PyErr × Core) Core :=
  let inst_seed_budgets := pyDedup (get_trials_id core (some config_id) true)
  match average_cost_id core (some config_id) (some inst_seed_budgets) false with
  | .error e => .error (e, core)
  | .ok avg =>
    let core1 :=
      { core with
        cost_per_config := odInsert core.cost_per_config config_id avg
        num_trials_per_config :=
          odInsert core.num_trials_per_config config_id inst_seed_budgets.length }
    let all_isb := pyDedup (get_trials_id core1 (some config_id) false)
    match min_cost_id core1 (some config_id) (some all_isb) false with
    | .error e => .error (e, core1)
    | .ok mn =>
      .ok { core1 with
            min_cost_per_config := odInsert core1.min_cost_per_config config_id mn }

/-- `RunHistory.update_cost(config)` (`self._config_ids[config]` raises
`KeyError` for an unknown configuration). -/
def RunHistory.update_cost (rh : RunHistory) (config : Config) :
    Except (PyErr × RunHistory) RunHistory :=
  match cfgLookup rh.config_ids config with
  | none => .error (.keyError, rh)
  | some config_id =>
    match update_cost_id rh.core config_id with
    | .ok c => .ok { rh with core := c }
    | .error (e, c) => .error (e, { rh with core := c })

/-- `isinstance(x, str)` applied to an `InstanceSeedKey` *object*: always
`False`.  The sanity check in `_add` compares `isinstance(isk_, str)` with
`isinstance(isk, str)` where both `isk_` and `isk` are `InstanceSeedKey`
values (not their `.instance` fields), so the check compares `False` with
`False` and can never fire. -/
def iskIsStr (_ : InstanceSeedKey) : Bool := false

/-- Python `k.budget == isk.instance`: a float/None compared with a
str/None; equal only when both are `None`. -/
def pyEqBudgetInst (b : Option ℚ) (i : Option String) : Bool :=
  b.isNone && i.isNone

/-- Python `k.budget == isk.seed`: `None == None` is true and a float
equals an int numerically. -/
def pyEqBudgetSeed (b : Option ℚ) (s : Option ℤ) : Bool :=
  match b, s with
  | none, none => true
  | some q, some z => q == (z : ℚ)
  | _, _ => false

/-- The cost-cache update at the end of `_add`: the incremental
moving-average path when budgets are unused (`k.budget == 0`, Python's
`None == 0` being false) and overwriting is disabled, the full recomputation
otherwise.  Both paths fetch `self._ids_config[k.config_id]` and then look
that configuration up in `self._config_ids`. -/
def costUpdateStep (config_ids : List (Config × ℤ)) (ids_config : List (ℤ × Config))
    (core : Core) (k : TrialKey) (v : TrialValue) : Except (PyErr × Core) Core :=
  match odLookup ids_config k.config_id with
  | none => .error (.keyError, core)
  | some config =>
    if ¬core.overwrite_existing_trials ∧ k.budget = some 0 then
      match cfgLookup config_ids config with
      | none => .error (.keyError, core)
      | some cid =>
        match incremental_update_cost_id core cid v.cost with
        | .ok c => .ok c
        | .error e => .error (e, core)
    else
      match cfgLookup config_ids config with
      | none => .error (.keyError, core)
      | some cid => update_cost_id core cid

/-- `RunHistory._add(k, v, status, origin)`: insert into `_data` and
`_external`, refresh the objective bounds, and — for non-`RUNNING` trials of
internal or same-instances origin — maintain the instance-seed-budget table
(with its type-mixing checks) and the per-configuration cost caches.  Only
the `Core` is mutated; the id tables are read for the cache update. -/
def _add_inner (config_ids : List (Config × ℤ)) (ids_config : List (ℤ × Config))
    (core : Core) (k : TrialKey) (v : TrialValue) (status : StatusType)
    (origin : DataOrigin) : Except (PyErr × Core) Core :=
  let core := { core with data := odInsert core.data k v }
  let core := { core with external := odInsert core.external k origin }
  match core.update_objective_bounds with
  | .error e => .error (e, core)
  | .ok core =>
    if (origin = .INTERNAL ∨ origin = .EXTERNAL_SAME_INSTANCES) ∧ status ≠ .RUNNING then
      let isk : InstanceSeedKey := ⟨k.inst, k.seed⟩
      let outer := (odLookup core.config_id_to_isk_to_budget k.config_id).getD []
      let core :=
        { core with
          config_id_to_isk_to_budget :=
            odInsert core.config_id_to_isk_to_budget k.config_id outer }
      if outer.any (fun p => iskIsStr p.1 ≠ iskIsStr isk) then
        .error (.mixedInstanceTypes, core)
      else
        match odLookup outer isk with
        | none =>
          let core :=
            { core with
              config_id_to_isk_to_budget :=
                odInsert core.config_id_to_isk_to_budget k.config_id
                  (odInsert outer isk [k.budget]) }
          costUpdateStep config_ids ids_config core k v
        | some bl =>
          -- `elif k.budget != isk.instance and k.budget != isk.seed`
          -- (the comment in the source says: "Before it was k.budget not in isk")
          if ¬pyEqBudgetInst k.budget isk.inst ∧ ¬pyEqBudgetSeed k.budget isk.seed then
            match bl with
            | [] => .error (.indexError, core)
            | b0 :: _ =>
              if b0.isSome ≠ k.budget.isSome then
                .error (.mixedBudgetTypes, core)
              else
                let core :=
                  { core with
                    config_id_to_isk_to_budget :=
                      odInsert core.config_id_to_isk_to_budget k.config_id
                        (odInsert outer isk (bl ++ [k.budget])) }
                costUpdateStep config_ids ids_config core k v
          else
            costUpdateStep config_ids ids_config core k v
    else
      .ok core

/-- The arguments of one `RunHistory.add(...)` call.  `cost` is the value of
`np.asarray(cost).squeeze()`: a one-element list is a scalar.  Defaults are
the Python defaults. -/
structure AddArgs where
  config : Config
  cost : List ℚ
  time : ℚ := 0
  status : StatusType := .SUCCESS
  inst : Option String := none
  seed : Option ℤ := none
  budget : Option ℚ := none
  starttime : ℚ := 0
  endtime : ℚ := 0
  additional_info : Option Json := some (Json.jobj JObj.nil)
  origin : DataOrigin := .INTERNAL
  force_update : Bool := false
  deriving DecidableEq

/-- The part of `RunHistory.add(...)` after the configuration id has been
resolved and `n_objectives` fixed or checked: build the trial key and value
(the float conversions on `cost` and `budget` are the identity here), run
the JSON-serializability check (in this model only `additional_info` can
fail it), then insert through `_add` — or silently drop a duplicate key when
neither `overwrite_existing_trials` nor `force_update` is set. -/
def addAfterN (rh : RunHistory) (config_id : ℤ) (a : AddArgs) :
    Except (PyErr × RunHistory) RunHistory :=
  let k : TrialKey := ⟨config_id, a.inst, a.seed, a.budget⟩
  let v : TrialValue := ⟨a.cost, a.time, a.status, a.starttime, a.endtime, a.additional_info⟩
  if a.additional_info.isNone then
    .error (.notSerializable, rh)
  else if rh.core.overwrite_existing_trials || a.force_update
      || (odLookup rh.core.data k).isNone then
    match _add_inner rh.config_ids rh.ids_config rh.core k v a.status a.origin with
    | .ok c => .ok { rh with core := c }
    | .error (e, c) => .error (e, { rh with core := c })
  else
    .ok rh

/-- The part of `RunHistory.add(...)` after the configuration id has been
resolved: fix `n_objectives` on the first call, or fail on a cost whose
cardinality disagrees with it, then proceed with `addAfterN`. -/
def addAfterId (rh : RunHistory) (config_id : ℤ) (a : AddArgs) :
    Except (PyErr × RunHistory) RunHistory :=
  let n_objectives : ℤ := a.cost.length
  if rh.core.n_objectives = -1 then
    addAfterN { rh with core := { rh.core with n_objectives := n_objectives } } config_id a
  else if rh.core.n_objectives ≠ n_objectives then
    .error (.objectiveMismatch, rh)
  else
    addAfterN rh config_id a

/-- `RunHistory.add(...)`: resolve or freshly assign the configuration id (a
mutation that survives any later exception), then proceed with
`addAfterId`. -/
def RunHistory.add (rh : RunHistory) (a : AddArgs) :
    Except (PyErr × RunHistory) RunHistory :=
  match cfgLookup rh.config_ids a.config with
  | some cid => addAfterId rh cid a
  | none =>
    addAfterId
      { rh with
        n_id := rh.n_id + 1
        config_ids := cfgInsert rh.config_ids a.config (rh.n_id + 1)
        ids_config := odInsert rh.ids_config (rh.n_id + 1) a.config }
      (rh.n_id + 1) a

/-- The loop of `RunHistory.update_costs`: one pass over `_config_ids` in
registration order.  Queries re-look up each configuration, assignments use
the iteration's `config_id`. -/
def updateCostsLoop (config_ids : List (Config × ℤ)) (instances : Option (List String)) :
    List (Config × ℤ) → Core → Except (PyErr × Core) Core
  | [], core => .ok core
  | (config, config_id) :: t, core =>
    let cid? := cfgLookup config_ids config
    let isb := pyDedup (get_trials_id core cid? true)
    let isb :=
      match instances with
      | some insts =>
        isb.filter (fun x => match x.inst with | some s => insts.contains s | none => false)
      | none => isb
    if isb.isEmpty then
      updateCostsLoop config_ids instances t core
    else
      match average_cost_id core cid? (some isb) false with
      | .error e => .error (e, core)
      | .ok avg =>
        let core := { core with cost_per_config := odInsert core.cost_per_config config_id avg }
        match min_cost_id core cid? (some isb) false with
        | .error e => .error (e, core)
        | .ok mn =>
          updateCostsLoop config_ids instances t
            { core with
              min_cost_per_config := odInsert core.min_cost_per_config config_id mn
              num_trials_per_config :=
                odInsert core.num_trials_per_config config_id isb.length }

/-- `RunHistory.update_costs(instances)`: clear `_cost_per_config` and
`_num_trials_per_config` (not `_min_cost_per_config`) and recompute from
scratch for every configuration with matching trials. -/
def RunHistory.update_costs (rh : RunHistory)
    (instances : Option (List String) := none) :
    Except (PyErr × RunHistory) RunHistory :=
  let core0 := { rh.core with cost_per_config := [], num_trials_per_config := [] }
  match updateCostsLoop rh.config_ids instances rh.config_ids core0 with
  | .ok c => .ok { rh with core := c }
  | .error (e, c) => .error (e, { rh with core := c })

/-- Run a list of `add` calls in order, stopping at the first exception. -/
def runTrace (rh : RunHistory) : List AddArgs → Except (PyErr × RunHistory) RunHistory
  | [] => .ok rh
  | a :: t =>
    match rh.add a with
    | .ok rh' => runTrace rh' t
    | .error e => .error e

/-- The state after an `add` call whether or not it raised (a caller that
catches the exception observes exactly the mutations made before the
raise). -/
def RunHistory.addAny (rh : RunHistory) (a : AddArgs) : RunHistory :=
  match rh.add a with
  | .ok rh' => rh'
  | .error (_, rh') => rh'

/-- Run a list of `add` calls, continuing past exceptions. -/
def runAny (rh : RunHistory) (tr : List AddArgs) : RunHistory :=
  tr.foldl RunHistory.addAny rh

/-! ### JSON persistence -/

/-- Build a string-keyed JSON object from an association list. -/
def JObj.ofList : List (String × Json) → JObj
  | [] => .nil
  | (k, v) :: t => .cons k v (JObj.ofList t)

/-- Serialize a stored cost: a scalar (one-element list) dumps as a JSON
number, a multi-objective cost as a JSON array. -/
def encodeCost (c : List ℚ) : Json :=
  match c with
  | [q] => Json.jnum q
  | l => Json.jarr (JArr.ofList (l.map Json.jnum))

/-- One tuple of the persisted `data` list:
`(config_id, instance, seed, budget, cost, time, status, starttime, endtime,
additional_info)`.  An `additional_info` that is not JSON-serializable
(`none`) is rendered as `null` here; `save_json` separately reports the
`TypeError` that `json.dump` would raise on it. -/
def encodeEntry (k : TrialKey) (v : TrialValue) : Json :=
  Json.jarr (JArr.ofList
    [ Json.jint k.config_id,
      (match k.inst with | some s => Json.jstr s | none => Json.null),
      (match k.seed with | some z => Json.jint z | none => Json.null),
      (match k.budget with | some q => Json.jnum q | none => Json.null),
      encodeCost v.cost,
      Json.jnum v.time,
      Json.jint v.status.toInt,
      Json.jnum v.starttime,
      Json.jnum v.endtime,
      v.additional_info.getD Json.null ])

/-- The `data` filter of `save_json`: keep a ledger entry if
`save_external` is set or `self._external[k]` is `INTERNAL` (a missing
`_external` entry is a `KeyError`). -/
def saveFilter (external : List (TrialKey × DataOrigin)) (save_external : Bool) :
    List (TrialKey × TrialValue) → Except PyErr (List (TrialKey × TrialValue))
  | [] => .ok []
  | (k, v) :: t =>
    match odLookup external k with
    | none => .error .keyError
    | some ext =>
      if save_external || ext = .INTERNAL then
        (saveFilter external save_external t).map ((k, v) :: ·)
      else
        saveFilter external save_external t

/-- `RunHistory.save_json(filename, save_external)`: the JSON document that
is written to disk (the filename assertion, directory creation and file I/O
are outside this model).  `json.dump` raises a `TypeError` if any
`additional_info` in the dumped data is not serializable. -/
def RunHistory.save_json (rh : RunHistory) (save_external : Bool := false) :
    Except PyErr Json := do
  let kept ← saveFilter rh.core.external save_external rh.core.data
  let ids_to_serialize := kept.map (fun p => p.1.config_id)
  let configs :=
    rh.ids_config.filterMap (fun p =>
      if ids_to_serialize.contains p.1 then some (p.1, Json.jint p.2.values) else none)
  let config_origins :=
    rh.ids_config.map (fun p =>
      (p.1, match p.2.origin with | some s => Json.jstr s | none => Json.null))
  if kept.any (fun p => p.2.additional_info.isNone) then
    .error .typeError
  else
    .ok (Json.jobj (JObj.ofList
      [ ("data", Json.jarr (JArr.ofList (kept.map (fun p => encodeEntry p.1 p.2)))),
        ("configs", Json.jobjI (JObjI.ofList configs)),
        ("config_origins", Json.jobjI (JObjI.ofList config_origins)) ]))

/-- Is a JSON value a Python dict? -/
def jsonIsDict : Json → Bool
  | .jobj _ => true
  | .jobjI _ => true
  | _ => false

/-- `d.get(key)` for a string key on a JSON dict (`none` if absent; an
integer-keyed dict has no string keys). -/
def dictGetS (j : Json) (key : String) : Option Json :=
  match j with
  | .jobj l => odLookup l.toList key
  | _ => none

/-- `config_origins.get(id_, None)`: `AttributeError` on a non-dict; a
string-keyed dict does not contain the (integer-rendered) key. -/
def originsGet (config_origins : Json) (id_ : ℤ) : Except PyErr (Option Json) :=
  match config_origins with
  | .jobjI l => .ok (odLookup l.toList id_)
  | .jobj _ => .ok none
  | _ => .error .attributeError

/-- The `origin` passed to a reconstructed `Configuration`: `None` or a
string (any other JSON value in a corrupt file is collapsed to `None`). -/
def decodeOrigin : Option Json → Option String
  | some (.jstr s) => some s
  | _ => none

/-- `all_data["configs"].items()`: the id/values pairs to iterate.  A
string-keyed nonempty object would make `int(id_)` raise (rendered as
`ValueError`), a non-dict has no `.items()`. -/
def configsItems : Json → Except PyErr (List (ℤ × Json))
  | .jobjI l => .ok l.toList
  | .jobj .nil => .ok []
  | .jobj _ => .error .valueError
  | _ => .error .attributeError

/-- The configuration-reconstruction loop of `load_json`; the error case
carries the partially rebuilt `_ids_config`.  `Configuration(configspace,
values=...)` with a payload that is not a hyperparameter dictionary raises
(rendered as `TypeError`); in this model a valid payload is the integer
rendering of the dictionary. -/
def loadConfigsLoop (config_origins : Json) :
    List (ℤ × Json) → List (ℤ × Config) →
    Except (PyErr × List (ℤ × Config)) (List (ℤ × Config))
  | [], acc => .ok acc
  | (id_, valuesJ) :: t, acc =>
    match originsGet config_origins id_ with
    | .error e => .error (e, acc)
    | .ok originJ =>
      match valuesJ with
      | .jint z =>
        loadConfigsLoop config_origins t (odInsert acc id_ ⟨z, decodeOrigin originJ⟩)
      | _ => .error (.typeError, acc)

/-- `float(x)` on a JSON value (numeric strings, which Python would also
parse, do not occur in persisted ledgers and are rendered as `TypeError`). -/
def floatOf : Json → Except PyErr ℚ
  | .jnum q => .ok q
  | .jint z => .ok (z : ℚ)
  | .jbool b => .ok (if b then 1 else 0)
  | _ => .error .typeError

/-- `[float(x) for x in entry]` over a decoded JSON array. -/
def floatList : List Json → Except PyErr (List ℚ)
  | [] => .ok []
  | j :: t => do
    let q ← floatOf j
    (floatList t).map (q :: ·)

/-- `len(entry[4])` when inferring `n_objectives` from a non-numeric cost
field (`len` works on lists, strings and dicts, `TypeError` otherwise). -/
def pyLen : Json → Except PyErr ℤ
  | .jarr l => .ok l.toList.length
  | .jstr s => .ok s.length
  | .jobj l => .ok l.toList.length
  | .jobjI l => .ok l.toList.length
  | _ => .error .typeError

/-- `int(entry[0])` (an `int` in any persisted ledger; other corrupt shapes
are rendered as `TypeError`). -/
def intOf : Json → Except PyErr ℤ
  | .jint z => .ok z
  | .jbool b => .ok (if b then 1 else 0)
  | _ => .error .typeError

/-- Process one tuple of `all_data["data"]` in `load_json`: infer or keep
`n_objectives`, decode the fields and feed them through `self.add`. -/
def loadEntry (rh : RunHistory) (entry : Json) : Except (PyErr × RunHistory) RunHistory :=
  match entry with
  | .jarr arr =>
    match arr.toList with
    | e0 :: e1 :: e2 :: e3 :: e4 :: e5 :: e6 :: e7 :: e8 :: e9 :: _ =>
      let nStep : Except PyErr ℤ :=
        if rh.core.n_objectives = -1 then
          match e4 with
          | .jnum _ => .ok 1
          | .jint _ => .ok 1
          | .jbool _ => .ok 1   -- isinstance(True, int) holds
          | j => pyLen j
        else .ok rh.core.n_objectives
      match nStep with
      | .error e => .error (e, rh)
      | .ok n =>
        let rh := { rh with core := { rh.core with n_objectives := n } }
        let costStep : Except PyErr (List ℚ) :=
          if n = 1 then (floatOf e4).map ([·])
          else
            match e4 with
            | .jarr l => floatList l.toList
            | _ => .error .typeError
        match costStep with
        | .error e => .error (e, rh)
        | .ok cost =>
          match intOf e0 with
          | .error e => .error (e, rh)
          | .ok cid =>
            match odLookup rh.ids_config cid with
            | none => .error (.keyError, rh)   -- self._ids_config[int(entry[0])]
            | some config =>
              match floatOf e5 with
              | .error e => .error (e, rh)
              | .ok time =>
                match e6 with
                | .jint z =>
                  match StatusType.ofInt z with
                  | none => .error (.valueError, rh)
                  | some status =>
                    let instStep : Except PyErr (Option String) :=
                      match e1 with
                      | .jstr s => .ok (some s)
                      | .null => .ok none
                      | _ => .error .typeError
                    let seedStep : Except PyErr (Option ℤ) :=
                      match e2 with
                      | .jint z => .ok (some z)
                      | .null => .ok none
                      | _ => .error .typeError
                    let budgetStep : Except PyErr (Option ℚ) :=
                      match e3 with
                      | .jnum q => .ok (some q)
                      | .jint z => .ok (some (z : ℚ))
                      | .null => .ok none
                      | _ => .error .typeError
                    match instStep, seedStep, budgetStep, floatOf e7, floatOf e8 with
                    | .ok inst, .ok seed, .ok budget, .ok starttime, .ok endtime =>
                      rh.add
                        { config := config
                          cost := cost
                          time := time
                          status := status
                          inst := inst
                          seed := seed
                          budget := budget
                          starttime := starttime
                          endtime := endtime
                          additional_info := some e9
                          origin := .INTERNAL
                          force_update := false }
                    | .error e, _, _, _, _ => .error (e, rh)
                    | _, .error e, _, _, _ => .error (e, rh)
                    | _, _, .error e, _, _ => .error (e, rh)
                    | _, _, _, .error e, _ => .error (e, rh)
                    | _, _, _, _, .error e => .error (e, rh)
                | _ => .error (.valueError, rh)   -- StatusType(entry[6])
    | _ => .error (.indexError, rh)
  | _ => .error (.typeError, rh)

/-- The `data` loop of `load_json`. -/
def loadEntries (rh : RunHistory) : List Json → Except (PyErr × RunHistory) RunHistory
  | [] => .ok rh
  | e :: t =>
    match loadEntry rh e with
    | .ok rh' => loadEntries rh' t
    | .error e => .error e

/-- `RunHistory.load_json(filename, configspace)`.  The `try` block covers
only reading and JSON-parsing the file: `none` models an unreadable or
unparseable file, for which a warning is logged and nothing changes.  A
parsed document is processed outside the `try`: `_ids_config` is cleared and
rebuilt, `_config_ids` and `_n_id` derived from it, and every `data` tuple
re-added through `add`.  Any exception in that part propagates with the
mutations made so far in place. -/
def RunHistory.load_json (rh : RunHistory) (file : Option Json) :
    Except (PyErr × RunHistory) RunHistory :=
  match file with
  | none => .ok rh
  | some all_data =>
    if ¬jsonIsDict all_data then
      .error (.attributeError, rh)   -- all_data.get(...) on a non-dict
    else
      let config_origins := (dictGetS all_data "config_origins").getD (Json.jobjI .nil)
      let rh1 := { rh with ids_config := [] }
      match dictGetS all_data "configs" with
      | none =>
        -- all_data["configs"] raises after _ids_config was already cleared
        .error (.keyError, rh1)
      | some cfgsJ =>
        match configsItems cfgsJ with
        | .error e => .error (e, rh1)
        | .ok items =>
          match loadConfigsLoop config_origins items [] with
          | .error (e, acc) => .error (e, { rh1 with ids_config := acc })
          | .ok idsc =>
            let cids := idsc.foldl (fun m p => cfgInsert m p.2 p.1) []
            let rh2 :=
              { rh1 with
                ids_config := idsc
                config_ids := cids
                n_id := (cids.length : ℤ) }
            match dictGetS all_data "data" with
            | none => .error (.keyError, rh2)
            | some (.jarr entries) => loadEntries rh2 entries.toList
            | some _ => .error (.typeError, rh2)

/-! ### Specification-side definitions

These definitions follow the wording of the specification (`spec.md`), not
the code; the refinement claims compare them with the translations above. -/

/-- The `(instance, seed, budget, cost, time, status)` view of one ledger
entry, as named by the round-trip property of the spec. -/
def tupleOf (p : TrialKey × TrialValue) :
    Option String × Option ℤ × Option ℚ × List ℚ × ℚ × StatusType :=
  (p.1.inst, p.1.seed, p.1.budget, p.2.cost, p.2.time, p.2.status)

/-- Spec reading of `objective_bounds`: "per-objective (min, max) over all
`SUCCESS`-status trials", and `(+inf, -inf)` for an objective with no
`SUCCESS` trial. -/
def objectiveBoundsSpec (n : ℤ) (data : List (TrialKey × TrialValue)) :
    List (XQ × XQ) :=
  let succ := data.filterMap (fun p => if p.2.status = .SUCCESS then some p.2.cost else none)
  (List.range n.toNat).map (fun i =>
    match succ.filterMap (fun l => l[i]?) with
    | [] => (XQ.pinf, XQ.ninf)
    | q :: qs => (XQ.fin (qs.foldl min q), XQ.fin (qs.foldl max q)))

/-- Spec reading of `get_incumbent`: among the registered configurations
(in registration order) that have a numeric `get_cost` value, the first one
whose cost equals the overall minimum; `none` if no configuration has a
numeric cost. -/
def incumbentSpec (rh : RunHistory) : Option Config :=
  let cands :=
    rh.config_ids.filterMap (fun p =>
      match rh.get_cost p.1 with
      | .ok (some q) => some (p.1, q)
      | _ => none)
  match cands.map (·.2) with
  | [] => none
  | q :: qs => (cands.find? (fun p => p.2 = qs.foldl min q)).map (·.1)

/-- The configuration id `add` uses: the registered one, else the next
fresh id. -/
def resolvedId (rh : RunHistory) (c : Config) : ℤ :=
  (cfgLookup rh.config_ids c).getD (rh.n_id + 1)

/-- The `TrialKey` built by `add(...)`. -/
def addKey (rh : RunHistory) (a : AddArgs) : TrialKey :=
  ⟨resolvedId rh a.config, a.inst, a.seed, a.budget⟩

/-- The `TrialValue` built by `add(...)`. -/
def addVal (a : AddArgs) : TrialValue :=
  ⟨a.cost, a.time, a.status, a.starttime, a.endtime, a.additional_info⟩

/-- The core after the `_data` and `_external` assignments at the top of
`_add`. -/
def coreWithTrial (core : Core) (k : TrialKey) (v : TrialValue) (o : DataOrigin) : Core :=
  { core with data := odInsert core.data k v, external := odInsert core.external k o }

/-- The comparison `cost < lowest_cost` of the incumbent scan, with
`lowest_cost` starting at `np.inf` (`none`); NaN costs were already
filtered out. -/
def qltB (q : ℚ) (low : Option ℚ) : Bool :=
  match low with
  | none => true
  | some lw => decide (q < lw)

/-- The incumbent scan on the numeric-cost candidates only (a pure view of
`incumbentLoop` once errors and NaN costs are out of the way). -/
def bestPure : List (Config × ℚ) → Option Config × Option ℚ → Option Config × Option ℚ
  | [], st => st
  | (c, q) :: t, (inc, low) =>
    if qltB q low then bestPure t (some c, some q) else bestPure t (inc, low)

/-! ### Concrete example ledgers (used to evaluate the theorems) -/

/-- A sample configuration. -/
def exCfg : Config := ⟨1, none⟩

/-- A second sample configuration. -/
def exCfg2 : Config := ⟨2, none⟩

/-- A sample single-objective budget-less `add` call. -/
def exArgs : AddArgs := { config := exCfg, cost := [4], inst := some "i", seed := some 3 }

/-- A fresh ledger with `overwrite_existing_trials` disabled. -/
def exRH0 : RunHistory := RunHistory.init false

/-- The ledger after one sample `add`. -/
def exRH1 : RunHistory := exRH0.addAny exArgs

/-- A ledger holding one two-objective trial. -/
def exRHmulti : RunHistory := exRH0.addAny { config := exCfg, cost := [1, 2] }

/-- A ledger holding one budgeted trial on the instance-less pair
`(None, 5)`. -/
def exRHbud : RunHistory :=
  exRH0.addAny { config := exCfg, cost := [4], inst := none, seed := some 5, budget := some 3 }

/-- A ledger holding trials of three configurations with distinct costs. -/
def exRHtri : RunHistory :=
  runAny exRH0
    [ { config := exCfg, cost := [4], inst := some "i", seed := some 1, budget := some 0 },
      { config := exCfg2, cost := [2], inst := some "i", seed := some 1, budget := some 0 },
      { config := ⟨3, none⟩, cost := [7], inst := some "i", seed := some 1, budget := some 0 } ]

/-- Equality of `Except` results is decidable (used to evaluate the theorems
on concrete ledgers). -/
instance {ε α : Type} [DecidableEq ε] [DecidableEq α] : DecidableEq (Except ε α) :=
  fun a b =>
    match a, b with
    | .ok x, .ok y =>
      match decEq x y with
      | isTrue h => isTrue (by rw [h])
      | isFalse h => isFalse (by intro hh; cases hh; exact h rfl)
    | .error x, .error y =>
      match decEq x y with
      | isTrue h => isTrue (by rw [h])
      | isFalse h => isFalse (by intro hh; cases hh; exact h rfl)
    | .ok _, .error _ => isFalse (by intro hh; cases hh)
    | .error _, .ok _ => isFalse (by intro hh; cases hh)

/-! ### Dictionary lemmas -/

theorem odLookup_nil {α β : Type} [DecidableEq α] (k : α) :
    odLookup ([] : List (α × β)) k = none := rfl

theorem odLookup_cons {α β : Type} [DecidableEq α] (k' : α) (v' : β) (m : List (α × β)) (k : α) :
    odLookup ((k', v') :: m) k = if k' = k then some v' else odLookup m k := by
  by_cases h : k' = k <;> simp [odLookup, List.find?_cons, h]

theorem odLookup_odInsert_self {α β : Type} [DecidableEq α]
    (m : List (α × β)) (k : α) (v : β) :
    odLookup (odInsert m k v) k = some v := by
  induction m with
  | nil => simp [odInsert, odLookup_cons]
  | cons p t ih =>
    obtain ⟨pk, pv⟩ := p
    by_cases h : pk = k
    · simp [odInsert, h, odLookup_cons]
    · simp only [odInsert, if_neg h]
      rw [odLookup_cons]
      simp [h, ih]

theorem odLookup_odInsert_ne {α β : Type} [DecidableEq α]
    (m : List (α × β)) (k k' : α) (v : β) (h : k ≠ k') :
    odLookup (odInsert m k v) k' = odLookup m k' := by
  induction m with
  | nil => simp [odInsert, odLookup_cons, h]
  | cons p t ih =>
    obtain ⟨pk, pv⟩ := p
    by_cases hp : pk = k
    · subst hp
      simp [odInsert, odLookup_cons, h]
    · simp only [odInsert, if_neg hp]
      rw [odLookup_cons, odLookup_cons, ih]

theorem odInsert_of_lookup_none {α β : Type} [DecidableEq α]
    (m : List (α × β)) (k : α) (v : β) (h : odLookup m k = none) :
    odInsert m k v = m ++ [(k, v)] := by
  induction m with
  | nil => rfl
  | cons p t ih =>
    rw [odLookup_cons] at h
    by_cases hp : p.1 = k
    · simp [hp] at h
    · cases p
      simp_all [odInsert]

theorem cfgLookup_cons (c' : Config) {β : Type} (v' : β) (m : List (Config × β)) (c : Config) :
    cfgLookup ((c', v') :: m) c = if c'.values = c.values then some v' else cfgLookup m c := by
  by_cases h : c'.values = c.values <;> simp [cfgLookup, List.find?_cons, h]

theorem cfgLookup_cfgInsert_self {β : Type} (m : List (Config × β)) (c : Config) (v : β) :
    cfgLookup (cfgInsert m c v) c = some v := by
  induction m with
  | nil => simp [cfgInsert, cfgLookup_cons]
  | cons p t ih =>
    obtain ⟨pc, pv⟩ := p
    by_cases h : pc.values = c.values
    · simp [cfgInsert, h, cfgLookup_cons]
    · simp only [cfgInsert, if_neg h]
      rw [cfgLookup_cons]
      simp [h, ih]

theorem cfgLookup_cfgInsert_ne {β : Type} (m : List (Config × β)) (c c' : Config) (v : β)
    (h : c.values ≠ c'.values) :
    cfgLookup (cfgInsert m c v) c' = cfgLookup m c' := by
  induction m with
  | nil => simp [cfgInsert, cfgLookup_cons, h]
  | cons p t ih =>
    obtain ⟨pc, pv⟩ := p
    by_cases hp : pc.values = c.values
    · have hpc : pc.values ≠ c'.values := by rw [hp]; exact h
      simp [cfgInsert, hp, cfgLookup_cons, hpc, h]
    · simp only [cfgInsert, if_neg hp]
      rw [cfgLookup_cons, cfgLookup_cons, ih]

theorem pyDedup_aux {α : Type} [DecidableEq α] :
    ∀ (l acc : List α), (acc ++ l).Nodup →
      l.foldl (fun acc x => if x ∈ acc then acc else acc ++ [x]) acc = acc ++ l := by
  intro l
  induction l with
  | nil => intro acc _; simp
  | cons x t ih =>
    intro acc h
    have hx : x ∉ acc := by
      intro hmem
      exact (List.disjoint_of_nodup_append h) hmem (List.mem_cons_self x t)
    have h' : ((acc ++ [x]) ++ t).Nodup := by simpa using h
    simp only [List.foldl_cons, if_neg hx]
    rw [ih (acc ++ [x]) h']
    simp

theorem pyDedup_of_nodup {α : Type} [DecidableEq α] (l : List α) (h : l.Nodup) :
    pyDedup l = l := by
  simpa using pyDedup_aux l [] (by simpa using h)

/-! ### Frame lemmas: which fields each mutator can touch -/

/-- The state carried by the result of a mutating operation, whether it
returned normally or raised. -/
def carried {ε α : Type} : Except (ε × α) α → α
  | .ok c => c
  | .error (_, c) => c

theorem frame_uob (core c' : Core) (h : core.update_objective_bounds = .ok c') :
    ∃ b, c' = { core with objective_bounds := b } := by
  unfold Core.update_objective_bounds at h
  rcases hc : collectSuccessCosts core.n_objectives (core.data.map (·.2)) with e | cs
  · rw [hc] at h
    simp only [bind, Except.bind] at h
    exact (Except.noConfusion h)
  · rw [hc] at h
    simp only [bind, Except.bind] at h
    split at h
    · cases h; exact ⟨_, rfl⟩
    · cases h; exact ⟨_, rfl⟩

theorem frame_incr (core : Core) (cid : ℤ) (cost : List ℚ) (c' : Core)
    (h : incremental_update_cost_id core cid cost = .ok c') :
    ∃ cc nn, c' = { core with cost_per_config := cc, num_trials_per_config := nn } := by
  simp only [incremental_update_cost_id] at h
  split at h
  · split at h
    · cases h; exact ⟨_, _, rfl⟩
    · split at h
      · cases h; exact ⟨_, _, rfl⟩
      · cases h
  · split at h
    · cases h; exact ⟨_, _, rfl⟩
    · cases h; exact ⟨_, _, rfl⟩
    · cases h

theorem frame_ucid (core : Core) (cid : ℤ) :
    ∃ cc nn mm, carried (update_cost_id core cid) =
      { core with cost_per_config := cc, num_trials_per_config := nn,
                  min_cost_per_config := mm } := by
  simp only [update_cost_id]
  split
  · exact ⟨_, _, _, rfl⟩
  · split
    · exact ⟨_, _, _, rfl⟩
    · exact ⟨_, _, _, rfl⟩

theorem frame_cus (ci : List (Config × ℤ)) (ic : List (ℤ × Config)) (core : Core)
    (k : TrialKey) (v : TrialValue) :
    ∃ cc nn mm, carried (costUpdateStep ci ic core k v) =
      { core with cost_per_config := cc, num_trials_per_config := nn,
                  min_cost_per_config := mm } := by
  simp only [costUpdateStep]
  split
  · exact ⟨_, _, _, rfl⟩
  · split
    · split
      · exact ⟨_, _, _, rfl⟩
      · rcases hi : incremental_update_cost_id core _ v.cost with e | c'
        · exact ⟨_, _, _, rfl⟩
        · obtain ⟨cc, nn, hc⟩ := frame_incr _ _ _ _ hi
          exact ⟨cc, nn, _, by simpa [carried] using hc⟩
    · split
      · exact ⟨_, _, _, rfl⟩
      · exact frame_ucid core _

theorem frame_add_inner (ci : List (Config × ℤ)) (ic : List (ℤ × Config)) (core : Core)
    (k : TrialKey) (v : TrialValue) (s : StatusType) (o : DataOrigin) :
    ∃ b m cc nn mm, carried (_add_inner ci ic core k v s o) =
      { core with data := odInsert core.data k v,
                  external := odInsert core.external k o,
                  objective_bounds := b, config_id_to_isk_to_budget := m,
                  cost_per_config := cc, num_trials_per_config := nn,
                  min_cost_per_config := mm } := by
  simp only [_add_inner]
  split
  · exact ⟨_, _, _, _, _, rfl⟩
  · next c1 heq =>
    obtain ⟨b, hc1⟩ := frame_uob _ _ heq
    subst hc1
    split
    · split
      · exact ⟨_, _, _, _, _, rfl⟩
      · split
        · obtain ⟨cc, nn, mm, h⟩ := frame_cus ci ic _ k v
          exact ⟨_, _, _, _, _, h⟩
        · split
          · split
            · exact ⟨_, _, _, _, _, rfl⟩
            · split
              · exact ⟨_, _, _, _, _, rfl⟩
              · obtain ⟨cc, nn, mm, h⟩ := frame_cus ci ic _ k v
                exact ⟨_, _, _, _, _, h⟩
          · obtain ⟨cc, nn, mm, h⟩ := frame_cus ci ic _ k v
            exact ⟨_, _, _, _, _, h⟩
    · exact ⟨_, _, _, _, _, rfl⟩

theorem addAfterN_ok (rh : RunHistory) (cid : ℤ) (a : AddArgs) (rh' : RunHistory)
    (h : addAfterN rh cid a = .ok rh') :
    a.additional_info.isSome = true ∧
    rh'.config_ids = rh.config_ids ∧ rh'.ids_config = rh.ids_config ∧ rh'.n_id = rh.n_id ∧
    rh'.core.overwrite_existing_trials = rh.core.overwrite_existing_trials ∧
    rh'.core.n_objectives = rh.core.n_objectives ∧
    ((rh.core.overwrite_existing_trials = false ∧ a.force_update = false ∧
        (odLookup rh.core.data ⟨cid, a.inst, a.seed, a.budget⟩).isSome = true ∧
        rh' = rh) ∨
      rh'.core.data = odInsert rh.core.data ⟨cid, a.inst, a.seed, a.budget⟩
          ⟨a.cost, a.time, a.status, a.starttime, a.endtime, a.additional_info⟩) := by
  simp only [addAfterN] at h
  split at h
  · exact absurd h (by simp)
  · rename_i hinfo
    split at h
    · rcases hA : _add_inner rh.config_ids rh.ids_config rh.core
          ⟨cid, a.inst, a.seed, a.budget⟩
          ⟨a.cost, a.time, a.status, a.starttime, a.endtime, a.additional_info⟩
          a.status a.origin with e | c
      · rw [hA] at h; exact absurd h (by simp)
      · rw [hA] at h
        cases h
        obtain ⟨b, m, cc, nn, mm, hC⟩ :=
          frame_add_inner rh.config_ids rh.ids_config rh.core
            ⟨cid, a.inst, a.seed, a.budget⟩
            ⟨a.cost, a.time, a.status, a.starttime, a.endtime, a.additional_info⟩
            a.status a.origin
        rw [hA] at hC
        simp only [carried] at hC
        refine ⟨by rw [Option.isSome_iff_ne_none]; simpa using hinfo, rfl, rfl, rfl, ?_, ?_,
          Or.inr ?_⟩ <;> simp [hC]
    · rename_i hguard
      cases h
      refine ⟨by rw [Option.isSome_iff_ne_none]; simpa using hinfo, rfl, rfl, rfl, rfl, rfl,
        Or.inl ⟨?_, ?_, ?_, rfl⟩⟩
      · cases hx : rh.core.overwrite_existing_trials <;> simp [hx] at hguard ⊢
      · cases hx : a.force_update <;> simp [hx] at hguard ⊢
      · cases hx : odLookup rh.core.data ⟨cid, a.inst, a.seed, a.budget⟩ <;>
          simp [hx] at hguard ⊢

theorem addAfterId_ok_main (rh : RunHistory) (cid : ℤ) (a : AddArgs) (rh' : RunHistory)
    (h : addAfterId rh cid a = .ok rh') :
    a.additional_info.isSome = true ∧
    (rh.core.n_objectives = -1 ∨ rh.core.n_objectives = (a.cost.length : ℤ)) ∧
    rh'.config_ids = rh.config_ids ∧ rh'.ids_config = rh.ids_config ∧ rh'.n_id = rh.n_id ∧
    rh'.core.overwrite_existing_trials = rh.core.overwrite_existing_trials ∧
    rh'.core.n_objectives = (a.cost.length : ℤ) ∧
    ((rh.core.overwrite_existing_trials = false ∧ a.force_update = false ∧
        (odLookup rh.core.data ⟨cid, a.inst, a.seed, a.budget⟩).isSome = true ∧
        rh' = { rh with core := { rh.core with n_objectives := (a.cost.length : ℤ) } }) ∨
      rh'.core.data = odInsert rh.core.data ⟨cid, a.inst, a.seed, a.budget⟩
          ⟨a.cost, a.time, a.status, a.starttime, a.endtime, a.additional_info⟩) := by
  simp only [addAfterId] at h
  split at h
  · rename_i hn1
    obtain ⟨h1, h2, h3, h4, h5, h6, h7⟩ := addAfterN_ok _ _ _ _ h
    refine ⟨h1, Or.inl hn1, h2, h3, h4, by simpa using h5, by simpa using h6, ?_⟩
    rcases h7 with ⟨d1, d2, d3, d4⟩ | hins
    · exact Or.inl ⟨by simpa using d1, d2, by simpa using d3, d4⟩
    · exact Or.inr (by simpa using hins)
  · split at h
    · exact absurd h (by simp)
    · rename_i hn1 hn2
      have hn : rh.core.n_objectives = (a.cost.length : ℤ) := by
        by_contra hcc; exact hn2 hcc
      obtain ⟨h1, h2, h3, h4, h5, h6, h7⟩ := addAfterN_ok _ _ _ _ h
      refine ⟨h1, Or.inr hn, h2, h3, h4, h5, h6.trans hn, ?_⟩
      rcases h7 with ⟨d1, d2, d3, d4⟩ | hins
      · refine Or.inl ⟨d1, d2, d3, ?_⟩
        rw [d4]
        have hcore : ({ rh.core with n_objectives := (a.cost.length : ℤ) } : Core) = rh.core := by
          rw [← hn]
        rw [hcore]
      · exact Or.inr hins

theorem addAfterId_dedup (rh : RunHistory) (cid : ℤ) (a : AddArgs)
    (hov : rh.core.overwrite_existing_trials = false)
    (hforce : a.force_update = false)
    (hn : rh.core.n_objectives = (a.cost.length : ℤ))
    (hinfo : a.additional_info.isSome = true)
    (hdata : (odLookup rh.core.data ⟨cid, a.inst, a.seed, a.budget⟩).isSome = true) :
    addAfterId rh cid a = .ok rh := by
  have hne : rh.core.n_objectives ≠ -1 := by rw [hn]; omega
  have hinfo' : a.additional_info.isNone = false := by
    cases hx : a.additional_info <;> simp [hx] at hinfo ⊢
  have hdata' : (odLookup rh.core.data ⟨cid, a.inst, a.seed, a.budget⟩).isNone = false := by
    cases hx : odLookup rh.core.data ⟨cid, a.inst, a.seed, a.budget⟩ <;>
      simp [hx] at hdata ⊢
  simp only [addAfterId, if_neg hne, if_neg (by simp [hn] :
    ¬rh.core.n_objectives ≠ (a.cost.length : ℤ))]
  simp [addAfterN, hinfo', hov, hforce, hdata']

theorem filter_key_of_lookup_none {α β : Type} [DecidableEq α]
    (m : List (α × β)) (k : α) (h : odLookup m k = none) :
    m.filter (fun p => p.1 = k) = [] := by
  rw [List.filter_eq_nil_iff]
  intro p hp
  simp only [odLookup, Option.map_eq_none', List.find?_eq_none] at h
  simpa using h p hp

/-- C2: with `overwrite_existing_trials = False` and `force_update = False`,
adding the same `(config, instance, seed, budget)` key twice (with the same
arguments, the key not previously in the ledger) leaves exactly one ledger
entry for that `TrialKey`, retaining the `TrialValue` of the first call; the
second call does not raise and does not alter anything. -/
theorem C2_add_twice_dedup (rh₀ rh₁ : RunHistory) (a : AddArgs)
    (hov : rh₀.core.overwrite_existing_trials = false)
    (hforce : a.force_update = false)
    (hfresh : ∀ cid, odLookup rh₀.core.data ⟨cid, a.inst, a.seed, a.budget⟩ = none)
    (h1 : rh₀.add a = .ok rh₁) :
    rh₁.add a = .ok rh₁ ∧
    odLookup rh₁.core.data (addKey rh₀ a) = some (addVal a) ∧
    (rh₁.core.data.filter (fun p => p.1 = addKey rh₀ a)).length = 1 := by
  simp only [RunHistory.add] at h1
  rcases hc : cfgLookup rh₀.config_ids a.config with _ | cid
  all_goals rw [hc] at h1
  · -- fresh configuration: id rh₀.n_id + 1 assigned first
    obtain ⟨f1, f2, f3, f4, f5, f6, f7, f8⟩ := addAfterId_ok_main _ _ _ _ h1
    have hkey : addKey rh₀ a = ⟨rh₀.n_id + 1, a.inst, a.seed, a.budget⟩ := by
      simp [addKey, resolvedId, hc]
    rcases f8 with ⟨_, _, hsome, _⟩ | hins
    · rw [hfresh (rh₀.n_id + 1)] at hsome
      simp at hsome
    · have hdata1 : odLookup rh₁.core.data ⟨rh₀.n_id + 1, a.inst, a.seed, a.budget⟩ =
          some (addVal a) := by
        rw [hins]
        exact odLookup_odInsert_self _ _ _
      refine ⟨?_, by rw [hkey]; exact hdata1, ?_⟩
      · simp only [RunHistory.add]
        rw [f3]
        rw [show cfgLookup
            (cfgInsert rh₀.config_ids a.config (rh₀.n_id + 1)) a.config =
            some (rh₀.n_id + 1) from cfgLookup_cfgInsert_self _ _ _]
        exact addAfterId_dedup _ _ _ (by rw [f6]; exact hov) hforce f7 f1
          (by rw [hdata1]; rfl)
      · rw [hkey, hins,
          odInsert_of_lookup_none _ _ _ (hfresh (rh₀.n_id + 1))]
        rw [List.filter_append, filter_key_of_lookup_none _ _ (hfresh (rh₀.n_id + 1))]
        simp
  · -- already registered configuration
    obtain ⟨f1, f2, f3, f4, f5, f6, f7, f8⟩ := addAfterId_ok_main _ _ _ _ h1
    have hkey : addKey rh₀ a = ⟨cid, a.inst, a.seed, a.budget⟩ := by
      simp [addKey, resolvedId, hc]
    rcases f8 with ⟨_, _, hsome, _⟩ | hins
    · rw [hfresh cid] at hsome
      simp at hsome
    · have hdata1 : odLookup rh₁.core.data ⟨cid, a.inst, a.seed, a.budget⟩ =
          some (addVal a) := by
        rw [hins]
        exact odLookup_odInsert_self _ _ _
      refine ⟨?_, by rw [hkey]; exact hdata1, ?_⟩
      · simp only [RunHistory.add]
        rw [f3, hc]
        exact addAfterId_dedup _ _ _ (by rw [f6]; exact hov) hforce f7 f1
          (by rw [hdata1]; rfl)
      · rw [hkey, hins, odInsert_of_lookup_none _ _ _ (hfresh cid)]
        rw [List.filter_append, filter_key_of_lookup_none _ _ (hfresh cid)]
        simp

/-- C2 witness: the dedup theorem evaluated on a concrete ledger. -/
theorem C2_add_twice_dedup_witness :
    exRH1.add exArgs = .ok exRH1 ∧
    odLookup exRH1.core.data (addKey exRH0 exArgs) = some (addVal exArgs) ∧
    (exRH1.core.data.filter (fun p => p.1 = addKey exRH0 exArgs)).length = 1 :=
  C2_add_twice_dedup exRH0 exRH1 exArgs rfl rfl (fun _ => rfl) rfl


theorem collect_err (n : ℤ) (l : List TrialValue) (e : PyErr)
    (h : collectSuccessCosts n l = .error e) : e = .assertionError := by
  induction l with
  | nil => simp [collectSuccessCosts] at h
  | cons v t ih =>
    simp only [collectSuccessCosts] at h
    split at h
    · split at h
      · rcases hc : collectSuccessCosts n t with e' | cs <;> rw [hc] at h
        · simp only [Except.map] at h
          cases h
          exact ih hc
        · simp [Except.map] at h
      · cases h; rfl
    · exact ih h

theorem uob_err (core : Core) (e : PyErr)
    (h : core.update_objective_bounds = .error e) : e = .assertionError := by
  unfold Core.update_objective_bounds at h
  rcases hc : collectSuccessCosts core.n_objectives (core.data.map (·.2)) with e' | cs <;>
    rw [hc] at h <;> simp only [bind, Except.bind] at h
  · cases h; exact collect_err _ _ _ hc
  · split at h <;> cases h

theorem lookupCosts_err (core : Core) (id_ : ℤ) (ks : List InstanceSeedBudgetKey) (e : PyErr)
    (h : lookupCosts core id_ ks = .error e) : e = .keyError := by
  induction ks with
  | nil => simp [lookupCosts] at h
  | cons k t ih =>
    simp only [lookupCosts] at h
    split at h
    · cases h; rfl
    · rcases hc : lookupCosts core id_ t with e' | cs <;> rw [hc] at h
      · simp only [Except.map] at h
        cases h
        exact ih hc
      · simp [Except.map] at h

theorem costsOf_err (core : Core) (cid : Option ℤ)
    (ks : Option (List InstanceSeedBudgetKey)) (e : PyErr)
    (h : costsOf_id core cid ks = .error e) : e = .keyError := by
  unfold costsOf_id at h
  split at h
  · cases h
  · exact lookupCosts_err _ _ _ _ h

theorem avg_err (core : Core) (cid : Option ℤ)
    (ks : Option (List InstanceSeedBudgetKey)) (nm : Bool) (e : PyErr)
    (h : average_cost_id core cid ks nm = .error e) :
    e = .keyError ∨ e = .valueError := by
  unfold average_cost_id at h
  rcases hc : costsOf_id core cid ks with e' | cs <;> rw [hc] at h <;>
    simp only [bind, Except.bind] at h
  · cases h; exact Or.inl (costsOf_err _ _ _ _ hc)
  · split at h
    · cases h
    · split at h
      · split at h
        · split at h <;> cases h
        · cases h; exact Or.inr rfl
      · cases h

theorem min_err (core : Core) (cid : Option ℤ)
    (ks : Option (List InstanceSeedBudgetKey)) (nm : Bool) (e : PyErr)
    (h : min_cost_id core cid ks nm = .error e) :
    e = .keyError ∨ e = .valueError := by
  unfold min_cost_id at h
  rcases hc : costsOf_id core cid ks with e' | cs <;> rw [hc] at h <;>
    simp only [bind, Except.bind] at h
  · cases h; exact Or.inl (costsOf_err _ _ _ _ hc)
  · split at h
    · cases h
    · split at h
      · split at h
        · split at h <;> cases h
        · cases h; exact Or.inr rfl
      · split at h
        · cases h
        · cases h; exact Or.inr rfl

theorem incr_err (core : Core) (cid : ℤ) (cost : List ℚ) (e : PyErr)
    (h : incremental_update_cost_id core cid cost = .error e) :
    e = .valueError ∨ e = .assertionError := by
  simp only [incremental_update_cost_id] at h
  split at h
  · split at h
    · cases h
    · split at h
      · cases h
      · cases h; exact Or.inl rfl
  · split at h
    · cases h
    · cases h
    · cases h; exact Or.inr rfl

theorem ucid_err (core : Core) (cid : ℤ) (e : PyErr) (c : Core)
    (h : update_cost_id core cid = .error (e, c)) :
    e = .keyError ∨ e = .valueError := by
  simp only [update_cost_id] at h
  split at h
  · cases h
    rename_i heq
    exact avg_err _ _ _ _ _ heq
  · split at h
    · cases h
      rename_i heq
      exact min_err _ _ _ _ _ heq
    · cases h

theorem cus_err (ci : List (Config × ℤ)) (ic : List (ℤ × Config)) (core : Core)
    (k : TrialKey) (v : TrialValue) (e : PyErr) (c : Core)
    (h : costUpdateStep ci ic core k v = .error (e, c)) :
    e = .keyError ∨ e = .valueError ∨ e = .assertionError := by
  simp only [costUpdateStep] at h
  split at h
  · cases h; exact Or.inl rfl
  · split at h
    · split at h
      · cases h; exact Or.inl rfl
      · split at h
        · cases h
        · cases h
          rename_i heq
          rcases incr_err _ _ _ _ heq with hh | hh
          · exact Or.inr (Or.inl hh)
          · exact Or.inr (Or.inr hh)
    · split at h
      · cases h; exact Or.inl rfl
      · rcases ucid_err _ _ _ _ h with hh | hh
        · exact Or.inl hh
        · exact Or.inr (Or.inl hh)

theorem add_inner_err (ci : List (Config × ℤ)) (ic : List (ℤ × Config)) (core : Core)
    (k : TrialKey) (v : TrialValue) (s : StatusType) (o : DataOrigin) (e : PyErr) (c : Core)
    (h : _add_inner ci ic core k v s o = .error (e, c)) :
    e ≠ .objectiveMismatch ∧ e ≠ .notSerializable := by
  simp only [_add_inner] at h
  split at h
  · cases h
    rename_i heq
    rw [uob_err _ _ heq]
    exact ⟨(by decide), (by decide)⟩
  · have done : ∀ e', e' = PyErr.keyError ∨ e' = .valueError ∨ e' = .assertionError →
        e' ≠ PyErr.objectiveMismatch ∧ e' ≠ .notSerializable := by
      rintro e' (rfl | rfl | rfl) <;>
        exact ⟨(by decide), (by decide)⟩
    split at h
    · split at h
      · cases h
        exact ⟨(by decide), (by decide)⟩
      · split at h
        · exact done _ (cus_err _ _ _ _ _ _ _ h)
        · split at h
          · split at h
            · cases h
              exact ⟨(by decide), (by decide)⟩
            · split at h
              · cases h
                exact ⟨(by decide), (by decide)⟩
              · exact done _ (cus_err _ _ _ _ _ _ _ h)
          · exact done _ (cus_err _ _ _ _ _ _ _ h)
    · cases h

theorem addAfterN_carried_n (rh : RunHistory) (cid : ℤ) (a : AddArgs) :
    (carried (addAfterN rh cid a)).core.n_objectives = rh.core.n_objectives := by
  simp only [addAfterN]
  split
  · rfl
  · split
    · obtain ⟨b, m, cc, nn, mm, hC⟩ :=
        frame_add_inner rh.config_ids rh.ids_config rh.core
          ⟨cid, a.inst, a.seed, a.budget⟩
          ⟨a.cost, a.time, a.status, a.starttime, a.endtime, a.additional_info⟩
          a.status a.origin
      rcases hA : _add_inner rh.config_ids rh.ids_config rh.core
          ⟨cid, a.inst, a.seed, a.budget⟩
          ⟨a.cost, a.time, a.status, a.starttime, a.endtime, a.additional_info⟩
          a.status a.origin with ⟨e, c⟩ | c <;>
        rw [hA] at hC <;> simp only [carried] at hC ⊢ <;> simp [hC]
    · rfl

theorem addAfterId_carried_n (rh : RunHistory) (cid : ℤ) (a : AddArgs)
    (h : rh.core.n_objectives ≠ -1) :
    (carried (addAfterId rh cid a)).core.n_objectives = rh.core.n_objectives := by
  simp only [addAfterId, if_neg h]
  split
  · rfl
  · exact addAfterN_carried_n rh cid a

theorem addAny_n (rh : RunHistory) (a : AddArgs) (h : rh.core.n_objectives ≠ -1) :
    (rh.addAny a).core.n_objectives = rh.core.n_objectives := by
  have he : rh.addAny a = carried (rh.add a) := by
    unfold RunHistory.addAny carried
    rcases rh.add a with ⟨e, c⟩ | c <;> rfl
  rw [he]
  simp only [RunHistory.add]
  rcases hc : cfgLookup rh.config_ids a.config with _ | cid
  · exact addAfterId_carried_n _ _ _ h
  · exact addAfterId_carried_n _ _ _ h

theorem runAny_n (tr : List AddArgs) (rh : RunHistory) (h : rh.core.n_objectives ≠ -1) :
    (runAny rh tr).core.n_objectives = rh.core.n_objectives := by
  induction tr generalizing rh with
  | nil => rfl
  | cons a t ih =>
    have h1 := addAny_n rh a h
    simp only [runAny, List.foldl_cons]
    rw [show (List.foldl RunHistory.addAny (rh.addAny a) t) = runAny (rh.addAny a) t from rfl]
    rw [ih _ (by rw [h1]; exact h), h1]

theorem add_ok_n (rh rh' : RunHistory) (a : AddArgs) (h : rh.add a = .ok rh') :
    rh'.core.n_objectives = (a.cost.length : ℤ) := by
  simp only [RunHistory.add] at h
  rcases hc : cfgLookup rh.config_ids a.config with _ | cid <;> rw [hc] at h
  · exact (addAfterId_ok_main _ _ _ _ h).2.2.2.2.2.2.1
  · exact (addAfterId_ok_main _ _ _ _ h).2.2.2.2.2.2.1

theorem add_mismatch_of_ne (rh : RunHistory) (b : AddArgs)
    (hn1 : rh.core.n_objectives ≠ -1)
    (hne : rh.core.n_objectives ≠ (b.cost.length : ℤ)) :
    ∃ rh', rh.add b = .error (.objectiveMismatch, rh') := by
  simp only [RunHistory.add]
  rcases hc : cfgLookup rh.config_ids b.config with _ | cid <;>
    simp only [addAfterId, if_neg hn1, if_pos hne] <;> exact ⟨_, rfl⟩

theorem add_no_mismatch (rh : RunHistory) (b : AddArgs)
    (hn : rh.core.n_objectives = (b.cost.length : ℤ)) :
    ∀ rh', rh.add b ≠ .error (.objectiveMismatch, rh') := by
  intro rh' hcontra
  have hn1 : rh.core.n_objectives ≠ -1 := by rw [hn]; omega
  simp only [RunHistory.add] at hcontra
  rcases hc : cfgLookup rh.config_ids b.config with _ | cid <;> rw [hc] at hcontra <;>
    simp only [addAfterId, if_neg hn1, if_neg (by simp [hn] :
      ¬rh.core.n_objectives ≠ (b.cost.length : ℤ))] at hcontra <;>
    simp only [addAfterN] at hcontra
  case none =>
    split at hcontra
    · cases hcontra
    · split at hcontra
      · rcases hA : _add_inner _ _ _ _ _ _ _ with ⟨e, c⟩ | c <;> rw [hA] at hcontra
        · cases hcontra
          exact (add_inner_err _ _ _ _ _ _ _ _ _ hA).1 rfl
        · cases hcontra
      · cases hcontra
  case some =>
    split at hcontra
    · cases hcontra
    · split at hcontra
      · rcases hA : _add_inner _ _ _ _ _ _ _ with ⟨e, c⟩ | c <;> rw [hA] at hcontra
        · cases hcontra
          exact (add_inner_err _ _ _ _ _ _ _ _ _ hA).1 rfl
        · cases hcontra
      · cases hcontra

/-- C3: the number of objectives is fixed by the first successful `add`: once
an `add` with cost cardinality `n` has succeeded, after any further sequence
of `add` calls (whatever their outcomes), an `add` whose cost cardinality
differs from `n` raises the objective-count `ValueError`, and an `add` whose
cost cardinality equals `n` never raises that error. -/
theorem C3_n_objectives_fixed (rh₀ rh₁ : RunHistory) (a : AddArgs) (n : ℕ)
    (h1 : rh₀.add a = .ok rh₁) (hcard : a.cost.length = n) :
    rh₁.core.n_objectives = (n : ℤ) ∧
    ∀ tr : List AddArgs,
      (∀ b : AddArgs, b.cost.length ≠ n →
        ∃ rh', (runAny rh₁ tr).add b = .error (.objectiveMismatch, rh')) ∧
      (∀ b : AddArgs, b.cost.length = n →
        ∀ rh', (runAny rh₁ tr).add b ≠ .error (.objectiveMismatch, rh')) := by
  have hn1 : rh₁.core.n_objectives = (n : ℤ) := by
    rw [add_ok_n _ _ _ h1, hcard]
  refine ⟨hn1, fun tr => ?_⟩
  have hrn : (runAny rh₁ tr).core.n_objectives = (n : ℤ) := by
    rw [runAny_n tr rh₁ (by rw [hn1]; omega), hn1]
  constructor
  · intro b hb
    exact add_mismatch_of_ne _ _ (by rw [hrn]; omega)
      (by rw [hrn]; intro hq; exact hb (by exact_mod_cast hq.symm))
  · intro b hb
    exact add_no_mismatch _ _ (by rw [hrn, hb])

/-- C3 witness: evaluated on a concrete ledger with one single-objective
trial. -/
theorem C3_n_objectives_fixed_witness :
    exRH1.core.n_objectives = (1 : ℤ) ∧
    ∀ tr : List AddArgs,
      (∀ b : AddArgs, b.cost.length ≠ 1 →
        ∃ rh', (runAny exRH1 tr).add b = .error (.objectiveMismatch, rh')) ∧
      (∀ b : AddArgs, b.cost.length = 1 →
        ∀ rh', (runAny exRH1 tr).add b ≠ .error (.objectiveMismatch, rh')) :=
  C3_n_objectives_fixed exRH0 exRH1 exArgs 1 rfl rfl

/-- C10: `add` is not atomic on error.  On a ledger holding one
two-objective trial, adding a fresh configuration with a one-objective cost
raises the objective-count `ValueError`, yet the configuration keeps its
freshly assigned id in both id tables; and on the very first `add` of a
fresh ledger, a non-serializable payload raises after the objective count
has already been fixed and the configuration registered. -/
theorem C10_add_not_atomic :
    (∃ rh', exRHmulti.add { config := exCfg2, cost := [5] } =
        .error (.objectiveMismatch, rh') ∧
      cfgLookup rh'.config_ids exCfg2 = some 2 ∧
      odLookup rh'.ids_config 2 = some exCfg2) ∧
    (∃ rh', exRH0.add { config := exCfg2, cost := [1, 2], additional_info := none } =
        .error (.notSerializable, rh') ∧
      rh'.core.n_objectives = 2 ∧
      cfgLookup rh'.config_ids exCfg2 = some 1 ∧
      odLookup rh'.ids_config 1 = some exCfg2) := by
  constructor
  · exact ⟨_, rfl, rfl, rfl⟩
  · exact ⟨_, rfl, rfl, rfl, rfl⟩


/-- C7 counterexample: on a fresh ledger, `sum_cost` of a configuration that
was never run returns `0.0`, not the NaN sentinel. -/
theorem C7_sum_cost_zero_not_nan :
    exRH0.sum_cost exCfg2 none false = .ok (some [0]) ∧
    (Except.ok (some [0]) : Except PyErr (Option (List ℚ))) ≠ .ok none :=
  ⟨rfl, by decide⟩

/-- C7 (amended): outside the multi-objective setting, querying the cost of
a configuration that was never run raises nothing: `get_cost`,
`get_min_cost`, `average_cost` and `min_cost` return the NaN sentinel —
while `sum_cost` falls through to `float(np.sum([]))` and returns `0.0`. -/
theorem C7_no_data_sentinels (rh : RunHistory) (c : Config)
    (hc : cfgLookup rh.config_ids c = none)
    (hn : rh.core.n_objectives ≤ 1) :
    rh.get_cost c = .ok none ∧
    rh.get_min_cost c = .ok none ∧
    rh.average_cost c none false = .ok none ∧
    rh.min_cost c none false = .ok none ∧
    rh.sum_cost c none false = .ok (some [0]) := by
  have hgt : ¬rh.core.n_objectives > 1 := by omega
  refine ⟨?_, ?_, ?_, ?_, ?_⟩
  · simp [RunHistory.get_cost, cacheRead, hc, hgt]
  · simp [RunHistory.get_min_cost, cacheRead, hc, hgt]
  · simp [RunHistory.average_cost, average_cost_id, costsOf_id, hc, bind, Except.bind]
  · simp [RunHistory.min_cost, min_cost_id, costsOf_id, hc, bind, Except.bind]
  · simp [RunHistory.sum_cost, sum_cost_id, costsOf_id, hc, bind, Except.bind]

/-- C7 witness: the amended sentinel behavior on a concrete fresh ledger. -/
theorem C7_no_data_sentinels_witness :
    exRH0.get_cost exCfg2 = .ok none ∧
    exRH0.get_min_cost exCfg2 = .ok none ∧
    exRH0.average_cost exCfg2 none false = .ok none ∧
    exRH0.min_cost exCfg2 none false = .ok none ∧
    exRH0.sum_cost exCfg2 none false = .ok (some [0]) :=
  C7_no_data_sentinels exRH0 exCfg2 rfl (by decide)

/-- C6: the type-mixing "sanity checks" of `_add` do not fire.  First part:
a trial whose `None` instance mixes with the already recorded instance
`"i"` for the same configuration is accepted and recorded (the check
compares `isinstance` of two `InstanceSeedKey` objects, which is always
`False == False`).  Second part: a `None` budget mixing with the numeric
budget `3.0` already recorded for the instance-seed pair `(None, 5)` is
accepted and recorded (the guard `k.budget != isk.instance` is `None !=
None` and fails).  The spec's announced `ValueError` is raised in neither
case. -/
theorem C6_mixing_checks_do_not_fire :
    (∃ rh', exRH1.add
        { config := exCfg, cost := [5], inst := none, seed := some 3 } = .ok rh' ∧
      odLookup rh'.core.data ⟨1, none, some 3, none⟩ =
        some (addVal { config := exCfg, cost := [5], inst := none, seed := some 3 })) ∧
    (∃ rh', exRHbud.add
        { config := exCfg, cost := [5], inst := none, seed := some 5, budget := none } =
          .ok rh' ∧
      odLookup rh'.core.data ⟨1, none, some 5, none⟩ =
        some (addVal
          { config := exCfg, cost := [5], inst := none, seed := some 5, budget := none })) := by
  constructor
  · exact ⟨_, rfl, rfl⟩
  · exact ⟨_, rfl, rfl⟩

/-- C8 counterexample: loading a readable, well-formed JSON document that is
not in the persisted ledger format (here the empty object `{}`) raises a
`KeyError` after the configuration-id table has already been cleared — the
ledger is left partially modified, contradicting the no-partial-load claim. -/
theorem C8_load_json_partial_mutation :
    ∃ rh', exRH1.load_json (some (Json.jobj .nil)) = .error (.keyError, rh') ∧
      rh'.ids_config = [] ∧ exRH1.ids_config ≠ [] :=
  ⟨_, rfl, rfl, by decide⟩

/-- C8 (amended): only reading and JSON-parsing the file are guarded: for a
file that is unreadable or whose contents cannot be parsed as JSON,
`load_json` logs a warning and leaves the entire ledger state unchanged.  A
parseable document in the wrong shape may instead raise after clearing the
configuration-id table. -/
theorem C8_load_json_unreadable_unchanged (rh : RunHistory) :
    rh.load_json none = .ok rh := rfl


theorem collect_ok_of_wf (n : ℤ) (data : List (TrialKey × TrialValue))
    (hwf : ∀ p ∈ data, p.2.status = .SUCCESS → (p.2.cost.length : ℤ) = n) :
    collectSuccessCosts n (data.map (·.2)) =
      .ok (data.filterMap (fun p => if p.2.status = .SUCCESS then some p.2.cost else none)) := by
  induction data with
  | nil => rfl
  | cons p t ih =>
    have ht : ∀ q ∈ t, q.2.status = .SUCCESS → ((q.2.cost.length : ℤ)) = n :=
      fun q hq => hwf q (List.mem_cons_of_mem _ hq)
    simp only [List.map_cons, collectSuccessCosts, List.filterMap_cons]
    by_cases hs : p.2.status = .SUCCESS
    · rw [if_pos hs, if_pos (hwf p (List.mem_cons_self _ _) hs), ih ht, if_pos hs]
      rfl
    · rw [if_neg hs, ih ht, if_neg hs]

theorem foldl_zipWith_length (f : ℚ → ℚ → ℚ) (rest : List (List ℚ)) (acc : List ℚ) (w : ℕ)
    (hacc : acc.length = w) (hrest : ∀ l ∈ rest, l.length = w) :
    (rest.foldl (List.zipWith f) acc).length = w := by
  induction rest generalizing acc with
  | nil => simpa using hacc
  | cons l t ih =>
    simp only [List.foldl_cons]
    refine ih _ ?_ (fun q hq => hrest q (List.mem_cons_of_mem _ hq))
    rw [List.length_zipWith, hacc, hrest l (List.mem_cons_self _ _)]
    omega

theorem foldl_zipWith_getD (f : ℚ → ℚ → ℚ) (rest : List (List ℚ)) (acc : List ℚ) (w : ℕ)
    (hacc : acc.length = w) (hrest : ∀ l ∈ rest, l.length = w) (i : ℕ) (hi : i < w) :
    (rest.foldl (List.zipWith f) acc).getD i 0 =
      rest.foldl (fun q l => f q (l.getD i 0)) (acc.getD i 0) := by
  induction rest generalizing acc with
  | nil => rfl
  | cons l t ih =>
    simp only [List.foldl_cons]
    rw [ih _ (by rw [List.length_zipWith, hacc, hrest l (List.mem_cons_self _ _)]; omega)
        (fun q hq => hrest q (List.mem_cons_of_mem _ hq))]
    have hz : (List.zipWith f acc l).getD i 0 = f (acc.getD i 0) (l.getD i 0) := by
      have h1 : i < acc.length := by omega
      have h2 : i < l.length := by rw [hrest l (List.mem_cons_self _ _)]; omega
      rw [List.getD_eq_getElem _ _ (by rw [List.length_zipWith]; omega),
          List.getD_eq_getElem _ _ h1, List.getD_eq_getElem _ _ h2]
      simp
    rw [hz]

theorem getElem?_eq_some_getD (l : List ℚ) (i : ℕ) (h : i < l.length) :
    l[i]? = some (l.getD i 0) := by
  rw [List.getD_eq_getElem?_getD, List.getElem?_eq_getElem h]
  rfl

theorem filterMap_col_eq_map (cs : List (List ℚ)) (w i : ℕ)
    (h : ∀ l ∈ cs, l.length = w) (hi : i < w) :
    cs.filterMap (fun l => l[i]?) = cs.map (fun l => l.getD i 0) := by
  induction cs with
  | nil => rfl
  | cons l t ih =>
    simp only [List.filterMap_cons, List.map_cons]
    rw [List.getElem?_eq_getElem (by rw [h l (List.mem_cons_self _ _)]; omega)]
    rw [ih (fun q hq => h q (List.mem_cons_of_mem _ hq))]
    rw [List.getD_eq_getElem _ _ (by rw [h l (List.mem_cons_self _ _)]; omega)]

theorem uob_ok_spec (core c : Core)
    (hwf : ∀ p ∈ core.data, p.2.status = .SUCCESS →
      (p.2.cost.length : ℤ) = core.n_objectives)
    (h : core.update_objective_bounds = .ok c) :
    c.objective_bounds = objectiveBoundsSpec core.n_objectives core.data := by
  have hcol := collect_ok_of_wf core.n_objectives core.data hwf
  unfold Core.update_objective_bounds at h
  rw [hcol] at h
  simp only [bind, Except.bind] at h
  set succ := core.data.filterMap
    (fun p => if p.2.status = .SUCCESS then some p.2.cost else none) with hsucc
  split at h
  · -- no SUCCESS trial: every objective gets (inf, -inf)
    cases h
    rename_i hemp
    simp only [objectiveBoundsSpec, ← hsucc]
    rw [List.isEmpty_iff.mp hemp]
    simp [List.eq_replicate_iff]
  · cases h
    rename_i hemp
    rcases hcs : succ with _ | ⟨c0, rest⟩
    · rw [hcs] at hemp; simp at hemp
    · -- every SUCCESS cost has width n_objectives
      have hmemwf : ∀ l ∈ succ, (l.length : ℤ) = core.n_objectives := by
        intro l hl
        rw [hsucc] at hl
        obtain ⟨p, hp, hpeq⟩ := List.mem_filterMap.mp hl
        by_cases hs : p.2.status = .SUCCESS
        · rw [if_pos hs] at hpeq; cases hpeq; exact hwf p hp hs
        · rw [if_neg hs] at hpeq; cases hpeq
      have hn0 : 0 ≤ core.n_objectives := by
        have := hmemwf c0 (by rw [hcs]; exact List.mem_cons_self _ _)
        omega
      set w := core.n_objectives.toNat with hw
      have hlen : ∀ l ∈ succ, l.length = w := by
        intro l hl
        have := hmemwf l hl
        omega
      have hc0 : c0.length = w := hlen c0 (by rw [hcs]; exact List.mem_cons_self _ _)
      have hrest : ∀ l ∈ rest, l.length = w := by
        intro l hl
        exact hlen l (by rw [hcs]; exact List.mem_cons_of_mem _ hl)
      simp only [objectiveBoundsSpec, ← hsucc]
      rw [hcs]
      simp only [npAxis0]
      apply List.ext_getElem?
      intro i
      rw [List.getElem?_map, List.getElem?_map]
      by_cases hi : i < w
      · have hbmin : i < (rest.foldl (List.zipWith min) c0).length := by
          rw [foldl_zipWith_length min rest c0 w hc0 hrest]; omega
        have hbmax : i < (rest.foldl (List.zipWith max) c0).length := by
          rw [foldl_zipWith_length max rest c0 w hc0 hrest]; omega
        have hzip : ((rest.foldl (List.zipWith min) c0).zip
            (rest.foldl (List.zipWith max) c0))[i]? =
            some ((rest.foldl (List.zipWith min) c0).getD i 0,
                  (rest.foldl (List.zipWith max) c0).getD i 0) := by
          rw [List.getElem?_zip_eq_some]
          exact ⟨getElem?_eq_some_getD _ _ (by omega), getElem?_eq_some_getD _ _ (by omega)⟩
        rw [hzip, List.getElem?_range hi]
        simp only [Option.map_some']
        rw [filterMap_col_eq_map (c0 :: rest) w i (by
          intro l hl
          rcases List.mem_cons.mp hl with rfl | hl
          · exact hc0
          · exact hrest l hl) hi]
        simp only [List.map_cons]
        rw [foldl_zipWith_getD min rest c0 w hc0 hrest i hi,
            foldl_zipWith_getD max rest c0 w hc0 hrest i hi, List.foldl_map,
            List.foldl_map]
      · have h1 : ((rest.foldl (List.zipWith min) c0).zip
            (rest.foldl (List.zipWith max) c0))[i]? = none := by
          rw [List.getElem?_eq_none]
          rw [List.length_zip, foldl_zipWith_length min rest c0 w hc0 hrest,
              foldl_zipWith_length max rest c0 w hc0 hrest]
          omega
        have h2 : (List.range w)[i]? = none := by
          rw [List.getElem?_eq_none]
          rw [List.length_range]
          omega
        rw [h1, h2]
        rfl

theorem mem_odInsert {α β : Type} [DecidableEq α] (m : List (α × β)) (k : α) (v : β)
    (p : α × β) (h : p ∈ odInsert m k v) : p = (k, v) ∨ p ∈ m := by
  induction m with
  | nil => simpa [odInsert] using h
  | cons q t ih =>
    obtain ⟨qk, qv⟩ := q
    by_cases hq : qk = k
    · subst hq
      simp only [odInsert, if_pos rfl] at h
      rcases List.mem_cons.mp h with rfl | hh
      · exact Or.inl rfl
      · exact Or.inr (List.mem_cons_of_mem _ hh)
    · simp only [odInsert, if_neg hq] at h
      rcases List.mem_cons.mp h with rfl | hh
      · exact Or.inr (List.mem_cons_self _ _)
      · rcases ih hh with hh' | hh'
        · exact Or.inl hh'
        · exact Or.inr (List.mem_cons_of_mem _ hh')

theorem add_inner_ok_bounds (ci : List (Config × ℤ)) (ic : List (ℤ × Config))
    (core : Core) (k : TrialKey) (v : TrialValue) (s : StatusType) (o : DataOrigin)
    (c' : Core) (h : _add_inner ci ic core k v s o = .ok c') :
    ∃ c1, (coreWithTrial core k v o).update_objective_bounds = .ok c1 ∧
      c'.objective_bounds = c1.objective_bounds := by
  simp only [_add_inner] at h
  split at h
  · exact absurd h (by simp)
  · rename_i c1 heq
    refine ⟨c1, heq, ?_⟩
    split at h
    · split at h
      · exact absurd h (by simp)
      · split at h
        · obtain ⟨cc, nn, mm, hf⟩ := frame_cus ci ic _ k v
          rw [h] at hf
          simp only [carried] at hf
          simp [hf]
        · split at h
          · split at h
            · exact absurd h (by simp)
            · split at h
              · exact absurd h (by simp)
              · obtain ⟨cc, nn, mm, hf⟩ := frame_cus ci ic _ k v
                rw [h] at hf
                simp only [carried] at hf
                simp [hf]
          · obtain ⟨cc, nn, mm, hf⟩ := frame_cus ci ic _ k v
            rw [h] at hf
            simp only [carried] at hf
            simp [hf]
    · cases h
      rfl

theorem addAfterN_ok_bounds (rh : RunHistory) (cid : ℤ) (a : AddArgs) (rh' : RunHistory)
    (h : addAfterN rh cid a = .ok rh')
    (hnodedup : rh.core.overwrite_existing_trials = true ∨ a.force_update = true ∨
        odLookup rh.core.data ⟨cid, a.inst, a.seed, a.budget⟩ = none) :
    ∃ c1, (coreWithTrial rh.core ⟨cid, a.inst, a.seed, a.budget⟩ (addVal a)
        a.origin).update_objective_bounds = .ok c1 ∧
      rh'.core.objective_bounds = c1.objective_bounds := by
  simp only [addAfterN] at h
  split at h
  · exact absurd h (by simp)
  · split at h
    · rcases hA : _add_inner rh.config_ids rh.ids_config rh.core
          ⟨cid, a.inst, a.seed, a.budget⟩
          ⟨a.cost, a.time, a.status, a.starttime, a.endtime, a.additional_info⟩
          a.status a.origin with ⟨e, c⟩ | c <;> rw [hA] at h
      · exact absurd h (by simp)
      · cases h
        obtain ⟨c1, h1, h2⟩ := add_inner_ok_bounds _ _ _ _ _ _ _ _ hA
        exact ⟨c1, h1, h2⟩
    · rename_i hguard
      exfalso
      rcases hnodedup with hh | hh | hh
      · simp [hh] at hguard
      · simp [hh] at hguard
      · simp [hh] at hguard

theorem bounds_after_addAfterN (rhX : RunHistory) (cid : ℤ) (a : AddArgs)
    (rh' : RunHistory) (h : addAfterN rhX cid a = .ok rh')
    (hn : rhX.core.n_objectives = (a.cost.length : ℤ))
    (hwfX : ∀ p ∈ rhX.core.data, p.2.status = .SUCCESS →
      (p.2.cost.length : ℤ) = rhX.core.n_objectives)
    (hnodedup : rhX.core.overwrite_existing_trials = true ∨ a.force_update = true ∨
        odLookup rhX.core.data ⟨cid, a.inst, a.seed, a.budget⟩ = none) :
    rh'.core.objective_bounds =
      objectiveBoundsSpec rh'.core.n_objectives rh'.core.data := by
  obtain ⟨fi, f2, f3, f4, f5, f6, fcase⟩ := addAfterN_ok rhX cid a rh' h
  obtain ⟨c1, h1, h2⟩ := addAfterN_ok_bounds rhX cid a rh' h hnodedup
  have hdata' : rh'.core.data =
      odInsert rhX.core.data ⟨cid, a.inst, a.seed, a.budget⟩ (addVal a) := by
    rcases fcase with ⟨hov0, hforce0, hsome, _⟩ | hd
    · exfalso
      rcases hnodedup with hh | hh | hh
      · rw [hh] at hov0; exact absurd hov0 (by simp)
      · rw [hh] at hforce0; exact absurd hforce0 (by simp)
      · rw [hh] at hsome; exact absurd hsome (by simp)
    · exact hd
  have hwf2 : ∀ p ∈ (coreWithTrial rhX.core ⟨cid, a.inst, a.seed, a.budget⟩
      (addVal a) a.origin).data, p.2.status = .SUCCESS →
      (p.2.cost.length : ℤ) =
        (coreWithTrial rhX.core ⟨cid, a.inst, a.seed, a.budget⟩
          (addVal a) a.origin).n_objectives := by
    intro p hp hs
    simp only [coreWithTrial] at hp ⊢
    rcases mem_odInsert _ _ _ _ hp with rfl | hmem
    · simpa [addVal] using hn.symm
    · exact hwfX p hmem hs
  rw [h2, uob_ok_spec _ c1 hwf2 h1]
  simp only [coreWithTrial]
  rw [← hdata', f6]

/-- C9: after every insertion into the ledger through `add`,
`objective_bounds` equals, per objective, the (min, max) of that objective
over exactly the `SUCCESS`-status trials of the resulting ledger — and
`(+inf, -inf)` for an objective with no `SUCCESS` trial; trials of any other
status never influence the bounds.  The hypotheses say the ledger is
well-formed (`SUCCESS` costs match `n_objectives`, which is `-1` only on an
empty ledger) and that the call actually inserts (fresh key, or overwrite /
force requested). -/
theorem C9_objective_bounds (rh rh' : RunHistory) (a : AddArgs)
    (hwf : ∀ p ∈ rh.core.data, p.2.status = .SUCCESS →
      (p.2.cost.length : ℤ) = rh.core.n_objectives)
    (hne : rh.core.n_objectives = -1 → rh.core.data = [])
    (hins : rh.core.overwrite_existing_trials = true ∨ a.force_update = true ∨
        odLookup rh.core.data (addKey rh a) = none)
    (h : rh.add a = .ok rh') :
    rh'.core.objective_bounds =
      objectiveBoundsSpec rh'.core.n_objectives rh'.core.data := by
  simp only [RunHistory.add] at h
  rcases hc : cfgLookup rh.config_ids a.config with _ | cid <;> rw [hc] at h <;>
    simp only [addKey, resolvedId, hc, Option.getD_some, Option.getD_none] at hins <;>
    simp only [addAfterId] at h
  case none =>
    split at h
    · rename_i hn1
      have hdata0 : rh.core.data = [] := hne hn1
      refine bounds_after_addAfterN _ _ _ _ h rfl ?_ (Or.inr (Or.inr ?_))
      · intro p hp hs
        rw [show ({ rh with
            n_id := rh.n_id + 1,
            config_ids := cfgInsert rh.config_ids a.config (rh.n_id + 1),
            ids_config := odInsert rh.ids_config (rh.n_id + 1) a.config
            } : RunHistory).core.data = rh.core.data from rfl, hdata0] at hp
        cases hp
      · rw [show ({ rh with
            n_id := rh.n_id + 1,
            config_ids := cfgInsert rh.config_ids a.config (rh.n_id + 1),
            ids_config := odInsert rh.ids_config (rh.n_id + 1) a.config
            } : RunHistory).core.data = rh.core.data from rfl, hdata0]
        rfl
    · split at h
      · exact absurd h (by simp)
      · rename_i hn1 hn2
        have hn : rh.core.n_objectives = (a.cost.length : ℤ) := by
          by_contra hq; exact hn2 hq
        exact bounds_after_addAfterN _ _ _ _ h hn hwf hins
  case some =>
    split at h
    · rename_i hn1
      have hdata0 : rh.core.data = [] := hne hn1
      refine bounds_after_addAfterN _ _ _ _ h rfl ?_ (Or.inr (Or.inr ?_))
      · intro p hp hs
        rw [show ({ rh with core := { rh.core with
            n_objectives := (a.cost.length : ℤ) } } : RunHistory).core.data =
            rh.core.data from rfl, hdata0] at hp
        cases hp
      · rw [show ({ rh with core := { rh.core with
            n_objectives := (a.cost.length : ℤ) } } : RunHistory).core.data =
            rh.core.data from rfl, hdata0]
        rfl
    · split at h
      · exact absurd h (by simp)
      · rename_i hn1 hn2
        have hn : rh.core.n_objectives = (a.cost.length : ℤ) := by
          by_contra hq; exact hn2 hq
        exact bounds_after_addAfterN _ _ _ _ h hn hwf hins

/-- C9 witness: the bounds invariant evaluated on a concrete insertion. -/
theorem C9_objective_bounds_witness :
    exRH1.core.objective_bounds =
      objectiveBoundsSpec exRH1.core.n_objectives exRH1.core.data :=
  C9_objective_bounds exRH0 exRH1 exArgs
    (fun p hp => absurd hp (List.not_mem_nil p))
    (fun _ => rfl)
    (Or.inr (Or.inr rfl))
    rfl


theorem foldl_min_le_init (q : ℚ) (qs : List ℚ) : qs.foldl min q ≤ q := by
  induction qs generalizing q with
  | nil => exact le_refl q
  | cons x xs ih =>
    simp only [List.foldl_cons]
    exact le_trans (ih (min q x)) (min_le_left q x)

theorem foldl_min_le_mem (q : ℚ) (qs : List ℚ) (x : ℚ) (hx : x ∈ qs) :
    qs.foldl min q ≤ x := by
  induction qs generalizing q with
  | nil => cases hx
  | cons y ys ih =>
    simp only [List.foldl_cons]
    rcases List.mem_cons.mp hx with rfl | hx'
    · exact le_trans (foldl_min_le_init _ _) (min_le_right q x)
    · exact ih _ hx'

theorem foldl_min_le_all (q : ℚ) (qs : List ℚ) (x : ℚ) (hx : x ∈ q :: qs) :
    qs.foldl min q ≤ x := by
  rcases List.mem_cons.mp hx with rfl | hx'
  · exact foldl_min_le_init _ _
  · exact foldl_min_le_mem _ _ _ hx'

theorem foldl_min_mem (q : ℚ) (qs : List ℚ) :
    qs.foldl min q = q ∨ qs.foldl min q ∈ qs := by
  induction qs generalizing q with
  | nil => exact Or.inl rfl
  | cons x xs ih =>
    simp only [List.foldl_cons]
    rcases ih (min q x) with h | h
    · rcases min_cases q x with ⟨hm, _⟩ | ⟨hm, _⟩
      · exact Or.inl (h.trans hm)
      · exact Or.inr (by rw [h, hm]; exact List.mem_cons_self _ _)
    · exact Or.inr (List.mem_cons_of_mem _ h)

theorem foldl_min_of_ge (q : ℚ) (qs : List ℚ) (h : ∀ v ∈ qs, q ≤ v) :
    qs.foldl min q = q := by
  induction qs generalizing q with
  | nil => rfl
  | cons x xs ih =>
    simp only [List.foldl_cons]
    rw [min_eq_left (h x (List.mem_cons_self _ _))]
    exact ih q (fun v hv => h v (List.mem_cons_of_mem _ hv))

theorem mem_filter_map_val {t : List (Config × ℚ)} {P : Config × ℚ → Bool} {v : ℚ}
    (h : v ∈ (t.filter P).map (·.2)) : ∃ p ∈ t, P p = true ∧ p.2 = v := by
  obtain ⟨p, hp, hpv⟩ := List.mem_map.mp h
  obtain ⟨hpt, hP⟩ := List.mem_filter.mp hp
  exact ⟨p, hpt, hP, hpv⟩

theorem mem_filter_map_val_mpr {t : List (Config × ℚ)} {P : Config × ℚ → Bool}
    {p : Config × ℚ} (hpt : p ∈ t) (hP : P p = true) :
    p.2 ∈ (t.filter P).map (·.2) :=
  List.mem_map.mpr ⟨p, List.mem_filter.mpr ⟨hpt, hP⟩, rfl⟩

theorem bestPure_go (cands : List (Config × ℚ)) :
    ∀ (inc : Option Config) (low : Option ℚ),
    (bestPure cands (inc, low)).1 =
      match (cands.filter (fun p => qltB p.2 low)).map (·.2) with
      | [] => inc
      | q :: qs => (cands.find? (fun p => p.2 = qs.foldl min q)).map (·.1) := by
  induction cands with
  | nil => intro inc low; rfl
  | cons hd t ih =>
    obtain ⟨c, q⟩ := hd
    intro inc low
    cases hq : qltB q low with
    | true =>
      have hstep : bestPure ((c, q) :: t) (inc, low) = bestPure t (some c, some q) := by
        simp [bestPure, hq]
      have hfil : ((c, q) :: t).filter (fun p => qltB p.2 low) =
          (c, q) :: t.filter (fun p => qltB p.2 low) := by
        simp [List.filter_cons, hq]
      rw [hstep, hfil, List.map_cons, ih (some c) (some q)]
      rcases hF : (t.filter (fun p => qltB p.2 (some q))).map (·.2) with _ | ⟨q', qs'⟩
      all_goals rw [hF]
      all_goals dsimp only
      · -- no value of t lies strictly below q: the head wins
        have hge : ∀ v ∈ (t.filter (fun p => qltB p.2 low)).map (·.2), q ≤ v := by
          intro v hv
          obtain ⟨p, hpt, _, hpv⟩ := mem_filter_map_val hv
          by_contra hlt
          push_neg at hlt
          have hmem : v ∈ (t.filter (fun p => qltB p.2 (some q))).map (·.2) := by
            rw [← hpv]
            exact mem_filter_map_val_mpr hpt (by simp [qltB, hpv, hlt])
          rw [hF] at hmem
          cases hmem
        rw [foldl_min_of_ge q _ hge]
        simp [List.find?_cons]
      · -- some value of t lies strictly below q
        have hmemM : qs'.foldl min q' ∈ (t.filter (fun p => qltB p.2 (some q))).map (·.2) := by
          rw [hF]
          rcases foldl_min_mem q' qs' with h | h
          · rw [h]; exact List.mem_cons_self _ _
          · exact List.mem_cons_of_mem _ h
        have hlt_q : ∀ v ∈ (t.filter (fun p => qltB p.2 (some q))).map (·.2), v < q := by
          intro v hv
          obtain ⟨p, hpt, hP, hpv⟩ := mem_filter_map_val hv
          rw [← hpv]
          simpa [qltB] using hP
        have hMq : qs'.foldl min q' < q := hlt_q _ hmemM
        have hsub : ∀ v ∈ (t.filter (fun p => qltB p.2 (some q))).map (·.2),
            v ∈ (t.filter (fun p => qltB p.2 low)).map (·.2) := by
          intro v hv
          obtain ⟨p, hpt, hP, hpv⟩ := mem_filter_map_val hv
          have hvq : v < q := hlt_q v hv
          rw [← hpv]
          refine mem_filter_map_val_mpr hpt ?_
          cases low with
          | none => simp [qltB]
          | some lw =>
            have hqlw : q < lw := by simpa [qltB] using hq
            simp only [qltB, decide_eq_true_eq]
            rw [hpv]
            exact lt_trans hvq hqlw
        have hmM : ((t.filter (fun p => qltB p.2 low)).map (·.2)).foldl min q =
            qs'.foldl min q' := by
          have h1 : ((t.filter (fun p => qltB p.2 low)).map (·.2)).foldl min q ≤
              qs'.foldl min q' := foldl_min_le_mem _ _ _ (hsub _ hmemM)
          have h2 : qs'.foldl min q' ≤
              ((t.filter (fun p => qltB p.2 low)).map (·.2)).foldl min q := by
            rcases foldl_min_mem q ((t.filter (fun p => qltB p.2 low)).map (·.2)) with
              hh | hh
            · exfalso
              rw [hh] at h1
              exact absurd (lt_of_le_of_lt h1 hMq) (lt_irrefl q)
            · by_cases hmq :
                ((t.filter (fun p => qltB p.2 low)).map (·.2)).foldl min q < q
              · have hin : ((t.filter (fun p => qltB p.2 low)).map (·.2)).foldl min q ∈
                    (t.filter (fun p => qltB p.2 (some q))).map (·.2) := by
                  obtain ⟨p, hpt, _, hpv⟩ := mem_filter_map_val hh
                  rw [← hpv]
                  refine mem_filter_map_val_mpr hpt ?_
                  simp only [qltB, decide_eq_true_eq]
                  rw [hpv]
                  exact hmq
                rw [hF] at hin
                exact foldl_min_le_all _ _ _ hin
              · exfalso
                push_neg at hmq
                exact absurd (lt_of_lt_of_le (lt_of_le_of_lt h1 hMq) hmq)
                  (lt_irrefl _)
          exact le_antisymm h1 h2
        rw [hmM]
        have hhead : (decide (q = qs'.foldl min q')) = false := by
          simp only [decide_eq_false_iff_not]
          intro hcon
          rw [hcon] at hMq
          exact lt_irrefl _ hMq
        simp [List.find?_cons, hhead]
    | false =>
      have hstep : bestPure ((c, q) :: t) (inc, low) = bestPure t (inc, low) := by
        simp [bestPure, hq]
      have hfil : ((c, q) :: t).filter (fun p => qltB p.2 low) =
          t.filter (fun p => qltB p.2 low) := by
        simp [List.filter_cons, hq]
      rw [hstep, hfil, ih inc low]
      rcases hF : (t.filter (fun p => qltB p.2 low)).map (·.2) with _ | ⟨q0, qs0⟩
      all_goals rw [hF]
      have hmemM : qs0.foldl min q0 ∈ (t.filter (fun p => qltB p.2 low)).map (·.2) := by
        rw [hF]
        rcases foldl_min_mem q0 qs0 with h | h
        · rw [h]; exact List.mem_cons_self _ _
        · exact List.mem_cons_of_mem _ h
      have hql : qltB (qs0.foldl min q0) low = true := by
        obtain ⟨p, hpt, hP, hpv⟩ := mem_filter_map_val hmemM
        rw [← hpv]
        exact hP
      have hhead : (decide (q = qs0.foldl min q0)) = false := by
        simp only [decide_eq_false_iff_not]
        intro hcon
        rw [← hcon] at hql
        rw [hql] at hq
        cases hq
      simp [List.find?_cons, hhead]

theorem incumbentLoop_eq_bestPure (rh : RunHistory) (cs : List (Config × ℤ)) :
    ∀ (inc : Option Config) (low : Option ℚ),
    (∀ p ∈ cs, ∃ v, rh.get_cost p.1 = .ok v) →
    incumbentLoop rh cs inc low =
      .ok (bestPure (cs.filterMap (fun p =>
        match rh.get_cost p.1 with
        | .ok (some q) => some (p.1, q)
        | _ => none)) (inc, low)).1 := by
  induction cs with
  | nil => intro inc low _; rfl
  | cons p t ih =>
    intro inc low hok
    obtain ⟨v, hv⟩ := hok p (List.mem_cons_self _ _)
    obtain ⟨pc, pi⟩ := p
    simp only [incumbentLoop, List.filterMap_cons, hv, bind, Except.bind]
    cases v with
    | none =>
      exact ih inc low (fun q hq => hok q (List.mem_cons_of_mem _ hq))
    | some q =>
      simp only [bestPure]
      rw [show (match low with
          | none => true
          | some lw => decide (q < lw)) = qltB q low from rfl]
      by_cases hq : qltB q low = true
      · rw [if_pos hq, if_pos hq]
        exact ih (some pc) (some q) (fun r hr => hok r (List.mem_cons_of_mem _ hr))
      · rw [if_neg hq, if_neg hq]
        exact ih inc low (fun r hr => hok r (List.mem_cons_of_mem _ hr))

/-- C4: `get_incumbent` implements the spec's rule: among the registered
configurations it returns the one whose `get_cost` value is minimal, and
when several configurations share the minimal cost the first-registered one
is kept (only a strictly lower cost replaces the current best); `none` when
no configuration has a numeric cost.  The hypothesis says `get_cost` raises
on no registered configuration. -/
theorem C4_get_incumbent_spec (rh : RunHistory)
    (hok : ∀ p ∈ rh.config_ids, ∃ v, rh.get_cost p.1 = .ok v) :
    rh.get_incumbent = .ok (incumbentSpec rh) := by
  unfold RunHistory.get_incumbent incumbentSpec
  rw [incumbentLoop_eq_bestPure rh rh.config_ids none none hok]
  rw [bestPure_go]
  have hfilter : (rh.config_ids.filterMap (fun p =>
      match rh.get_cost p.1 with
      | .ok (some q) => some (p.1, q)
      | _ => none)).filter (fun p => qltB p.2 none) =
      rh.config_ids.filterMap (fun p =>
        match rh.get_cost p.1 with
        | .ok (some q) => some (p.1, q)
        | _ => none) := by
    apply List.filter_eq_self.mpr
    intro p _
    rfl
  rw [hfilter]

/-- C4 witness: evaluated on a three-configuration ledger. -/
theorem C4_get_incumbent_spec_witness :
    exRHtri.get_incumbent = .ok (incumbentSpec exRHtri) :=
  C4_get_incumbent_spec exRHtri (by
    intro p hp
    have hcs : exRHtri.config_ids = [(exCfg, 1), (exCfg2, 2), (⟨3, none⟩, 3)] := by decide
    rw [hcs] at hp
    simp only [List.mem_cons, List.not_mem_nil, or_false] at hp
    rcases hp with rfl | rfl | rfl
    · exact ⟨_, rfl⟩
    · exact ⟨_, rfl⟩
    · exact ⟨_, rfl⟩)


/-! ### Budget-zero cache consistency: definitions -/

/-- The scalar cost recorded in the ledger for a budget-0 trial of
`config_id` at an instance-seed pair (0 when absent or empty). -/
def keyCost (data : List (TrialKey × TrialValue)) (cid : ℤ) (isk : InstanceSeedKey) : ℚ :=
  ((odLookup data ⟨cid, isk.inst, isk.seed, some 0⟩).map (fun v => v.cost.headD 0)).getD 0

/-- The sum of the recorded budget-0 costs over an instance-seed table. -/
def outerSum (data : List (TrialKey × TrialValue)) (cid : ℤ)
    (outer : List (InstanceSeedKey × List (Option ℚ))) : ℚ :=
  (outer.map (fun p => keyCost data cid p.1)).sum

/-- The state invariant maintained by successful budget-0, non-forced `add`
calls on a single-objective ledger with overwriting disabled: the id tables
are consistent, every instance-seed entry carries exactly the budget list
`[0]` and points at a recorded single-objective trial, and the incremental
cost cache holds, per configuration, exactly the arithmetic mean of the
recorded costs. -/
structure C1Inv (rh : RunHistory) : Prop where
  ov : rh.core.overwrite_existing_trials = false
  nobj : rh.core.n_objectives = -1 ∨ rh.core.n_objectives = 1
  idbound : ∀ p ∈ rh.config_ids, p.2 ≤ rh.n_id
  cidNodup : (rh.config_ids.map Prod.snd).Nodup
  cfgNodup : (rh.config_ids.map (fun p => p.1.values)).Nodup
  idsConsistent : ∀ p ∈ rh.config_ids, odLookup rh.ids_config p.2 = some p.1
  tabKeyNodup : ((rh.core.config_id_to_isk_to_budget).map Prod.fst).Nodup
  tabReg : ∀ q ∈ rh.core.config_id_to_isk_to_budget, q.1 ∈ rh.config_ids.map Prod.snd
  tabNe : ∀ q ∈ rh.core.config_id_to_isk_to_budget, q.2 ≠ []
  tabIskNodup : ∀ q ∈ rh.core.config_id_to_isk_to_budget, (q.2.map Prod.fst).Nodup
  tabData : ∀ q ∈ rh.core.config_id_to_isk_to_budget, ∀ r ∈ q.2,
    r.2 = [some 0] ∧
    ∃ v, odLookup rh.core.data ⟨q.1, r.1.inst, r.1.seed, some 0⟩ = some v ∧ ∃ c, v.cost = [c]
  cacheNum : ∀ q ∈ rh.core.config_id_to_isk_to_budget,
    odLookup rh.core.num_trials_per_config q.1 = some q.2.length
  cacheCost : ∀ q ∈ rh.core.config_id_to_isk_to_budget,
    odLookup rh.core.cost_per_config q.1 =
      some (some [outerSum rh.core.data q.1 q.2 / (q.2.length : ℚ)])
  costDom : ∀ cid : ℤ, (odLookup rh.core.cost_per_config cid).isSome →
    (odLookup rh.core.config_id_to_isk_to_budget cid).isSome
  numDom : ∀ cid : ℤ, (odLookup rh.core.num_trials_per_config cid).isSome →
    (odLookup rh.core.config_id_to_isk_to_budget cid).isSome

/-- A budget-0 trial, then the same key re-added with `force_update=True`:
the incremental path then double-counts the overwritten trial. -/
def exRHforce : RunHistory :=
  runAny exRH0
    [ { config := exCfg, cost := [4], inst := some "i", seed := some 3, budget := some 0 },
      { config := exCfg, cost := [8], inst := some "i", seed := some 3, budget := some 0,
        force_update := true } ]

/-- A three-configuration budget-0 trace (the `add` calls behind
`exRHtri`). -/
def exTrace : List AddArgs :=
  [ { config := exCfg, cost := [4], inst := some "i", seed := some 1, budget := some 0 },
    { config := exCfg2, cost := [2], inst := some "i", seed := some 1, budget := some 0 },
    { config := ⟨3, none⟩, cost := [7], inst := some "i", seed := some 1, budget := some 0 } ]

/-! ### Budget-zero cache consistency: dictionary lemmas -/

theorem odLookup_mem {α β : Type} [DecidableEq α] (m : List (α × β)) (k : α) (v : β)
    (h : odLookup m k = some v) : (k, v) ∈ m := by
  simp only [odLookup, Option.map_eq_some'] at h
  obtain ⟨p, hp, hv⟩ := h
  have hm := List.mem_of_find?_eq_some hp
  have hk := List.find?_some hp
  simp only [decide_eq_true_eq] at hk
  cases p
  cases hk
  cases hv
  exact hm

theorem odLookup_eq_none_iff {α β : Type} [DecidableEq α] (m : List (α × β)) (k : α) :
    odLookup m k = none ↔ k ∉ m.map Prod.fst := by
  simp only [odLookup, Option.map_eq_none', List.find?_eq_none, decide_eq_true_eq,
    List.mem_map]
  constructor
  · rintro h ⟨p, hp, hk⟩
    exact h p hp hk
  · rintro h p hp hk
    exact h ⟨p, hp, hk⟩

theorem odLookup_of_mem_nodup {α β : Type} [DecidableEq α] (m : List (α × β))
    (p : α × β) (hp : p ∈ m) (hnd : (m.map Prod.fst).Nodup) :
    odLookup m p.1 = some p.2 := by
  induction m with
  | nil => cases hp
  | cons q t ih =>
    obtain ⟨qk, qv⟩ := q
    rw [List.map_cons, List.nodup_cons] at hnd
    rcases List.mem_cons.mp hp with rfl | hp'
    · simp [odLookup_cons]
    · have hne : qk ≠ p.1 := by
        intro hcon
        exact hnd.1 (hcon ▸ List.mem_map.mpr ⟨p, hp', rfl⟩)
      rw [odLookup_cons, if_neg hne]
      exact ih hp' hnd.2

theorem mem_key_unique {α β : Type} [DecidableEq α] (m : List (α × β))
    (hnd : (m.map Prod.fst).Nodup) (p q : α × β) (hp : p ∈ m) (hq : q ∈ m)
    (hk : p.1 = q.1) : p = q := by
  have h1 := odLookup_of_mem_nodup m p hp hnd
  have h2 := odLookup_of_mem_nodup m q hq hnd
  rw [hk, h2] at h1
  cases p; cases q
  cases hk
  simpa using h1.symm

theorem odInsert_odInsert {α β : Type} [DecidableEq α] (m : List (α × β)) (k : α)
    (v₁ v₂ : β) : odInsert (odInsert m k v₁) k v₂ = odInsert m k v₂ := by
  induction m with
  | nil => simp [odInsert]
  | cons p t ih =>
    obtain ⟨pk, pv⟩ := p
    by_cases h : pk = k
    · simp [odInsert, h]
    · simp only [odInsert, if_neg h]
      rw [ih]

theorem odInsert_keys_nodup {α β : Type} [DecidableEq α] (m : List (α × β)) (k : α) (v : β)
    (h : (m.map Prod.fst).Nodup) : ((odInsert m k v).map Prod.fst).Nodup := by
  induction m with
  | nil => simp [odInsert]
  | cons p t ih =>
    obtain ⟨pk, pv⟩ := p
    rw [List.map_cons, List.nodup_cons] at h
    by_cases hk : pk = k
    · subst hk
      rw [show odInsert ((pk, pv) :: t) pk v = (pk, v) :: t from by simp [odInsert]]
      simp only [List.map_cons, List.nodup_cons]
      exact ⟨h.1, h.2⟩
    · simp only [odInsert, if_neg hk, List.map_cons, List.nodup_cons]
      refine ⟨?_, ih h.2⟩
      intro hcon
      rcases List.mem_map.mp hcon with ⟨q, hq, hqk⟩
      rcases mem_odInsert t k v q hq with rfl | hq'
      · exact hk hqk.symm
      · exact h.1 (List.mem_map.mpr ⟨q, hq', hqk⟩)

theorem cfgLookup_mem {β : Type} (m : List (Config × β)) (c : Config) (v : β)
    (h : cfgLookup m c = some v) : ∃ c₀, (c₀, v) ∈ m ∧ c₀.values = c.values := by
  simp only [cfgLookup, Option.map_eq_some'] at h
  obtain ⟨p, hp, hv⟩ := h
  have hm := List.mem_of_find?_eq_some hp
  have hk := List.find?_some hp
  simp only [decide_eq_true_eq] at hk
  cases hv
  exact ⟨p.1, by simpa using hm, hk⟩

theorem cfgLookup_of_mem_nodup {β : Type} (m : List (Config × β))
    (p : Config × β) (hp : p ∈ m) (hnd : (m.map (fun q => q.1.values)).Nodup) :
    cfgLookup m p.1 = some p.2 := by
  induction m with
  | nil => cases hp
  | cons q t ih =>
    obtain ⟨qc, qv⟩ := q
    rw [List.map_cons, List.nodup_cons] at hnd
    rcases List.mem_cons.mp hp with rfl | hp'
    · simp [cfgLookup_cons]
    · have hne : qc.values ≠ p.1.values := by
        intro hcon
        exact hnd.1 (hcon ▸ List.mem_map.mpr ⟨p, hp', rfl⟩)
      rw [cfgLookup_cons, if_neg hne]
      exact ih hp' hnd.2

theorem cfgInsert_of_lookup_none {β : Type} (m : List (Config × β)) (c : Config) (v : β)
    (h : cfgLookup m c = none) : cfgInsert m c v = m ++ [(c, v)] := by
  induction m with
  | nil => rfl
  | cons p t ih =>
    rw [cfgLookup_cons] at h
    by_cases hp : p.1.values = c.values
    · simp [hp] at h
    · obtain ⟨pc, pv⟩ := p
      simp only [cfgInsert, if_neg hp, List.cons_append]
      rw [ih (by simpa [hp] using h)]

theorem outerSum_odInsert (data : List (TrialKey × TrialValue)) (k : TrialKey)
    (v : TrialValue) (cid : ℤ) (outer : List (InstanceSeedKey × List (Option ℚ)))
    (h : ∀ r ∈ outer, (⟨cid, r.1.inst, r.1.seed, some 0⟩ : TrialKey) ≠ k) :
    outerSum (odInsert data k v) cid outer = outerSum data cid outer := by
  unfold outerSum
  congr 1
  apply List.map_congr_left
  intro r hr
  unfold keyCost
  rw [odLookup_odInsert_ne data k _ v (fun hc => h r hr hc.symm)]

/-! ### Budget-zero cache consistency: counterexample -/

/-- C1 counterexample: re-adding the key of an existing budget-0 trial with
`force_update=True` overwrites the ledger entry but still runs the
incremental moving average, double-counting the trial: the incremental cache
holds 6 (the average of the stale cost 4 and the new cost 8) while a full
`update_costs` recomputation yields 8. -/
theorem C1_force_update_divergence :
    ∃ rh₂, exRHforce.update_costs none = .ok rh₂ ∧
      cacheRead exRHforce.core.cost_per_config (some 1) = some [6] ∧
      cacheRead rh₂.core.cost_per_config (some 1) = some [8] := by
  refine ⟨carried (exRHforce.update_costs none), rfl, ?_, ?_⟩
  · have h : cacheRead exRHforce.core.cost_per_config (some 1) =
        some [((0 * ((0:ℕ):ℚ) + 4) / (((0:ℕ):ℚ) + 1) * ((1:ℕ):ℚ) + 8) / (((1:ℕ):ℚ) + 1)] := rfl
    rw [h]
    norm_num
  · have h : cacheRead (carried (exRHforce.update_costs none)).core.cost_per_config (some 1) =
        some [List.sum (List.flatten [[(8:ℚ)]]) /
          ((List.length (List.flatten [[(8:ℚ)]]) : ℕ) : ℚ)] := rfl
    rw [h]
    norm_num


/-! ### Budget-zero cache consistency: the recomputation side -/

theorem get_trials_tab_none (core : Core) (cid : ℤ)
    (hl : odLookup core.config_id_to_isk_to_budget cid = none) :
    get_trials_id core (some cid) true = [] := by
  simp [get_trials_id, hl]

theorem maxBudgets_zero : maxBudgets [some 0] = [some 0] := by
  simp [maxBudgets, pyMax]

theorem get_trials_budget0 (core : Core) (cid : ℤ)
    (outer : List (InstanceSeedKey × List (Option ℚ)))
    (hl : odLookup core.config_id_to_isk_to_budget cid = some outer)
    (hb : ∀ r ∈ outer, r.2 = [some 0]) :
    get_trials_id core (some cid) true =
      outer.map (fun p => ⟨p.1.inst, p.1.seed, some 0⟩) := by
  simp only [get_trials_id, hl, Option.getD_some, if_pos]
  clear hl
  induction outer with
  | nil => rfl
  | cons r t ih =>
    have hr := hb r (List.mem_cons_self _ _)
    simp only [List.map_cons, List.flatMap_cons, hr, maxBudgets_zero]
    rw [ih (fun q hq => hb q (List.mem_cons_of_mem _ hq))]
    rfl

theorem lookupCosts_budget0 (core : Core) (cid : ℤ)
    (outer : List (InstanceSeedKey × List (Option ℚ)))
    (hdata : ∀ r ∈ outer, ∃ v,
      odLookup core.data ⟨cid, r.1.inst, r.1.seed, some 0⟩ = some v ∧ ∃ c, v.cost = [c]) :
    lookupCosts core cid (outer.map (fun p => ⟨p.1.inst, p.1.seed, some 0⟩)) =
      .ok (outer.map (fun r => [keyCost core.data cid r.1])) := by
  induction outer with
  | nil => rfl
  | cons r t ih =>
    obtain ⟨v, hv, c, hc⟩ := hdata r (List.mem_cons_self _ _)
    simp only [List.map_cons, lookupCosts, hv]
    rw [ih (fun q hq => hdata q (List.mem_cons_of_mem _ hq))]
    simp [Except.map, keyCost, hv, hc]

theorem flatten_singletons {α β : Type} (l : List α) (f : α → β) :
    (l.map (fun x => [f x])).flatten = l.map f := by
  induction l with
  | nil => rfl
  | cons x t ih => simp [ih]

theorem average_budget0 (core : Core) (cid : ℤ)
    (outer : List (InstanceSeedKey × List (Option ℚ)))
    (hne : outer ≠ [])
    (hnobj : ¬ core.n_objectives > 1)
    (hdata : ∀ r ∈ outer, ∃ v,
      odLookup core.data ⟨cid, r.1.inst, r.1.seed, some 0⟩ = some v ∧ ∃ c, v.cost = [c]) :
    average_cost_id core (some cid)
        (some (outer.map (fun p => ⟨p.1.inst, p.1.seed, some 0⟩))) false =
      .ok (some [outerSum core.data cid outer / (outer.length : ℚ)]) := by
  simp only [average_cost_id, costsOf_id, Option.getD_some, bind, Except.bind]
  rw [lookupCosts_budget0 core cid outer hdata]
  dsimp only
  have hemp : (outer.map (fun r => [keyCost core.data cid r.1])).isEmpty = false := by
    cases outer with
    | nil => exact absurd rfl hne
    | cons a t => rfl
  rw [hemp]
  simp only [Bool.false_eq_true, if_false, if_neg hnobj]
  rw [flatten_singletons]
  have hne2 : (outer.map (fun r => keyCost core.data cid r.1)).isEmpty = false := by
    cases outer with
    | nil => exact absurd rfl hne
    | cons a t => rfl
  simp only [npMean, hne2, Bool.false_eq_true, if_false]
  rw [show (outer.map (fun r => keyCost core.data cid r.1)).sum =
    outerSum core.data cid outer from rfl]
  simp [List.length_map]

theorem min_budget0 (core : Core) (cid : ℤ)
    (outer : List (InstanceSeedKey × List (Option ℚ)))
    (hne : outer ≠ [])
    (hnobj : ¬ core.n_objectives > 1)
    (hdata : ∀ r ∈ outer, ∃ v,
      odLookup core.data ⟨cid, r.1.inst, r.1.seed, some 0⟩ = some v ∧ ∃ c, v.cost = [c]) :
    ∃ r, min_cost_id core (some cid)
        (some (outer.map (fun p => ⟨p.1.inst, p.1.seed, some 0⟩))) false = .ok r := by
  simp only [min_cost_id, costsOf_id, Option.getD_some, bind, Except.bind]
  rw [lookupCosts_budget0 core cid outer hdata]
  dsimp only
  have hemp : (outer.map (fun r => [keyCost core.data cid r.1])).isEmpty = false := by
    cases outer with
    | nil => exact absurd rfl hne
    | cons a t => rfl
  rw [hemp]
  simp only [Bool.false_eq_true, if_false, if_neg hnobj]
  rw [flatten_singletons]
  cases outer with
  | nil => exact absurd rfl hne
  | cons a t => exact ⟨_, rfl⟩

theorem isbk_nodup (outer : List (InstanceSeedKey × List (Option ℚ)))
    (h : (outer.map Prod.fst).Nodup) :
    (outer.map (fun p => (⟨p.1.inst, p.1.seed, some 0⟩ : InstanceSeedBudgetKey))).Nodup := by
  have hmm : outer.map (fun p => (⟨p.1.inst, p.1.seed, some 0⟩ : InstanceSeedBudgetKey)) =
      (outer.map Prod.fst).map (fun isk => ⟨isk.inst, isk.seed, some 0⟩) := by
    rw [List.map_map]
    rfl
  rw [hmm]
  refine h.map ?_
  intro a b hab
  cases a; cases b
  simpa using hab

theorem updateCostsLoop_budget0 (rh : RunHistory) (hinv : C1Inv rh) :
    ∀ (l : List (Config × ℤ)) (core : Core),
    (∀ p ∈ l, p ∈ rh.config_ids) →
    core.data = rh.core.data →
    core.config_id_to_isk_to_budget = rh.core.config_id_to_isk_to_budget →
    core.n_objectives = rh.core.n_objectives →
    ∃ core₂, updateCostsLoop rh.config_ids none l core = .ok core₂ ∧
      ∀ cid : ℤ,
        odLookup core₂.cost_per_config cid =
          if cid ∈ l.map Prod.snd then
            match odLookup rh.core.config_id_to_isk_to_budget cid with
            | some outer =>
              some (some [outerSum rh.core.data cid outer / (outer.length : ℚ)])
            | none => odLookup core.cost_per_config cid
          else odLookup core.cost_per_config cid := by
  intro l
  induction l with
  | nil =>
    intro core _ _ _ _
    exact ⟨core, rfl, by intro cid; simp⟩
  | cons p t ih =>
    obtain ⟨config, cid0⟩ := p
    intro core hmem hdata htab hnobj
    have hpin : (config, cid0) ∈ rh.config_ids := hmem _ (List.mem_cons_self _ _)
    have hlook : cfgLookup rh.config_ids config = some cid0 :=
      cfgLookup_of_mem_nodup _ _ hpin hinv.cfgNodup
    have hnobj1 : ¬ core.n_objectives > 1 := by
      rw [hnobj]
      rcases hinv.nobj with h | h <;> rw [h] <;> omega
    rcases htab0 : odLookup rh.core.config_id_to_isk_to_budget cid0 with _ | outer
    · -- no instance-seed entries for this configuration: the step is skipped
      have hgt : get_trials_id core (some cid0) true = [] :=
        get_trials_tab_none core cid0 (by rw [htab, htab0])
      have hskip : updateCostsLoop rh.config_ids none ((config, cid0) :: t) core =
          updateCostsLoop rh.config_ids none t core := by
        simp [updateCostsLoop, hlook, hgt, pyDedup]
      obtain ⟨core₂, heq, hpt⟩ := ih core (fun q hq => hmem q (List.mem_cons_of_mem _ hq))
        hdata htab hnobj
      refine ⟨core₂, by rw [hskip]; exact heq, ?_⟩
      intro cid
      rw [hpt cid]
      by_cases h1 : cid ∈ t.map Prod.snd
      · simp [h1]
      · by_cases h0 : cid = cid0
        · subst h0
          simp [h1, htab0]
        · simp [List.map_cons, List.mem_cons, h0, h1]
    · -- recompute this configuration from its table entry
      have hmemtab : (cid0, outer) ∈ rh.core.config_id_to_isk_to_budget :=
        odLookup_mem _ _ _ htab0
      have hb : ∀ r ∈ outer, r.2 = [some 0] :=
        fun r hr => (hinv.tabData _ hmemtab r hr).1
      have hdat : ∀ r ∈ outer, ∃ v,
          odLookup core.data ⟨cid0, r.1.inst, r.1.seed, some 0⟩ = some v ∧
            ∃ c, v.cost = [c] := by
        rw [hdata]
        exact fun r hr => (hinv.tabData _ hmemtab r hr).2
      have hne : outer ≠ [] := hinv.tabNe _ hmemtab
      have hgt : get_trials_id core (some cid0) true =
          outer.map (fun p => ⟨p.1.inst, p.1.seed, some 0⟩) :=
        get_trials_budget0 core cid0 outer (by rw [htab, htab0]) hb
      have hdd : pyDedup (outer.map (fun p =>
          (⟨p.1.inst, p.1.seed, some 0⟩ : InstanceSeedBudgetKey))) =
          outer.map (fun p => ⟨p.1.inst, p.1.seed, some 0⟩) :=
        pyDedup_of_nodup _ (isbk_nodup outer (hinv.tabIskNodup _ hmemtab))
      have hemp : (outer.map (fun p =>
          (⟨p.1.inst, p.1.seed, some 0⟩ : InstanceSeedBudgetKey))).isEmpty = false := by
        cases outer with
        | nil => exact absurd rfl hne
        | cons a t2 => rfl
      have havg := average_budget0 core cid0 outer hne hnobj1 hdat
      set A := some [outerSum core.data cid0 outer / (outer.length : ℚ)] with hA
      set core1 : Core := { core with
        cost_per_config := odInsert core.cost_per_config cid0 A } with hcore1
      have hdat1 : ∀ r ∈ outer, ∃ v,
          odLookup core1.data ⟨cid0, r.1.inst, r.1.seed, some 0⟩ = some v ∧
            ∃ c, v.cost = [c] := hdat
      obtain ⟨mn, hmn⟩ := min_budget0 core1 cid0 outer hne hnobj1 hdat1
      set core2 : Core := { core1 with
        min_cost_per_config := odInsert core1.min_cost_per_config cid0 mn
        num_trials_per_config := odInsert core1.num_trials_per_config cid0
          (outer.map (fun p =>
            (⟨p.1.inst, p.1.seed, some 0⟩ : InstanceSeedBudgetKey))).length } with hcore2
      have hstep : updateCostsLoop rh.config_ids none ((config, cid0) :: t) core =
          updateCostsLoop rh.config_ids none t core2 := by
        simp only [updateCostsLoop, hlook, hgt, hdd, hemp, Bool.false_eq_true, if_false,
          havg, hmn]
      obtain ⟨core₂, heq, hpt⟩ := ih core2 (fun q hq => hmem q (List.mem_cons_of_mem _ hq))
        hdata htab hnobj
      refine ⟨core₂, by rw [hstep]; exact heq, ?_⟩
      intro cid
      rw [hpt cid]
      by_cases h1 : cid ∈ t.map Prod.snd
      · rcases htab1 : odLookup rh.core.config_id_to_isk_to_budget cid with _ | outer1
        · have hne0 : cid ≠ cid0 := by
            intro hc
            rw [hc, htab0] at htab1
            cases htab1
          have hoth : odLookup core2.cost_per_config cid =
              odLookup core.cost_per_config cid := by
            show odLookup (odInsert core.cost_per_config cid0 A) cid = _
            exact odLookup_odInsert_ne _ _ _ _ (fun hc => hne0 hc.symm)
          simp [h1, htab1, hoth]
        · simp [h1, htab1]
      · by_cases h0 : cid = cid0
        · subst h0
          have hself : odLookup core2.cost_per_config cid = some A := by
            show odLookup (odInsert core.cost_per_config cid A) cid = some A
            exact odLookup_odInsert_self _ _ _
          rw [hself]
          simp only [List.map_cons, List.mem_cons, eq_self_iff_true, true_or, if_true]
          rw [htab0]
          dsimp only
          rw [hA, hdata, if_neg h1]
        · have hoth : odLookup core2.cost_per_config cid =
              odLookup core.cost_per_config cid := by
            show odLookup (odInsert core.cost_per_config cid0 A) cid = _
            exact odLookup_odInsert_ne _ _ _ _ (fun hc => h0 hc.symm)
          rw [hoth]
          simp [List.map_cons, List.mem_cons, h0, h1]


/-! ### Budget-zero cache consistency: the incremental side -/

theorem mixing_any_false (outer : List (InstanceSeedKey × List (Option ℚ)))
    (isk : InstanceSeedKey) :
    (outer.any (fun p => iskIsStr p.1 ≠ iskIsStr isk)) = false := by
  simp [iskIsStr]

theorem add_inner_budget0_skip (ci : List (Config × ℤ)) (ic : List (ℤ × Config))
    (core : Core) (k : TrialKey) (v : TrialValue) (s : StatusType) (o : DataOrigin)
    (c₂ : Core)
    (hnots : ¬((o = .INTERNAL ∨ o = .EXTERNAL_SAME_INSTANCES) ∧ s ≠ .RUNNING))
    (h : _add_inner ci ic core k v s o = .ok c₂) :
    ∃ b, c₂ = { core with data := odInsert core.data k v,
                          external := odInsert core.external k o,
                          objective_bounds := b } := by
  simp only [_add_inner] at h
  split at h
  · exact absurd h (by simp)
  · rename_i c1 heq
    obtain ⟨b, rfl⟩ := frame_uob _ _ heq
    split at h
    · rename_i hcond
      exact absurd hcond hnots
    · cases h
      exact ⟨b, rfl⟩

theorem add_inner_budget0_ins (ci : List (Config × ℤ)) (ic : List (ℤ × Config))
    (core : Core) (k : TrialKey) (v : TrialValue) (s : StatusType) (o : DataOrigin)
    (c₂ : Core) (cfg0 : Config) (c q : ℚ) (n : ℕ)
    (outer : List (InstanceSeedKey × List (Option ℚ)))
    (hcond : (o = .INTERNAL ∨ o = .EXTERNAL_SAME_INSTANCES) ∧ s ≠ .RUNNING)
    (hov : core.overwrite_existing_trials = false)
    (hbud : k.budget = some 0)
    (hvc : v.cost = [c])
    (hn1 : core.n_objectives = 1)
    (hic : odLookup ic k.config_id = some cfg0)
    (hci : cfgLookup ci cfg0 = some k.config_id)
    (htabget : (odLookup core.config_id_to_isk_to_budget k.config_id).getD [] = outer)
    (houterisk : odLookup outer ⟨k.inst, k.seed⟩ = none)
    (hq : (odLookup core.cost_per_config k.config_id).getD (some [0]) = some [q])
    (hn : (odLookup core.num_trials_per_config k.config_id).getD 0 = n)
    (h : _add_inner ci ic core k v s o = .ok c₂) :
    c₂ = { core with
      data := odInsert core.data k v,
      external := odInsert core.external k o,
      objective_bounds := c₂.objective_bounds,
      config_id_to_isk_to_budget := odInsert core.config_id_to_isk_to_budget k.config_id
        (odInsert outer ⟨k.inst, k.seed⟩ [some 0]),
      cost_per_config := odInsert core.cost_per_config k.config_id
        (some [(q * (n : ℚ) + c) / ((n : ℚ) + 1)]),
      num_trials_per_config := odInsert core.num_trials_per_config k.config_id (n + 1) } := by
  simp only [_add_inner] at h
  split at h
  · exact absurd h (by simp)
  · rename_i c1 heq
    obtain ⟨b, rfl⟩ := frame_uob _ _ heq
    simp only at h
    rw [htabget, hbud] at h
    rw [if_pos hcond] at h
    rw [mixing_any_false] at h
    simp only [Bool.false_eq_true, if_false] at h
    split at h
    · -- the instance-seed pair is new for this configuration
      simp only [costUpdateStep] at h
      rw [hic] at h
      simp only at h
      rw [if_pos (by exact ⟨by simp [hov], hbud⟩)] at h
      rw [hci] at h
      simp only [incremental_update_cost_id] at h
      rw [hvc, hq, hn] at h
      rw [if_neg (by simp [hn1])] at h
      simp only at h
      cases h
      rw [odInsert_odInsert]
    · -- impossible: the pair would already carry a ledger entry
      rename_i bl hsome
      rw [houterisk] at hsome
      cases hsome


theorem regkey_ne (data : List (TrialKey × TrialValue)) (k key : TrialKey) (v' : TrialValue)
    (hv' : odLookup data key = some v') (hnew : odLookup data k = none) : key ≠ k := by
  intro hc
  rw [hc, hnew] at hv'
  cases hv'

theorem mem_odInsert_cases {α β : Type} [DecidableEq α] (m : List (α × β)) (k : α) (v : β)
    (hnd : (m.map Prod.fst).Nodup) (p : α × β) (hp : p ∈ odInsert m k v) :
    p = (k, v) ∨ (p ∈ m ∧ p.1 ≠ k) := by
  rcases mem_odInsert m k v p hp with rfl | hold
  · exact Or.inl rfl
  · by_cases hc : p.1 = k
    · left
      have hknew : (k, v) ∈ odInsert m k v :=
        odLookup_mem _ _ _ (odLookup_odInsert_self m k v)
      exact mem_key_unique (odInsert m k v) (odInsert_keys_nodup m k v hnd) p (k, v)
        hp hknew hc
    · exact Or.inr ⟨hold, hc⟩

theorem outerSum_append (data : List (TrialKey × TrialValue)) (cid : ℤ)
    (outer : List (InstanceSeedKey × List (Option ℚ)))
    (e : InstanceSeedKey × List (Option ℚ)) :
    outerSum data cid (outer ++ [e]) = outerSum data cid outer + keyCost data cid e.1 := by
  unfold outerSum
  rw [List.map_append, List.sum_append]
  simp

theorem C1Inv_data_ext (rh : RunHistory) (hinv : C1Inv rh) (k : TrialKey) (v : TrialValue)
    (o : DataOrigin) (b : List (XQ × XQ))
    (hnew : odLookup rh.core.data k = none) :
    C1Inv { rh with core := { rh.core with
      data := odInsert rh.core.data k v,
      external := odInsert rh.core.external k o,
      objective_bounds := b } } := by
  refine ⟨hinv.ov, hinv.nobj, hinv.idbound, hinv.cidNodup, hinv.cfgNodup,
    hinv.idsConsistent, hinv.tabKeyNodup, hinv.tabReg, hinv.tabNe, hinv.tabIskNodup,
    ?_, hinv.cacheNum, ?_, hinv.costDom, hinv.numDom⟩
  · intro qq hqq r hr
    obtain ⟨h1, v', hv', cc, hcc⟩ := hinv.tabData qq hqq r hr
    refine ⟨h1, v', ?_, cc, hcc⟩
    rw [odLookup_odInsert_ne _ _ _ _ (Ne.symm (regkey_ne _ _ _ _ hv' hnew))]
    exact hv'
  · intro qq hqq
    have hsum : outerSum (odInsert rh.core.data k v) qq.1 qq.2 =
        outerSum rh.core.data qq.1 qq.2 := by
      refine outerSum_odInsert _ _ _ _ _ ?_
      intro r hr
      obtain ⟨h1, v', hv', cc, hcc⟩ := hinv.tabData qq hqq r hr
      exact regkey_ne _ _ _ _ hv' hnew
    show odLookup rh.core.cost_per_config qq.1 =
      some (some [outerSum (odInsert rh.core.data k v) qq.1 qq.2 / (qq.2.length : ℚ)])
    rw [hsum]
    exact hinv.cacheCost qq hqq


theorem C1Inv_insert (rh : RunHistory) (hinv : C1Inv rh) (k : TrialKey) (v : TrialValue)
    (o : DataOrigin) (b : List (XQ × XQ)) (c q : ℚ) (n : ℕ)
    (outer : List (InstanceSeedKey × List (Option ℚ)))
    (hbud : k.budget = some 0)
    (hnew : odLookup rh.core.data k = none)
    (hvc : v.cost = [c])
    (hreg : k.config_id ∈ rh.config_ids.map Prod.snd)
    (htabget : (odLookup rh.core.config_id_to_isk_to_budget k.config_id).getD [] = outer)
    (houterisk : odLookup outer ⟨k.inst, k.seed⟩ = none)
    (hq : (odLookup rh.core.cost_per_config k.config_id).getD (some [0]) = some [q])
    (hn : (odLookup rh.core.num_trials_per_config k.config_id).getD 0 = n) :
    C1Inv { rh with core := { rh.core with
      data := odInsert rh.core.data k v,
      external := odInsert rh.core.external k o,
      objective_bounds := b,
      config_id_to_isk_to_budget := odInsert rh.core.config_id_to_isk_to_budget k.config_id
        (odInsert outer ⟨k.inst, k.seed⟩ [some 0]),
      cost_per_config := odInsert rh.core.cost_per_config k.config_id
        (some [(q * (n : ℚ) + c) / ((n : ℚ) + 1)]),
      num_trials_per_config := odInsert rh.core.num_trials_per_config k.config_id
        (n + 1) } } := by
  have hisk : odInsert outer ⟨k.inst, k.seed⟩ [some 0] =
      outer ++ [((⟨k.inst, k.seed⟩ : InstanceSeedKey), [some 0])] :=
    odInsert_of_lookup_none _ _ _ houterisk
  have hkey : (⟨k.config_id, k.inst, k.seed, some 0⟩ : TrialKey) = k := by
    obtain ⟨kc, ki, ks, kb⟩ := k
    have hbud2 : kb = some 0 := hbud
    rw [hbud2]
  have houterdata : ∀ r ∈ outer, r.2 = [some 0] ∧
      ∃ v', odLookup rh.core.data ⟨k.config_id, r.1.inst, r.1.seed, some 0⟩ = some v' ∧
        ∃ cc, v'.cost = [cc] := by
    rcases htab : odLookup rh.core.config_id_to_isk_to_budget k.config_id with _ | outer₀
    · have h0 : outer = [] := by rw [← htabget, htab]; rfl
      rw [h0]
      intro r hr
      cases hr
    · have h0 : outer = outer₀ := by rw [← htabget, htab]; rfl
      rw [h0]
      exact hinv.tabData _ (odLookup_mem _ _ _ htab)
  have hout_nodup : (outer.map Prod.fst).Nodup := by
    rcases htab : odLookup rh.core.config_id_to_isk_to_budget k.config_id with _ | outer₀
    · have h0 : outer = [] := by rw [← htabget, htab]; rfl
      rw [h0]
      exact List.nodup_nil
    · have h0 : outer = outer₀ := by rw [← htabget, htab]; rfl
      rw [h0]
      exact hinv.tabIskNodup _ (odLookup_mem _ _ _ htab)
  have houtkeys : ∀ r ∈ outer, (⟨k.config_id, r.1.inst, r.1.seed, some 0⟩ : TrialKey) ≠ k := by
    intro r hr hc
    obtain ⟨⟨ri, rs⟩, rbl⟩ := r
    rw [← hkey] at hc
    simp only [TrialKey.mk.injEq, true_and, and_true] at hc
    have hrisk : ((⟨ri, rs⟩ : InstanceSeedKey), rbl).1 = (⟨k.inst, k.seed⟩ : InstanceSeedKey) := by
      show (⟨ri, rs⟩ : InstanceSeedKey) = ⟨k.inst, k.seed⟩
      rw [hc.1, hc.2]
    have hmemk : (⟨k.inst, k.seed⟩ : InstanceSeedKey) ∈ outer.map Prod.fst :=
      List.mem_map.mpr ⟨_, hr, hrisk⟩
    exact (odLookup_eq_none_iff outer ⟨k.inst, k.seed⟩).mp houterisk hmemk
  have hsum : outerSum (odInsert rh.core.data k v) k.config_id outer =
      outerSum rh.core.data k.config_id outer :=
    outerSum_odInsert _ _ _ _ _ houtkeys
  have hkc : keyCost (odInsert rh.core.data k v) k.config_id ⟨k.inst, k.seed⟩ = c := by
    unfold keyCost
    show ((odLookup (odInsert rh.core.data k v)
      ⟨k.config_id, k.inst, k.seed, some 0⟩).map (fun w => w.cost.headD 0)).getD 0 = c
    rw [hkey, odLookup_odInsert_self]
    simp [hvc]
  have hnlen : n = outer.length := by
    rcases htab : odLookup rh.core.config_id_to_isk_to_budget k.config_id with _ | outer₀
    · have h0 : outer = [] := by rw [← htabget, htab]; rfl
      have hnum0 : odLookup rh.core.num_trials_per_config k.config_id = none := by
        rcases hcl : odLookup rh.core.num_trials_per_config k.config_id with _ | xx
        · rfl
        · have hdom := hinv.numDom k.config_id (by rw [hcl]; rfl)
          rw [htab] at hdom
          simp at hdom
      rw [hnum0] at hn
      rw [h0]
      simpa using hn.symm
    · have h0 : outer = outer₀ := by rw [← htabget, htab]; rfl
      have hnum := hinv.cacheNum _ (odLookup_mem _ _ _ htab)
      rw [hnum] at hn
      rw [h0]
      simpa using hn.symm
  have hval : (q * (n : ℚ) + c) / ((n : ℚ) + 1) =
      outerSum (odInsert rh.core.data k v) k.config_id
          (outer ++ [((⟨k.inst, k.seed⟩ : InstanceSeedKey), [some 0])]) /
        (((outer ++ [((⟨k.inst, k.seed⟩ : InstanceSeedKey), [some 0])]).length : ℕ) : ℚ) := by
    rw [outerSum_append, hkc, hsum]
    have hlen : ((outer ++ [((⟨k.inst, k.seed⟩ : InstanceSeedKey), [some 0])]).length : ℕ) = outer.length + 1 := by
      simp
    rw [hlen]
    rcases htab : odLookup rh.core.config_id_to_isk_to_budget k.config_id with _ | outer₀
    · have h0 : outer = [] := by rw [← htabget, htab]; rfl
      have hcost0 : odLookup rh.core.cost_per_config k.config_id = none := by
        rcases hcl : odLookup rh.core.cost_per_config k.config_id with _ | xx
        · rfl
        · have hdom := hinv.costDom k.config_id (by rw [hcl]; rfl)
          rw [htab] at hdom
          simp at hdom
      rw [hcost0] at hq
      simp only [Option.getD_none, Option.some.injEq, List.cons.injEq, and_true] at hq
      have hq0 : q = 0 := hq.symm
      have hn0 : n = 0 := by rw [hnlen, h0]; rfl
      rw [hq0, hn0, h0]
      simp [outerSum]
    · have h0 : outer = outer₀ := by rw [← htabget, htab]; rfl
      have hmem := odLookup_mem _ _ _ htab
      have hcost := hinv.cacheCost _ hmem
      rw [hcost] at hq
      simp only [Option.getD_some, Option.some.injEq, List.cons.injEq, and_true] at hq
      have hlpos : outer₀.length ≠ 0 := by
        intro hc
        exact hinv.tabNe _ hmem (List.length_eq_zero.mp hc)
      have hlq : ((outer₀.length : ℕ) : ℚ) ≠ 0 := by
        exact_mod_cast hlpos
      rw [← hq, hnlen, h0]
      rw [div_mul_cancel₀ _ hlq]
      push_cast
      ring_nf
  -- now establish the invariant field by field
  rw [hisk]
  have hnewtab : ((k.config_id, outer ++ [((⟨k.inst, k.seed⟩ : InstanceSeedKey), [some 0])])) ∈
      odInsert rh.core.config_id_to_isk_to_budget k.config_id
        (outer ++ [((⟨k.inst, k.seed⟩ : InstanceSeedKey), [some 0])]) :=
    odLookup_mem _ _ _ (odLookup_odInsert_self _ _ _)
  refine ⟨hinv.ov, hinv.nobj, hinv.idbound, hinv.cidNodup, hinv.cfgNodup,
    hinv.idsConsistent, odInsert_keys_nodup _ _ _ hinv.tabKeyNodup,
    ?_, ?_, ?_, ?_, ?_, ?_, ?_, ?_⟩
  · -- tabReg
    intro qq hqq
    rcases mem_odInsert _ _ _ _ hqq with rfl | hold
    · exact hreg
    · exact hinv.tabReg qq hold
  · -- tabNe
    intro qq hqq
    rcases mem_odInsert _ _ _ _ hqq with rfl | hold
    · simp
    · exact hinv.tabNe qq hold
  · -- tabIskNodup
    intro qq hqq
    rcases mem_odInsert _ _ _ _ hqq with rfl | hold
    · show ((outer ++ [((⟨k.inst, k.seed⟩ : InstanceSeedKey), [some 0])]).map Prod.fst).Nodup
      rw [List.map_append]
      simp only [List.map_cons, List.map_nil]
      rw [List.nodup_append]
      refine ⟨hout_nodup, List.nodup_singleton _, ?_⟩
      intro x hx
      simp only [List.mem_singleton]
      intro hc
      rw [hc] at hx
      exact (odLookup_eq_none_iff outer ⟨k.inst, k.seed⟩).mp houterisk hx
    · exact hinv.tabIskNodup qq hold
  · -- tabData
    intro qq hqq r hr
    rcases mem_odInsert _ _ _ _ hqq with rfl | hold
    · rcases List.mem_append.mp hr with hro | hre
      · obtain ⟨h1, v', hv', cc, hcc⟩ := houterdata r hro
        refine ⟨h1, v', ?_, cc, hcc⟩
        show odLookup (odInsert rh.core.data k v)
          ⟨k.config_id, r.1.inst, r.1.seed, some 0⟩ = some v'
        rw [odLookup_odInsert_ne _ _ _ _ (Ne.symm (houtkeys r hro))]
        exact hv'
      · rcases List.mem_singleton.mp hre with rfl
        refine ⟨rfl, v, ?_, c, hvc⟩
        show odLookup (odInsert rh.core.data k v)
          ⟨k.config_id, k.inst, k.seed, some 0⟩ = some v
        rw [hkey, odLookup_odInsert_self]
    · obtain ⟨h1, v', hv', cc, hcc⟩ := hinv.tabData qq hold r hr
      refine ⟨h1, v', ?_, cc, hcc⟩
      show odLookup (odInsert rh.core.data k v)
        ⟨qq.1, r.1.inst, r.1.seed, some 0⟩ = some v'
      rw [odLookup_odInsert_ne _ _ _ _ (Ne.symm (regkey_ne _ _ _ _ hv' hnew))]
      exact hv'
  · -- cacheNum
    intro qq hqq
    rcases mem_odInsert_cases _ _ _ hinv.tabKeyNodup qq hqq
      with rfl | ⟨hold, hne⟩
    · show odLookup (odInsert rh.core.num_trials_per_config k.config_id (n + 1))
        k.config_id = some (outer ++ [((⟨k.inst, k.seed⟩ : InstanceSeedKey), [some 0])]).length
      rw [odLookup_odInsert_self]
      simp [hnlen]
    · show odLookup (odInsert rh.core.num_trials_per_config k.config_id (n + 1))
        qq.1 = some qq.2.length
      rw [odLookup_odInsert_ne _ _ _ _ (Ne.symm hne)]
      exact hinv.cacheNum qq hold
  · -- cacheCost
    intro qq hqq
    rcases mem_odInsert_cases _ _ _ hinv.tabKeyNodup qq hqq
      with rfl | ⟨hold, hne⟩
    · show odLookup (odInsert rh.core.cost_per_config k.config_id
          (some [(q * (n : ℚ) + c) / ((n : ℚ) + 1)])) k.config_id =
        some (some [outerSum (odInsert rh.core.data k v) k.config_id
          (outer ++ [((⟨k.inst, k.seed⟩ : InstanceSeedKey), [some 0])]) /
          (((outer ++ [((⟨k.inst, k.seed⟩ : InstanceSeedKey), [some 0])]).length : ℕ) : ℚ)])
      rw [odLookup_odInsert_self, hval]
    · show odLookup (odInsert rh.core.cost_per_config k.config_id
          (some [(q * (n : ℚ) + c) / ((n : ℚ) + 1)])) qq.1 =
        some (some [outerSum (odInsert rh.core.data k v) qq.1 qq.2 / (qq.2.length : ℚ)])
      rw [odLookup_odInsert_ne _ _ _ _ (Ne.symm hne)]
      have hsum2 : outerSum (odInsert rh.core.data k v) qq.1 qq.2 =
          outerSum rh.core.data qq.1 qq.2 := by
        refine outerSum_odInsert _ _ _ _ _ ?_
        intro r hr
        obtain ⟨h1, v', hv', cc, hcc⟩ := hinv.tabData qq hold r hr
        exact regkey_ne _ _ _ _ hv' hnew
      rw [hsum2]
      exact hinv.cacheCost qq hold
  · -- costDom
    intro cid2 hs
    by_cases hc : cid2 = k.config_id
    · subst hc
      show (odLookup (odInsert rh.core.config_id_to_isk_to_budget k.config_id
        (outer ++ [((⟨k.inst, k.seed⟩ : InstanceSeedKey), [some 0])])) k.config_id).isSome = true
      rw [odLookup_odInsert_self]
      rfl
    · show (odLookup (odInsert rh.core.config_id_to_isk_to_budget k.config_id
        (outer ++ [((⟨k.inst, k.seed⟩ : InstanceSeedKey), [some 0])])) cid2).isSome = true
      rw [odLookup_odInsert_ne _ _ _ _ (fun hcc => hc hcc.symm)]
      refine hinv.costDom cid2 ?_
      have hs2 : (odLookup (odInsert rh.core.cost_per_config k.config_id
          (some [(q * (n : ℚ) + c) / ((n : ℚ) + 1)])) cid2).isSome = true := hs
      rw [odLookup_odInsert_ne _ _ _ _ (fun hcc => hc hcc.symm)] at hs2
      exact hs2
  · -- numDom
    intro cid2 hs
    by_cases hc : cid2 = k.config_id
    · subst hc
      show (odLookup (odInsert rh.core.config_id_to_isk_to_budget k.config_id
        (outer ++ [((⟨k.inst, k.seed⟩ : InstanceSeedKey), [some 0])])) k.config_id).isSome = true
      rw [odLookup_odInsert_self]
      rfl
    · show (odLookup (odInsert rh.core.config_id_to_isk_to_budget k.config_id
        (outer ++ [((⟨k.inst, k.seed⟩ : InstanceSeedKey), [some 0])])) cid2).isSome = true
      rw [odLookup_odInsert_ne _ _ _ _ (fun hcc => hc hcc.symm)]
      refine hinv.numDom cid2 ?_
      have hs2 : (odLookup (odInsert rh.core.num_trials_per_config k.config_id
          (n + 1)) cid2).isSome = true := hs
      rw [odLookup_odInsert_ne _ _ _ _ (fun hcc => hc hcc.symm)] at hs2
      exact hs2


theorem cfgLookup_none_keys {β : Type} (m : List (Config × β)) (c : Config)
    (h : cfgLookup m c = none) : ∀ p ∈ m, p.1.values ≠ c.values := by
  simp only [cfgLookup, Option.map_eq_none', List.find?_eq_none, decide_eq_true_eq] at h
  exact h

theorem C1Inv_addAfterN (rh rh₃ : RunHistory) (cid : ℤ) (a : AddArgs) (c1 : ℚ)
    (hbud : a.budget = some 0) (hfu : a.force_update = false)
    (hc1 : a.cost = [c1])
    (hinv : C1Inv rh) (hn1 : rh.core.n_objectives = 1)
    (c₀ : Config) (hmem : (c₀, cid) ∈ rh.config_ids)
    (h : addAfterN rh cid a = .ok rh₃) : C1Inv rh₃ := by
  simp only [addAfterN] at h
  split at h
  · exact absurd h (by simp)
  · split at h
    · rename_i hguard
      rcases hA : _add_inner rh.config_ids rh.ids_config rh.core
          ⟨cid, a.inst, a.seed, a.budget⟩
          ⟨a.cost, a.time, a.status, a.starttime, a.endtime, a.additional_info⟩
          a.status a.origin with e | c₂ <;> rw [hA] at h
      · exact absurd h (by simp)
      · cases h
        have hnew : odLookup rh.core.data ⟨cid, a.inst, a.seed, a.budget⟩ = none := by
          rcases hx : odLookup rh.core.data ⟨cid, a.inst, a.seed, a.budget⟩ with _ | vv
          · rfl
          · exfalso
            rw [hinv.ov, hfu, hx] at hguard
            simp at hguard
        by_cases hcond : (a.origin = .INTERNAL ∨ a.origin = .EXTERNAL_SAME_INSTANCES) ∧
            a.status ≠ .RUNNING
        · -- the trial enters the instance-seed table and the incremental cache
          have hic : odLookup rh.ids_config cid = some c₀ := hinv.idsConsistent _ hmem
          have hci : cfgLookup rh.config_ids c₀ = some cid :=
            cfgLookup_of_mem_nodup _ _ hmem hinv.cfgNodup
          have hreg : cid ∈ rh.config_ids.map Prod.snd :=
            List.mem_map.mpr ⟨_, hmem, rfl⟩
          have hqex : ∃ q, (odLookup rh.core.cost_per_config cid).getD (some [0]) =
              some [q] := by
            rcases hcl : odLookup rh.core.cost_per_config cid with _ | w
            · exact ⟨0, rfl⟩
            · have hd := hinv.costDom cid (by rw [hcl]; rfl)
              rcases htb : odLookup rh.core.config_id_to_isk_to_budget cid with _ | outer₀
              · rw [htb] at hd
                simp at hd
              · have hcc := hinv.cacheCost _ (odLookup_mem _ _ _ htb)
                rw [hcl] at hcc
                cases hcc
                exact ⟨_, rfl⟩
          obtain ⟨q, hq⟩ := hqex
          have houterisk : odLookup
              ((odLookup rh.core.config_id_to_isk_to_budget cid).getD [])
              ⟨a.inst, a.seed⟩ = none := by
            rcases htb : odLookup rh.core.config_id_to_isk_to_budget cid with _ | outer₀
            · rfl
            · simp only [Option.getD_some]
              rcases hbl : odLookup outer₀ ⟨a.inst, a.seed⟩ with _ | bl
              · rfl
              · exfalso
                obtain ⟨h1, v', hv', cc, hcc⟩ :=
                  hinv.tabData _ (odLookup_mem _ _ _ htb) _ (odLookup_mem _ _ _ hbl)
                rw [hbud] at hnew
                simp only at hv'
                rw [hnew] at hv'
                cases hv'
          have hshape := add_inner_budget0_ins rh.config_ids rh.ids_config rh.core
            ⟨cid, a.inst, a.seed, a.budget⟩
            ⟨a.cost, a.time, a.status, a.starttime, a.endtime, a.additional_info⟩
            a.status a.origin c₂ c₀ c1 q
            ((odLookup rh.core.num_trials_per_config cid).getD 0)
            ((odLookup rh.core.config_id_to_isk_to_budget cid).getD [])
            hcond hinv.ov hbud (by simp [hc1]) hn1 hic hci rfl houterisk hq rfl hA
          obtain ⟨b, hb⟩ : ∃ b, c₂ = { rh.core with
              data := odInsert rh.core.data ⟨cid, a.inst, a.seed, a.budget⟩
                ⟨a.cost, a.time, a.status, a.starttime, a.endtime, a.additional_info⟩,
              external := odInsert rh.core.external ⟨cid, a.inst, a.seed, a.budget⟩ a.origin,
              objective_bounds := b,
              config_id_to_isk_to_budget :=
                odInsert rh.core.config_id_to_isk_to_budget cid
                  (odInsert ((odLookup rh.core.config_id_to_isk_to_budget cid).getD [])
                    ⟨a.inst, a.seed⟩ [some 0]),
              cost_per_config := odInsert rh.core.cost_per_config cid
                (some [(q * (((odLookup rh.core.num_trials_per_config cid).getD 0 : ℕ) : ℚ) + c1) /
                  ((((odLookup rh.core.num_trials_per_config cid).getD 0 : ℕ) : ℚ) + 1)]),
              num_trials_per_config := odInsert rh.core.num_trials_per_config cid
                ((odLookup rh.core.num_trials_per_config cid).getD 0 + 1) } :=
            ⟨c₂.objective_bounds, hshape⟩
          rw [show ({ rh with core := c₂ } : RunHistory) = _ from by rw [hb]]
          exact C1Inv_insert rh hinv ⟨cid, a.inst, a.seed, a.budget⟩
            ⟨a.cost, a.time, a.status, a.starttime, a.endtime, a.additional_info⟩
            a.origin b c1 q _ _ hbud hnew (by simp [hc1]) hreg rfl houterisk hq rfl
        · -- the trial is recorded but the caches are left alone
          obtain ⟨b, hb⟩ := add_inner_budget0_skip rh.config_ids rh.ids_config rh.core
            ⟨cid, a.inst, a.seed, a.budget⟩
            ⟨a.cost, a.time, a.status, a.starttime, a.endtime, a.additional_info⟩
            a.status a.origin c₂ hcond hA
          rw [show ({ rh with core := c₂ } : RunHistory) = _ from by rw [hb]]
          exact C1Inv_data_ext rh hinv _ _ _ b hnew
    · cases h
      exact hinv

theorem C1Inv_setn (rh : RunHistory) (hinv : C1Inv rh) (m : ℤ) (hm : m = 1) :
    C1Inv { rh with core := { rh.core with n_objectives := m } } :=
  ⟨hinv.ov, Or.inr hm, hinv.idbound, hinv.cidNodup, hinv.cfgNodup, hinv.idsConsistent,
    hinv.tabKeyNodup, hinv.tabReg, hinv.tabNe, hinv.tabIskNodup, hinv.tabData,
    hinv.cacheNum, hinv.cacheCost, hinv.costDom, hinv.numDom⟩

theorem C1Inv_addAfterId (rh rh₃ : RunHistory) (cid : ℤ) (a : AddArgs)
    (hbud : a.budget = some 0) (hfu : a.force_update = false) (hlc : a.cost.length = 1)
    (hinv : C1Inv rh) (c₀ : Config) (hmem : (c₀, cid) ∈ rh.config_ids)
    (h : addAfterId rh cid a = .ok rh₃) : C1Inv rh₃ := by
  obtain ⟨c1, hc1⟩ : ∃ c1, a.cost = [c1] := by
    rcases hac : a.cost with _ | ⟨x, _ | ⟨y, t⟩⟩
    · rw [hac] at hlc
      cases hlc
    · exact ⟨x, rfl⟩
    · rw [hac] at hlc
      cases hlc
  simp only [addAfterId] at h
  split at h
  · have hY : C1Inv ({ rh with
        core := { rh.core with n_objectives := (a.cost.length : ℤ) } } : RunHistory) :=
      C1Inv_setn rh hinv (a.cost.length : ℤ) (by rw [hlc]; rfl)
    have hn1Y : (({ rh with
        core := { rh.core with n_objectives := (a.cost.length : ℤ) } } : RunHistory)).core.n_objectives = 1 := by
      show (a.cost.length : ℤ) = 1
      rw [hlc]
      rfl
    exact C1Inv_addAfterN _ rh₃ cid a c1 hbud hfu hc1 hY hn1Y c₀ hmem h
  · split at h
    · exact absurd h (by simp)
    · rename_i hn1 hn2
      have hn : rh.core.n_objectives = 1 := by
        by_contra hcc
        exact hn2 (by rw [hlc]; omega)
      exact C1Inv_addAfterN rh rh₃ cid a c1 hbud hfu hc1 hinv hn c₀ hmem h

theorem C1Inv_register (rh : RunHistory) (hinv : C1Inv rh) (cfg : Config)
    (hnone : cfgLookup rh.config_ids cfg = none) :
    C1Inv { rh with n_id := rh.n_id + 1,
                    config_ids := cfgInsert rh.config_ids cfg (rh.n_id + 1),
                    ids_config := odInsert rh.ids_config (rh.n_id + 1) cfg } := by
  have happ : cfgInsert rh.config_ids cfg (rh.n_id + 1) =
      rh.config_ids ++ [(cfg, rh.n_id + 1)] := cfgInsert_of_lookup_none _ _ _ hnone
  refine ⟨hinv.ov, hinv.nobj, ?_, ?_, ?_, ?_, hinv.tabKeyNodup, ?_, hinv.tabNe,
    hinv.tabIskNodup, hinv.tabData, hinv.cacheNum, hinv.cacheCost, hinv.costDom,
    hinv.numDom⟩
  · -- idbound
    intro p hp
    have hp2 : p ∈ rh.config_ids ++ [(cfg, rh.n_id + 1)] := by rw [← happ]; exact hp
    show p.2 ≤ rh.n_id + 1
    rcases List.mem_append.mp hp2 with hold | hnew2
    · have := hinv.idbound p hold
      omega
    · rcases List.mem_singleton.mp hnew2 with rfl
      exact le_refl _
  · -- cidNodup
    show ((cfgInsert rh.config_ids cfg (rh.n_id + 1)).map Prod.snd).Nodup
    rw [happ, List.map_append]
    rw [List.nodup_append]
    refine ⟨hinv.cidNodup, by simp, ?_⟩
    intro x hx
    obtain ⟨p, hp, hpx⟩ := List.mem_map.mp hx
    have := hinv.idbound p hp
    simp only [List.map_cons, List.map_nil, List.mem_singleton]
    intro hc
    rw [hc] at hpx
    omega
  · -- cfgNodup
    show ((cfgInsert rh.config_ids cfg (rh.n_id + 1)).map (fun p => p.1.values)).Nodup
    rw [happ, List.map_append]
    rw [List.nodup_append]
    refine ⟨hinv.cfgNodup, by simp, ?_⟩
    intro x hx
    obtain ⟨p, hp, hpx⟩ := List.mem_map.mp hx
    simp only [List.map_cons, List.map_nil, List.mem_singleton]
    intro hc
    have := cfgLookup_none_keys rh.config_ids cfg hnone p hp
    rw [hpx] at this
    exact this hc
  · -- idsConsistent
    intro p hp
    have hp2 : p ∈ rh.config_ids ++ [(cfg, rh.n_id + 1)] := by rw [← happ]; exact hp
    rcases List.mem_append.mp hp2 with hold | hnew2
    · show odLookup (odInsert rh.ids_config (rh.n_id + 1) cfg) p.2 = some p.1
      rw [odLookup_odInsert_ne _ _ _ _ (by have := hinv.idbound p hold; omega)]
      exact hinv.idsConsistent p hold
    · rcases List.mem_singleton.mp hnew2 with rfl
      show odLookup (odInsert rh.ids_config (rh.n_id + 1) cfg) (rh.n_id + 1) = some cfg
      exact odLookup_odInsert_self _ _ _
  · -- tabReg
    intro qq hqq
    show qq.1 ∈ (cfgInsert rh.config_ids cfg (rh.n_id + 1)).map Prod.snd
    rw [happ, List.map_append]
    exact List.mem_append_left _ (hinv.tabReg qq hqq)

theorem C1Inv_add (rh rh₃ : RunHistory) (a : AddArgs)
    (hbud : a.budget = some 0) (hfu : a.force_update = false) (hlc : a.cost.length = 1)
    (hinv : C1Inv rh) (h : rh.add a = .ok rh₃) : C1Inv rh₃ := by
  simp only [RunHistory.add] at h
  split at h
  · rename_i cid hcid
    obtain ⟨c₀, hm, hv⟩ := cfgLookup_mem _ _ _ hcid
    exact C1Inv_addAfterId rh rh₃ cid a hbud hfu hlc hinv c₀ hm h
  · rename_i hnone
    refine C1Inv_addAfterId _ rh₃ (rh.n_id + 1) a hbud hfu hlc
      (C1Inv_register rh hinv a.config hnone) a.config ?_ h
    show (a.config, rh.n_id + 1) ∈ cfgInsert rh.config_ids a.config (rh.n_id + 1)
    rw [cfgInsert_of_lookup_none _ _ _ hnone]
    exact List.mem_append_right _ (List.mem_singleton.mpr rfl)

theorem C1Inv_runTrace (tr : List AddArgs) : ∀ (rh rh₂ : RunHistory),
    (∀ a ∈ tr, a.budget = some 0 ∧ a.force_update = false ∧ a.cost.length = 1) →
    C1Inv rh → runTrace rh tr = .ok rh₂ → C1Inv rh₂ := by
  induction tr with
  | nil =>
    intro rh rh₂ _ hinv h
    simp only [runTrace] at h
    cases h
    exact hinv
  | cons a t ih =>
    intro rh rh₂ hb hinv h
    simp only [runTrace] at h
    split at h
    · rename_i rh1 ha
      obtain ⟨h1, h2, h3⟩ := hb a (List.mem_cons_self _ _)
      exact ih rh1 rh₂ (fun x hx => hb x (List.mem_cons_of_mem _ hx))
        (C1Inv_add rh rh1 a h1 h2 h3 hinv ha) h
    · exact absurd h (by simp)

theorem C1Inv_init : C1Inv (RunHistory.init false) := by
  refine ⟨rfl, Or.inl rfl, ?_, ?_, ?_, ?_, ?_, ?_, ?_, ?_, ?_, ?_, ?_, ?_, ?_⟩
  · intro p hp; cases hp
  · exact List.nodup_nil
  · exact List.nodup_nil
  · intro p hp; cases hp
  · exact List.nodup_nil
  · intro q hq; cases hq
  · intro q hq; cases hq
  · intro q hq; cases hq
  · intro q hq; cases hq
  · intro q hq; cases hq
  · intro q hq; cases hq
  · intro cid h; cases h
  · intro cid h; cases h


/-- C1 (amended): over any successful sequence of budget-0, non-forced,
single-objective `add` calls on a fresh ledger with overwriting disabled, the
incrementally maintained `_cost_per_config` cache coincides, entry for
entry, with the cache produced by a full from-scratch recomputation via
`update_costs` (with `force_update=True` in the trace the incremental cache
can diverge by double-counting the overwritten trial). -/
theorem C1_budget0_cache_consistency (tr : List AddArgs) (rh rh₂ : RunHistory)
    (hb : ∀ a ∈ tr, a.budget = some 0 ∧ a.force_update = false ∧ a.cost.length = 1)
    (hrun : runTrace (RunHistory.init false) tr = .ok rh)
    (hrec : rh.update_costs none = .ok rh₂) :
    ∀ cid : ℤ, odLookup rh.core.cost_per_config cid =
      odLookup rh₂.core.cost_per_config cid := by
  have hinv : C1Inv rh := C1Inv_runTrace tr _ rh hb C1Inv_init hrun
  simp only [RunHistory.update_costs] at hrec
  obtain ⟨core₂, heq, hpt⟩ := updateCostsLoop_budget0 rh hinv rh.config_ids
    { rh.core with cost_per_config := [], num_trials_per_config := [] }
    (fun p hp => hp) rfl rfl rfl
  rw [heq] at hrec
  cases hrec
  intro cid
  show odLookup rh.core.cost_per_config cid = odLookup core₂.cost_per_config cid
  rw [hpt cid]
  rcases htab : odLookup rh.core.config_id_to_isk_to_budget cid with _ | outer
  · have hcl : odLookup rh.core.cost_per_config cid = none := by
      rcases hx : odLookup rh.core.cost_per_config cid with _ | w
      · rfl
      · have hd := hinv.costDom cid (by rw [hx]; rfl)
        rw [htab] at hd
        cases hd
    rw [hcl]
    dsimp only
    by_cases hmem2 : cid ∈ rh.config_ids.map Prod.snd
    · rw [if_pos hmem2]
      rfl
    · rw [if_neg hmem2]
      rfl
  · have hmem := odLookup_mem _ _ _ htab
    rw [if_pos (hinv.tabReg _ hmem)]
    dsimp only
    exact hinv.cacheCost _ hmem

/-- C1 witness: the amended cache-consistency theorem evaluated on a
three-configuration budget-0 trace. -/
theorem C1_budget0_cache_consistency_witness :
    ∃ rh rh₂, runTrace (RunHistory.init false) exTrace = .ok rh ∧
      rh.update_costs none = .ok rh₂ ∧
      ∀ cid : ℤ, odLookup rh.core.cost_per_config cid =
        odLookup rh₂.core.cost_per_config cid :=
  ⟨_, _, rfl, rfl, C1_budget0_cache_consistency exTrace _ _ (by decide) rfl rfl⟩


/-! ### Save/load round trip: definitions -/

/-- A ledger whose single `add` raised on a non-serializable payload after
registering the configuration: the configuration has an id but no trial. -/
def exRHlost : RunHistory :=
  exRH0.addAny { config := exCfg, cost := [4], additional_info := none }

/-- The JSON rendering of a configuration origin in `save_json`. -/
def originJson : Option String → Json
  | some s => Json.jstr s
  | none => Json.null

/-- The state invariant maintained by successful internal, non-forced `add`
calls: consistent id tables mirroring each other, and ledger rows that are
serializable, internally originated, single-shape and backed by registered
configurations. -/
structure C5Inv (rh : RunHistory) : Prop where
  ov : rh.core.overwrite_existing_trials = false
  mirror : rh.ids_config = rh.config_ids.map (fun p => (p.2, p.1))
  cfgNodup : (rh.config_ids.map (fun p => p.1.values)).Nodup
  cidNodup : (rh.config_ids.map Prod.snd).Nodup
  idbound : ∀ p ∈ rh.config_ids, p.2 ≤ rh.n_id
  nlen : rh.core.data = [] ∨ rh.core.n_objectives ≠ -1
  rowlen : ∀ p ∈ rh.core.data, (p.2.cost.length : ℤ) = rh.core.n_objectives
  rowinfo : ∀ p ∈ rh.core.data, p.2.additional_info.isSome = true
  rowext : ∀ p ∈ rh.core.data, odLookup rh.core.external p.1 = some .INTERNAL
  rowreg : ∀ p ∈ rh.core.data, ∃ c₀, (c₀, p.1.config_id) ∈ rh.config_ids
  regrow : ∀ p ∈ rh.config_ids, ∃ r ∈ rh.core.data, r.1.config_id = p.2

/-! ### Save/load round trip: decoding lemmas -/

theorem odLookup_append_left {α β : Type} [DecidableEq α] (m r : List (α × β)) (k : α)
    (v : β) (h : odLookup m k = some v) : odLookup (m ++ r) k = some v := by
  induction m with
  | nil => cases h
  | cons p t ih =>
    obtain ⟨pk, pv⟩ := p
    rw [odLookup_cons] at h
    rw [List.cons_append, odLookup_cons]
    by_cases hp : pk = k
    · rw [if_pos hp] at h ⊢
      exact h
    · rw [if_neg hp] at h ⊢
      exact ih h

theorem cfgLookup_append_left {β : Type} (m r : List (Config × β)) (c : Config)
    (v : β) (h : cfgLookup m c = some v) : cfgLookup (m ++ r) c = some v := by
  induction m with
  | nil => cases h
  | cons p t ih =>
    obtain ⟨pc, pv⟩ := p
    rw [cfgLookup_cons] at h
    rw [List.cons_append, cfgLookup_cons]
    by_cases hp : pc.values = c.values
    · rw [if_pos hp] at h ⊢
      exact h
    · rw [if_neg hp] at h ⊢
      exact ih h

theorem StatusType.ofInt_toInt (s : StatusType) : StatusType.ofInt s.toInt = some s := by
  cases s <;> rfl

theorem decodeOrigin_originJson (o : Option String) :
    decodeOrigin (some (originJson o)) = o := by
  cases o <;> rfl

theorem floatList_jnum (l : List ℚ) : floatList (l.map Json.jnum) = .ok l := by
  induction l with
  | nil => rfl
  | cons q t ih =>
    simp only [List.map_cons, floatList, floatOf, bind, Except.bind]
    rw [ih]
    rfl

theorem saveFilter_all_internal (ext : List (TrialKey × DataOrigin))
    (data : List (TrialKey × TrialValue))
    (h : ∀ p ∈ data, odLookup ext p.1 = some .INTERNAL) :
    saveFilter ext false data = .ok data := by
  induction data with
  | nil => rfl
  | cons p t ih =>
    obtain ⟨k, v⟩ := p
    simp only [saveFilter, h (k, v) (List.mem_cons_self _ _)]
    rw [if_pos (by simp)]
    rw [ih (fun q hq => h q (List.mem_cons_of_mem _ hq))]
    rfl

/-! ### Save/load round trip: counterexample -/

/-- C5 counterexample: an `add` that raises on a non-serializable payload
still registers its configuration (C10), but `save_json` only serializes
configurations whose id occurs in a saved trial, so the registration is
silently dropped by the round trip: the reloaded ledger has an empty
`_ids_config` while the original maps id 1. -/
theorem C5_lost_config_registration :
    ∃ doc rh₂,
      exRHlost.save_json false = .ok doc ∧
      (RunHistory.init false).load_json (some doc) = .ok rh₂ ∧
      exRHlost.ids_config = [(1, exCfg)] ∧ rh₂.ids_config = [] := by
  refine ⟨_, _, rfl, rfl, by decide, by decide⟩


@[simp] theorem jobjToList_ofList (l : List (String × Json)) :
    (JObj.ofList l).toList = l := by
  induction l with
  | nil => rfl
  | cons p t ih =>
    obtain ⟨k, v⟩ := p
    simp [JObj.ofList, JObj.toList, ih]

theorem filterMap_if_all {α β : Type} (l : List α) (P : α → Bool) (f : α → β)
    (h : ∀ x ∈ l, P x = true) :
    l.filterMap (fun x => if P x then some (f x) else none) = l.map f := by
  induction l with
  | nil => rfl
  | cons x t ih =>
    simp only [List.filterMap_cons, h x (List.mem_cons_self _ _), if_true, List.map_cons]
    rw [ih (fun y hy => h y (List.mem_cons_of_mem _ hy))]

theorem save_json_spec (rh : RunHistory)
    (hext : ∀ p ∈ rh.core.data, odLookup rh.core.external p.1 = some .INTERNAL)
    (hinfo : ∀ p ∈ rh.core.data, p.2.additional_info.isSome = true)
    (hserial : ∀ p ∈ rh.ids_config, ∃ r ∈ rh.core.data, r.1.config_id = p.1) :
    rh.save_json false = .ok (Json.jobj (JObj.ofList
      [ ("data", Json.jarr (JArr.ofList (rh.core.data.map (fun p => encodeEntry p.1 p.2)))),
        ("configs", Json.jobjI (JObjI.ofList
          (rh.ids_config.map (fun p => (p.1, Json.jint p.2.values))))),
        ("config_origins", Json.jobjI (JObjI.ofList
          (rh.ids_config.map (fun p => (p.1, originJson p.2.origin))))) ])) := by
  simp only [RunHistory.save_json, bind, Except.bind]
  rw [saveFilter_all_internal _ _ hext]
  have hany : (rh.core.data.any (fun p => p.2.additional_info.isNone)) = false := by
    rw [List.any_eq_false]
    intro p hp
    have := hinfo p hp
    cases hx : p.2.additional_info
    · rw [hx] at this
      cases this
    · simp [hx]
  have hconf : rh.ids_config.filterMap (fun p =>
      if (rh.core.data.map (fun r => r.1.config_id)).contains p.1 then
        some (p.1, Json.jint p.2.values) else none) =
      rh.ids_config.map (fun p => (p.1, Json.jint p.2.values)) := by
    refine filterMap_if_all _ _ _ ?_
    intro p hp
    obtain ⟨r, hr, hcid⟩ := hserial p hp
    have hmm : p.1 ∈ rh.core.data.map (fun r => r.1.config_id) :=
      List.mem_map.mpr ⟨r, hr, hcid⟩
    simpa using hmm
  dsimp only
  rw [hany, hconf]
  simp only [Bool.false_eq_true, if_false]
  rfl

theorem odLookup_none_append {α β : Type} [DecidableEq α] (m : List (α × β)) (k k2 : α)
    (v : β) (h : odLookup m k2 = none) (hne : k ≠ k2) :
    odLookup (m ++ [(k, v)]) k2 = none := by
  rw [odLookup_eq_none_iff] at h ⊢
  intro hc
  rcases List.mem_map.mp hc with ⟨p, hp, hpk⟩
  rcases List.mem_append.mp hp with hl | hr
  · exact h (List.mem_map.mpr ⟨p, hl, hpk⟩)
  · rcases List.mem_singleton.mp hr with rfl
    exact hne hpk

theorem cfgLookup_none_append {β : Type} (m : List (Config × β)) (c c2 : Config)
    (v : β) (h : cfgLookup m c2 = none) (hne : c.values ≠ c2.values) :
    cfgLookup (m ++ [(c, v)]) c2 = none := by
  induction m with
  | nil =>
    rw [List.nil_append, cfgLookup_cons, if_neg hne]
    rfl
  | cons p t ih =>
    rw [cfgLookup_cons] at h
    by_cases hp : p.1.values = c2.values
    · rw [if_pos hp] at h
      cases h
    · rw [if_neg hp] at h
      rw [List.cons_append, cfgLookup_cons, if_neg hp]
      exact ih h

theorem loadConfigsLoop_saved (origins : List (ℤ × Json)) :
    ∀ (l : List (ℤ × Config)) (acc : List (ℤ × Config)),
    (∀ p ∈ l, odLookup origins p.1 = some (originJson p.2.origin)) →
    (∀ p ∈ l, odLookup acc p.1 = none) →
    ((l.map Prod.fst).Nodup) →
    loadConfigsLoop (Json.jobjI (JObjI.ofList origins))
      (l.map (fun p => (p.1, Json.jint p.2.values))) acc = .ok (acc ++ l) := by
  intro l
  induction l with
  | nil =>
    intro acc _ _ _
    simp [loadConfigsLoop]
  | cons p t ih =>
    obtain ⟨cid, c⟩ := p
    intro acc horig hacc hnd
    rw [List.map_cons, List.nodup_cons] at hnd
    simp only [List.map_cons, loadConfigsLoop, originsGet, jobjIToList_ofList]
    rw [horig (cid, c) (List.mem_cons_self _ _)]
    simp only [decodeOrigin_originJson]
    have hins : odInsert acc cid (⟨c.values, c.origin⟩ : Config) = acc ++ [(cid, c)] := by
      have := odInsert_of_lookup_none acc cid (⟨c.values, c.origin⟩ : Config)
        (hacc (cid, c) (List.mem_cons_self _ _))
      rw [this]
    rw [hins]
    have hrec := ih (acc ++ [(cid, c)])
      (fun q hq => horig q (List.mem_cons_of_mem _ hq))
      (fun q hq => odLookup_none_append acc cid q.1 c
        (hacc q (List.mem_cons_of_mem _ hq))
        (fun hc => hnd.1 (hc ▸ List.mem_map.mpr ⟨q, hq, rfl⟩)))
      hnd.2
    rw [hrec]
    rw [List.append_assoc]
    rfl

theorem foldl_cfgInsert_saved : ∀ (l : List (ℤ × Config)) (acc : List (Config × ℤ)),
    (∀ p ∈ l, cfgLookup acc p.2 = none) →
    ((l.map (fun p => p.2.values)).Nodup) →
    l.foldl (fun m p => cfgInsert m p.2 p.1) acc = acc ++ l.map (fun p => (p.2, p.1)) := by
  intro l
  induction l with
  | nil =>
    intro acc _ _
    simp
  | cons p t ih =>
    obtain ⟨cid, c⟩ := p
    intro acc hacc hnd
    rw [List.map_cons, List.nodup_cons] at hnd
    rw [List.foldl_cons]
    have hins : cfgInsert acc c cid = acc ++ [(c, cid)] :=
      cfgInsert_of_lookup_none _ _ _ (hacc (cid, c) (List.mem_cons_self _ _))
    rw [hins]
    have hrec := ih (acc ++ [(c, cid)])
      (fun q hq => cfgLookup_none_append acc c q.2 cid
        (hacc q (List.mem_cons_of_mem _ hq))
        (fun hc => hnd.1 (hc ▸ List.mem_map.mpr ⟨q, hq, rfl⟩)))
      hnd.2
    rw [hrec]
    simp [List.append_assoc]

theorem load_json_saved (rh0 : RunHistory) (rows : List (TrialKey × TrialValue))
    (idsc : List (ℤ × Config))
    (hkeys : (idsc.map Prod.fst).Nodup)
    (hvals : (idsc.map (fun p => p.2.values)).Nodup) :
    rh0.load_json (some (Json.jobj (JObj.ofList
      [ ("data", Json.jarr (JArr.ofList (rows.map (fun p => encodeEntry p.1 p.2)))),
        ("configs", Json.jobjI (JObjI.ofList
          (idsc.map (fun p => (p.1, Json.jint p.2.values))))),
        ("config_origins", Json.jobjI (JObjI.ofList
          (idsc.map (fun p => (p.1, originJson p.2.origin))))) ]))) =
      loadEntries { rh0 with
          ids_config := idsc,
          config_ids := idsc.map (fun p => (p.2, p.1)),
          n_id := ((idsc.map (fun p => (p.2, p.1))).length : ℤ) }
        (rows.map (fun p => encodeEntry p.1 p.2)) := by
  simp only [RunHistory.load_json]
  rw [if_neg (by simp [jsonIsDict])]
  have hgo : dictGetS (Json.jobj (JObj.ofList
      [ ("data", Json.jarr (JArr.ofList (rows.map (fun p => encodeEntry p.1 p.2)))),
        ("configs", Json.jobjI (JObjI.ofList
          (idsc.map (fun p => (p.1, Json.jint p.2.values))))),
        ("config_origins", Json.jobjI (JObjI.ofList
          (idsc.map (fun p => (p.1, originJson p.2.origin))))) ])) "config_origins" =
      some (Json.jobjI (JObjI.ofList (idsc.map (fun p => (p.1, originJson p.2.origin))))) := by
    simp only [dictGetS, jobjToList_ofList]
    rw [odLookup_cons, if_neg (by decide), odLookup_cons, if_neg (by decide),
      odLookup_cons, if_pos rfl]
  have hgc : dictGetS (Json.jobj (JObj.ofList
      [ ("data", Json.jarr (JArr.ofList (rows.map (fun p => encodeEntry p.1 p.2)))),
        ("configs", Json.jobjI (JObjI.ofList
          (idsc.map (fun p => (p.1, Json.jint p.2.values))))),
        ("config_origins", Json.jobjI (JObjI.ofList
          (idsc.map (fun p => (p.1, originJson p.2.origin))))) ])) "configs" =
      some (Json.jobjI (JObjI.ofList (idsc.map (fun p => (p.1, Json.jint p.2.values))))) := by
    simp only [dictGetS, jobjToList_ofList]
    rw [odLookup_cons, if_neg (by decide), odLookup_cons, if_pos rfl]
  have hgd : dictGetS (Json.jobj (JObj.ofList
      [ ("data", Json.jarr (JArr.ofList (rows.map (fun p => encodeEntry p.1 p.2)))),
        ("configs", Json.jobjI (JObjI.ofList
          (idsc.map (fun p => (p.1, Json.jint p.2.values))))),
        ("config_origins", Json.jobjI (JObjI.ofList
          (idsc.map (fun p => (p.1, originJson p.2.origin))))) ])) "data" =
      some (Json.jarr (JArr.ofList (rows.map (fun p => encodeEntry p.1 p.2)))) := by
    simp only [dictGetS, jobjToList_ofList]
    rw [odLookup_cons, if_pos rfl]
  rw [hgo, hgc]
  simp only [Option.getD_some, configsItems, jobjIToList_ofList]
  have horig : ∀ p ∈ idsc,
      odLookup (idsc.map (fun p => (p.1, originJson p.2.origin))) p.1 =
        some (originJson p.2.origin) := by
    intro p hp
    have hmem : (p.1, originJson p.2.origin) ∈
        idsc.map (fun p => (p.1, originJson p.2.origin)) :=
      List.mem_map.mpr ⟨p, hp, rfl⟩
    have hnd2 : ((idsc.map (fun p => (p.1, originJson p.2.origin))).map Prod.fst).Nodup := by
      rw [List.map_map]
      exact hkeys
    exact odLookup_of_mem_nodup _ _ hmem hnd2
  rw [loadConfigsLoop_saved _ idsc [] horig (fun p hp => rfl) hkeys]
  simp only [List.nil_append]
  rw [foldl_cfgInsert_saved idsc [] (fun p hp => rfl) hvals]
  simp only [List.nil_append]
  rw [hgd]
  simp only [jarrToList_ofList]


theorem loadEntry_encode (rl : RunHistory) (k : TrialKey) (v : TrialValue) (j : Json)
    (config : Config)
    (hinfo : v.additional_info = some j)
    (hids : odLookup rl.ids_config k.config_id = some config)
    (hn : rl.core.n_objectives = -1 ∨ rl.core.n_objectives = (v.cost.length : ℤ)) :
    loadEntry rl (encodeEntry k v) =
      ({ rl with core := { rl.core with
          n_objectives := (v.cost.length : ℤ) } } : RunHistory).add
        { config := config, cost := v.cost, time := v.time, status := v.status,
          inst := k.inst, seed := k.seed, budget := k.budget,
          starttime := v.starttime, endtime := v.endtime,
          additional_info := some j, origin := .INTERNAL, force_update := false } := by
  obtain ⟨kc, ki, ks, kb⟩ := k
  obtain ⟨vc, vt, vs, vst, ven, vi⟩ := v
  simp only at hinfo hids hn ⊢
  subst hinfo
  rcases hn with hn | hn
  · rcases vc with _ | ⟨q, _ | ⟨q2, qt⟩⟩
    · cases ki <;> cases ks <;> cases kb <;>
        simp [loadEntry, encodeEntry, encodeCost, floatOf, floatList_jnum, floatList, intOf,
          pyLen, StatusType.ofInt_toInt, hids, hn, Except.map]
    · cases ki <;> cases ks <;> cases kb <;>
        simp [loadEntry, encodeEntry, encodeCost, floatOf, floatList_jnum, floatList, intOf,
          pyLen, StatusType.ofInt_toInt, hids, hn, Except.map]
    · have hc0 : ¬ ((qt.length : ℤ) + 1 = 0) := by omega
      have hc1 : ¬ ((qt.length : ℤ) + 1 + 1 = 1) := by omega
      cases ki <;> cases ks <;> cases kb <;>
        simp [loadEntry, encodeEntry, encodeCost, floatOf, floatList_jnum, floatList, intOf,
          pyLen, StatusType.ofInt_toInt, hids, hn, Except.map, bind, Except.bind, hc0, hc1]
  · have hne1 : rl.core.n_objectives ≠ -1 := by rw [hn]; omega
    rcases vc with _ | ⟨q, _ | ⟨q2, qt⟩⟩
    · cases ki <;> cases ks <;> cases kb <;>
        simp [loadEntry, encodeEntry, encodeCost, floatOf, floatList_jnum, floatList, intOf,
          pyLen, StatusType.ofInt_toInt, hids, hn, hne1, Except.map]
    · cases ki <;> cases ks <;> cases kb <;>
        simp [loadEntry, encodeEntry, encodeCost, floatOf, floatList_jnum, floatList, intOf,
          pyLen, StatusType.ofInt_toInt, hids, hn, hne1, Except.map]
    · have hc0 : ¬ ((qt.length : ℤ) + 1 = 0) := by omega
      have hc1 : ¬ ((qt.length : ℤ) + 1 + 1 = 1) := by omega
      cases ki <;> cases ks <;> cases kb <;>
        simp [loadEntry, encodeEntry, encodeCost, floatOf, floatList_jnum, floatList, intOf,
          pyLen, StatusType.ofInt_toInt, hids, hn, hne1, Except.map, bind, Except.bind,
          hc0, hc1]


theorem odLookup_isSome_of_mem {α β : Type} [DecidableEq α] (m : List (α × β))
    (p : α × β) (hp : p ∈ m) : (odLookup m p.1).isSome = true := by
  induction m with
  | nil => cases hp
  | cons q t ih =>
    obtain ⟨qk, qv⟩ := q
    rw [odLookup_cons]
    by_cases hq : qk = p.1
    · rw [if_pos hq]
      rfl
    · rw [if_neg hq]
      rcases List.mem_cons.mp hp with rfl | hp'
      · exact absurd rfl hq
      · exact ih hp'

theorem mirror_ids_lookup (rh : RunHistory)
    (hmirror : rh.ids_config = rh.config_ids.map (fun p => (p.2, p.1)))
    (hcidN : (rh.config_ids.map Prod.snd).Nodup)
    (c₀ : Config) (cid : ℤ) (hmem : (c₀, cid) ∈ rh.config_ids) :
    odLookup rh.ids_config cid = some c₀ := by
  rw [hmirror]
  have hm2 : ((cid, c₀) : ℤ × Config) ∈ rh.config_ids.map (fun p => (p.2, p.1)) :=
    List.mem_map.mpr ⟨(c₀, cid), hmem, rfl⟩
  have hnd : ((rh.config_ids.map (fun p => (p.2, p.1))).map Prod.fst).Nodup := by
    rw [List.map_map]
    exact hcidN
  exact odLookup_of_mem_nodup _ _ hm2 hnd

theorem fresh_key_none (rh : RunHistory) (hinv : C5Inv rh)
    (i : Option String) (sd : Option ℤ) (b : Option ℚ) :
    odLookup rh.core.data ⟨rh.n_id + 1, i, sd, b⟩ = none := by
  rw [odLookup_eq_none_iff]
  intro hc
  rcases List.mem_map.mp hc with ⟨p, hp, hpk⟩
  obtain ⟨c₁, hc₁⟩ := hinv.rowreg p hp
  have hb := hinv.idbound _ hc₁
  have hck : p.1.config_id = rh.n_id + 1 := by rw [hpk]
  simp only at hb
  omega

theorem costUpdateStep_congr (ci ci2 : List (Config × ℤ)) (ic ic2 : List (ℤ × Config))
    (core : Core) (k : TrialKey) (v : TrialValue)
    (h1 : odLookup ic2 k.config_id = odLookup ic k.config_id)
    (h2 : ∀ c, odLookup ic k.config_id = some c → cfgLookup ci2 c = cfgLookup ci c) :
    costUpdateStep ci2 ic2 core k v = costUpdateStep ci ic core k v := by
  simp only [costUpdateStep, h1]
  rcases hic : odLookup ic k.config_id with _ | c
  · rfl
  · dsimp only
    rw [h2 c hic]

theorem add_inner_congr (ci ci2 : List (Config × ℤ)) (ic ic2 : List (ℤ × Config))
    (core : Core) (k : TrialKey) (v : TrialValue) (s : StatusType) (o : DataOrigin)
    (h1 : odLookup ic2 k.config_id = odLookup ic k.config_id)
    (h2 : ∀ c, odLookup ic k.config_id = some c → cfgLookup ci2 c = cfgLookup ci c) :
    _add_inner ci2 ic2 core k v s o = _add_inner ci ic core k v s o := by
  simp only [_add_inner]
  split
  · rfl
  · split
    · split
      · rfl
      · split
        · exact costUpdateStep_congr ci ci2 ic ic2 _ k v h1 h2
        · split
          · split
            · rfl
            · split
              · rfl
              · exact costUpdateStep_congr ci ci2 ic ic2 _ k v h1 h2
          · exact costUpdateStep_congr ci ci2 ic ic2 _ k v h1 h2
    · rfl

theorem addAfterN_congr (rh rh2 : RunHistory) (cid : ℤ) (a : AddArgs) (rh1 : RunHistory)
    (hcore : rh2.core = rh.core)
    (h1 : odLookup rh2.ids_config cid = odLookup rh.ids_config cid)
    (h2 : ∀ c, odLookup rh.ids_config cid = some c →
      cfgLookup rh2.config_ids c = cfgLookup rh.config_ids c)
    (h : addAfterN rh cid a = .ok rh1) :
    addAfterN rh2 cid a = .ok { rh2 with core := rh1.core } := by
  simp only [addAfterN] at h ⊢
  rw [hcore]
  split at h
  · exact absurd h (by simp)
  · rename_i hinfo
    rw [if_neg hinfo]
    split at h
    · rename_i hguard
      rw [if_pos hguard]
      rw [add_inner_congr rh.config_ids rh2.config_ids rh.ids_config rh2.ids_config
        rh.core ⟨cid, a.inst, a.seed, a.budget⟩
        ⟨a.cost, a.time, a.status, a.starttime, a.endtime, a.additional_info⟩
        a.status a.origin h1 h2]
      rcases hA : _add_inner rh.config_ids rh.ids_config rh.core
          ⟨cid, a.inst, a.seed, a.budget⟩
          ⟨a.cost, a.time, a.status, a.starttime, a.endtime, a.additional_info⟩
          a.status a.origin with e | c <;> rw [hA] at h
      · exact absurd h (by simp)
      · cases h
        rfl
    · rename_i hguard
      rw [if_neg hguard]
      cases h
      rw [← hcore]

theorem addAfterN_config_irrel (rh : RunHistory) (cid : ℤ) (a : AddArgs) (c2 : Config) :
    addAfterN rh cid { a with config := c2 } = addAfterN rh cid a := rfl

theorem add_resolved_to_afterN (rl : RunHistory) (a : AddArgs) (cid : ℤ)
    (hres : cfgLookup rl.config_ids a.config = some cid)
    (hn : rl.core.n_objectives = (a.cost.length : ℤ)) :
    rl.add a = addAfterN rl cid a := by
  simp only [RunHistory.add, hres, addAfterId]
  rw [if_neg (by rw [hn]; omega), if_neg (by rw [hn]; simp)]

theorem C5_afterN_dedup (X rh1 : RunHistory) (cid : ℤ) (a : AddArgs)
    (hov : X.core.overwrite_existing_trials = false) (hfu : a.force_update = false)
    (hlk : (odLookup X.core.data ⟨cid, a.inst, a.seed, a.budget⟩).isSome = true)
    (h : addAfterN X cid a = .ok rh1) : rh1 = X := by
  simp only [addAfterN] at h
  split at h
  · exact absurd h (by simp)
  · split at h
    · rename_i hguard
      exfalso
      rw [hov, hfu] at hguard
      cases hx : odLookup X.core.data ⟨cid, a.inst, a.seed, a.budget⟩
      · rw [hx] at hlk
        cases hlk
      · rw [hx] at hguard
        simp at hguard
    · cases h
      rfl


theorem C5_afterN_ins (X rh1 : RunHistory) (cid : ℤ) (a : AddArgs) (c₀ : Config)
    (nOrig : ℤ)
    (hint : a.origin = .INTERNAL) (hfu : a.force_update = false)
    (hov : X.core.overwrite_existing_trials = false)
    (hmirror : X.ids_config = X.config_ids.map (fun p => (p.2, p.1)))
    (hcfgN : (X.config_ids.map (fun p => p.1.values)).Nodup)
    (hcidN : (X.config_ids.map Prod.snd).Nodup)
    (hidb : ∀ p ∈ X.config_ids, p.2 ≤ X.n_id)
    (hmem : (c₀, cid) ∈ X.config_ids)
    (hn : X.core.n_objectives = (a.cost.length : ℤ))
    (hnOrig : X.core.data = [] ∨ nOrig = (a.cost.length : ℤ))
    (hrowlen : ∀ p ∈ X.core.data, (p.2.cost.length : ℤ) = nOrig)
    (hrowinfo : ∀ p ∈ X.core.data, p.2.additional_info.isSome = true)
    (hrowext : ∀ p ∈ X.core.data, odLookup X.core.external p.1 = some .INTERNAL)
    (hrowreg : ∀ p ∈ X.core.data, ∃ c₁, (c₁, p.1.config_id) ∈ X.config_ids)
    (hregrow : ∀ p ∈ X.config_ids,
      (∃ r ∈ X.core.data, r.1.config_id = p.2) ∨ p = (c₀, cid))
    (hnew : odLookup X.core.data ⟨cid, a.inst, a.seed, a.budget⟩ = none)
    (hN : addAfterN X cid a = .ok rh1) :
    C5Inv rh1 ∧
      rh1.config_ids = X.config_ids ∧ rh1.ids_config = X.ids_config ∧
      rh1.n_id = X.n_id ∧ a.additional_info.isSome = true ∧
      rh1.core.data = X.core.data ++
        [(⟨cid, a.inst, a.seed, a.budget⟩,
          ⟨a.cost, a.time, a.status, a.starttime, a.endtime, a.additional_info⟩)] := by
  simp only [addAfterN] at hN
  split at hN
  · exact absurd hN (by simp)
  · rename_i hinfoN
    have hinfo : a.additional_info.isSome = true := by
      cases hx : a.additional_info
      · rw [hx] at hinfoN
        simp at hinfoN
      · rfl
    split at hN
    · rcases hA : _add_inner X.config_ids X.ids_config X.core
          ⟨cid, a.inst, a.seed, a.budget⟩
          ⟨a.cost, a.time, a.status, a.starttime, a.endtime, a.additional_info⟩
          a.status a.origin with e | c₂ <;> rw [hA] at hN
      · exact absurd hN (by simp)
      · cases hN
        obtain ⟨b, m, cc, nn, mm, hf⟩ := frame_add_inner X.config_ids X.ids_config X.core
          ⟨cid, a.inst, a.seed, a.budget⟩
          ⟨a.cost, a.time, a.status, a.starttime, a.endtime, a.additional_info⟩
          a.status a.origin
        rw [hA] at hf
        simp only [carried] at hf
        have hdat : c₂.data = X.core.data ++
            [(⟨cid, a.inst, a.seed, a.budget⟩,
              ⟨a.cost, a.time, a.status, a.starttime, a.endtime, a.additional_info⟩)] := by
          rw [hf]
          exact odInsert_of_lookup_none _ _ _ hnew
        have hext : c₂.external = odInsert X.core.external
            ⟨cid, a.inst, a.seed, a.budget⟩ a.origin := by
          rw [hf]
        have hnn : c₂.n_objectives = (a.cost.length : ℤ) := by
          rw [hf]
          exact hn
        have hkeyne : ∀ p ∈ X.core.data,
            p.1 ≠ (⟨cid, a.inst, a.seed, a.budget⟩ : TrialKey) := by
          intro p hp hc
          have := odLookup_isSome_of_mem _ _ hp
          rw [hc, hnew] at this
          cases this
        refine ⟨⟨?_, ?_, hcfgN, hcidN, hidb, ?_, ?_, ?_, ?_, ?_, ?_⟩,
          rfl, rfl, rfl, hinfo, hdat⟩
        · show c₂.overwrite_existing_trials = false
          rw [hf]
          exact hov
        · exact hmirror
        · right
          show c₂.n_objectives ≠ -1
          rw [hnn]
          omega
        · -- rowlen
          intro p hp
          rw [hdat] at hp
          rcases List.mem_append.mp hp with hold | hnew2
          · have h1 := hrowlen p hold
            rcases hnOrig with hemp | heq
            · rw [hemp] at hold
              cases hold
            · rw [hnn, ← heq]
              exact h1
          · rcases List.mem_singleton.mp hnew2 with rfl
            rw [hnn]
        · -- rowinfo
          intro p hp
          rw [hdat] at hp
          rcases List.mem_append.mp hp with hold | hnew2
          · exact hrowinfo p hold
          · rcases List.mem_singleton.mp hnew2 with rfl
            exact hinfo
        · -- rowext
          intro p hp
          rw [hdat] at hp
          show odLookup c₂.external p.1 = some .INTERNAL
          rw [hext]
          rcases List.mem_append.mp hp with hold | hnew2
          · rw [odLookup_odInsert_ne _ _ _ _ (fun hc => hkeyne p hold hc.symm)]
            exact hrowext p hold
          · rcases List.mem_singleton.mp hnew2 with rfl
            rw [odLookup_odInsert_self, hint]
        · -- rowreg
          intro p hp
          rw [hdat] at hp
          rcases List.mem_append.mp hp with hold | hnew2
          · exact hrowreg p hold
          · rcases List.mem_singleton.mp hnew2 with rfl
            exact ⟨c₀, hmem⟩
        · -- regrow
          intro p hp
          rcases hregrow p hp with ⟨r, hr, hrc⟩ | rfl
          · exact ⟨r, by rw [hdat]; exact List.mem_append_left _ hr, hrc⟩
          · refine ⟨(⟨cid, a.inst, a.seed, a.budget⟩,
              ⟨a.cost, a.time, a.status, a.starttime, a.endtime, a.additional_info⟩),
              ?_, rfl⟩
            rw [hdat]
            exact List.mem_append_right _ (List.mem_singleton.mpr rfl)
    · rename_i hguard
      exfalso
      rw [hov, hfu, hnew] at hguard
      simp at hguard


theorem C5_step (rh rh1 : RunHistory) (a : AddArgs)
    (hint : a.origin = .INTERNAL) (hfu : a.force_update = false)
    (hinv : C5Inv rh) (h : rh.add a = .ok rh1) :
    C5Inv rh1 ∧ rh.config_ids <+: rh1.config_ids ∧ rh.ids_config <+: rh1.ids_config ∧
      (rh1 = rh ∨
       ∃ (c₀ : Config) (cid : ℤ) (j : Json) (X : RunHistory),
         X.config_ids = rh1.config_ids ∧ X.ids_config = rh1.ids_config ∧
         X.core = { rh.core with n_objectives := (a.cost.length : ℤ) } ∧
         (rh.core.n_objectives = -1 ∨ rh.core.n_objectives = (a.cost.length : ℤ)) ∧
         (c₀, cid) ∈ rh1.config_ids ∧
         odLookup X.ids_config cid = some c₀ ∧
         cfgLookup X.config_ids c₀ = some cid ∧
         a.additional_info = some j ∧
         addAfterN X cid a = .ok rh1 ∧
         rh1.core.data = rh.core.data ++
           [(⟨cid, a.inst, a.seed, a.budget⟩,
             ⟨a.cost, a.time, a.status, a.starttime, a.endtime, a.additional_info⟩)]) := by
  simp only [RunHistory.add] at h
  split at h
  · -- the configuration is already registered
    rename_i cid hcid
    obtain ⟨c₀, hmem, hvals⟩ := cfgLookup_mem _ _ _ hcid
    have hlookids : odLookup rh.ids_config cid = some c₀ :=
      mirror_ids_lookup rh hinv.mirror hinv.cidNodup c₀ cid hmem
    have hlookcfg : cfgLookup rh.config_ids c₀ = some cid :=
      cfgLookup_of_mem_nodup _ _ hmem hinv.cfgNodup
    simp only [addAfterId] at h
    split at h
    · rename_i hm1
      have hdata0 : rh.core.data = [] := by
        rcases hinv.nlen with h0 | h0
        · exact h0
        · exact absurd hm1 h0
      have hnew : odLookup rh.core.data
          (⟨cid, a.inst, a.seed, a.budget⟩ : TrialKey) = none := by
        rw [hdata0]
        rfl
      obtain ⟨hinv1, hcids, hids, hnid, hinfoS, hdat⟩ :=
        C5_afterN_ins ({ rh with core := { rh.core with n_objectives := (a.cost.length : ℤ) } } : RunHistory)
          rh1 cid a c₀ rh.core.n_objectives hint hfu hinv.ov hinv.mirror
          hinv.cfgNodup hinv.cidNodup hinv.idbound hmem rfl
          (Or.inl hdata0) hinv.rowlen hinv.rowinfo hinv.rowext hinv.rowreg
          (fun p hp => Or.inl (hinv.regrow p hp)) hnew h
      obtain ⟨j, hj⟩ := Option.isSome_iff_exists.mp hinfoS
      exact ⟨hinv1, by rw [hcids], by rw [hids], Or.inr
        ⟨c₀, cid, j, _, hcids.symm, hids.symm, rfl, Or.inl hm1,
          by rw [hcids]; exact hmem, hlookids, hlookcfg, hj, h, hdat⟩⟩
    · split at h
      · exact absurd h (by simp)
      · rename_i hx1 hx2
        have hnEq : rh.core.n_objectives = (a.cost.length : ℤ) := by
          by_contra hcc
          exact hx2 hcc
        rcases hlk : odLookup rh.core.data
            (⟨cid, a.inst, a.seed, a.budget⟩ : TrialKey) with _ | v0
        · -- fresh key: a new row is appended
          have hXcore : rh.core =
              { rh.core with n_objectives := ((a.cost.length : ℕ) : ℤ) } := by
            rw [← hnEq]
          obtain ⟨hinv1, hcids, hids, hnid, hinfoS, hdat⟩ :=
            C5_afterN_ins rh rh1 cid a c₀ rh.core.n_objectives hint hfu hinv.ov
              hinv.mirror hinv.cfgNodup hinv.cidNodup hinv.idbound hmem hnEq
              (Or.inr hnEq) hinv.rowlen hinv.rowinfo hinv.rowext hinv.rowreg
              (fun p hp => Or.inl (hinv.regrow p hp)) hlk h
          obtain ⟨j, hj⟩ := Option.isSome_iff_exists.mp hinfoS
          exact ⟨hinv1, by rw [hcids], by rw [hids], Or.inr
            ⟨c₀, cid, j, rh, hcids.symm, hids.symm, hXcore, Or.inr hnEq,
              by rw [hcids]; exact hmem, hlookids, hlookcfg, hj, h, hdat⟩⟩
        · -- duplicate key: the call is a silent no-op
          have hdup : rh1 = rh :=
            C5_afterN_dedup rh rh1 cid a hinv.ov hfu (by rw [hlk]; rfl) h
          subst hdup
          exact ⟨hinv, List.prefix_refl _, List.prefix_refl _, Or.inl rfl⟩
  · -- a fresh configuration id is assigned first
    rename_i hnone
    have hidsnone : odLookup rh.ids_config (rh.n_id + 1) = none := by
      rw [odLookup_eq_none_iff]
      intro hc
      rcases List.mem_map.mp hc with ⟨p, hp, hpk⟩
      rw [hinv.mirror] at hp
      rcases List.mem_map.mp hp with ⟨q, hq, hqp⟩
      have := hinv.idbound q hq
      rw [← hqp] at hpk
      simp only at hpk
      omega
    have happ : cfgInsert rh.config_ids a.config (rh.n_id + 1) =
        rh.config_ids ++ [(a.config, rh.n_id + 1)] :=
      cfgInsert_of_lookup_none _ _ _ hnone
    have happI : odInsert rh.ids_config (rh.n_id + 1) a.config =
        rh.ids_config ++ [(rh.n_id + 1, a.config)] :=
      odInsert_of_lookup_none _ _ _ hidsnone
    have hmirrorX : odInsert rh.ids_config (rh.n_id + 1) a.config =
        (cfgInsert rh.config_ids a.config (rh.n_id + 1)).map (fun p => (p.2, p.1)) := by
      rw [happ, happI, List.map_append, hinv.mirror]
      rfl
    have hcfgNX : ((cfgInsert rh.config_ids a.config (rh.n_id + 1)).map
        (fun p => p.1.values)).Nodup := by
      rw [happ, List.map_append, List.nodup_append]
      refine ⟨hinv.cfgNodup, by simp, ?_⟩
      intro x hx
      rcases List.mem_map.mp hx with ⟨p, hp, hpx⟩
      simp only [List.map_cons, List.map_nil, List.mem_singleton]
      intro hc
      have := cfgLookup_none_keys rh.config_ids a.config hnone p hp
      rw [hpx] at this
      exact this hc
    have hcidNX : ((cfgInsert rh.config_ids a.config (rh.n_id + 1)).map
        Prod.snd).Nodup := by
      rw [happ, List.map_append, List.nodup_append]
      refine ⟨hinv.cidNodup, by simp, ?_⟩
      intro x hx
      rcases List.mem_map.mp hx with ⟨p, hp, hpx⟩
      have := hinv.idbound p hp
      simp only [List.map_cons, List.map_nil, List.mem_singleton]
      intro hc
      rw [hc] at hpx
      omega
    have hidbX : ∀ p ∈ cfgInsert rh.config_ids a.config (rh.n_id + 1),
        p.2 ≤ rh.n_id + 1 := by
      intro p hp
      rw [happ] at hp
      rcases List.mem_append.mp hp with hold | hnew2
      · have := hinv.idbound p hold
        omega
      · rcases List.mem_singleton.mp hnew2 with rfl
        exact le_refl _
    have hmemX : (a.config, rh.n_id + 1) ∈
        cfgInsert rh.config_ids a.config (rh.n_id + 1) := by
      rw [happ]
      exact List.mem_append_right _ (List.mem_singleton.mpr rfl)
    have hrowregX : ∀ p ∈ rh.core.data, ∃ c₁,
        (c₁, p.1.config_id) ∈ cfgInsert rh.config_ids a.config (rh.n_id + 1) := by
      intro p hp
      obtain ⟨c₁, hc₁⟩ := hinv.rowreg p hp
      exact ⟨c₁, by rw [happ]; exact List.mem_append_left _ hc₁⟩
    have hregrowX : ∀ p ∈ cfgInsert rh.config_ids a.config (rh.n_id + 1),
        (∃ r ∈ rh.core.data, r.1.config_id = p.2) ∨ p = (a.config, rh.n_id + 1) := by
      intro p hp
      rw [happ] at hp
      rcases List.mem_append.mp hp with hold | hnew2
      · exact Or.inl (hinv.regrow p hold)
      · rcases List.mem_singleton.mp hnew2 with rfl
        exact Or.inr rfl
    have hlookidsX : odLookup (odInsert rh.ids_config (rh.n_id + 1) a.config)
        (rh.n_id + 1) = some a.config := odLookup_odInsert_self _ _ _
    have hlookcfgX : cfgLookup (cfgInsert rh.config_ids a.config (rh.n_id + 1))
        a.config = some (rh.n_id + 1) := cfgLookup_cfgInsert_self _ _ _
    have hprefC : rh.config_ids <+: cfgInsert rh.config_ids a.config (rh.n_id + 1) := by
      rw [happ]
      exact List.prefix_append _ _
    have hprefI : rh.ids_config <+: odInsert rh.ids_config (rh.n_id + 1) a.config := by
      rw [happI]
      exact List.prefix_append _ _
    simp only [addAfterId] at h
    split at h
    · rename_i hm1
      have hdata0 : rh.core.data = [] := by
        rcases hinv.nlen with h0 | h0
        · exact h0
        · exact absurd hm1 h0
      have hnew : odLookup rh.core.data
          (⟨rh.n_id + 1, a.inst, a.seed, a.budget⟩ : TrialKey) = none := by
        rw [hdata0]
        rfl
      obtain ⟨hinv1, hcids, hids, hnid, hinfoS, hdat⟩ :=
        C5_afterN_ins ({ config_ids := cfgInsert rh.config_ids a.config (rh.n_id + 1), ids_config := odInsert rh.ids_config (rh.n_id + 1) a.config, n_id := rh.n_id + 1, core := { rh.core with n_objectives := (a.cost.length : ℤ) } } : RunHistory)
          rh1 (rh.n_id + 1) a a.config rh.core.n_objectives hint hfu
          hinv.ov hmirrorX hcfgNX hcidNX hidbX hmemX rfl
          (Or.inl hdata0) hinv.rowlen hinv.rowinfo hinv.rowext hrowregX hregrowX hnew h
      obtain ⟨j, hj⟩ := Option.isSome_iff_exists.mp hinfoS
      exact ⟨hinv1, by rw [hcids]; exact hprefC, by rw [hids]; exact hprefI, Or.inr
        ⟨a.config, rh.n_id + 1, j, _, hcids.symm, hids.symm, rfl, Or.inl hm1,
          by rw [hcids]; exact hmemX, hlookidsX, hlookcfgX, hj, h, hdat⟩⟩
    · split at h
      · exact absurd h (by simp)
      · rename_i hx1 hx2
        have hnEq : rh.core.n_objectives = (a.cost.length : ℤ) := by
          by_contra hcc
          exact hx2 hcc
        have hXcore : rh.core =
            { rh.core with n_objectives := ((a.cost.length : ℕ) : ℤ) } := by
          rw [← hnEq]
        have hnew : odLookup rh.core.data
            (⟨rh.n_id + 1, a.inst, a.seed, a.budget⟩ : TrialKey) = none :=
          fresh_key_none rh hinv _ _ _
        obtain ⟨hinv1, hcids, hids, hnid, hinfoS, hdat⟩ :=
          C5_afterN_ins ({ config_ids := cfgInsert rh.config_ids a.config (rh.n_id + 1), ids_config := odInsert rh.ids_config (rh.n_id + 1) a.config, n_id := rh.n_id + 1, core := rh.core } : RunHistory)
            rh1 (rh.n_id + 1) a a.config rh.core.n_objectives hint hfu
            hinv.ov hmirrorX hcfgNX hcidNX hidbX hmemX hnEq
            (Or.inr hnEq) hinv.rowlen hinv.rowinfo hinv.rowext hrowregX hregrowX hnew h
        obtain ⟨j, hj⟩ := Option.isSome_iff_exists.mp hinfoS
        exact ⟨hinv1, by rw [hcids]; exact hprefC, by rw [hids]; exact hprefI, Or.inr
          ⟨a.config, rh.n_id + 1, j, _, hcids.symm, hids.symm, hXcore, Or.inr hnEq,
            by rw [hcids]; exact hmemX, hlookidsX, hlookcfgX, hj, h, hdat⟩⟩


theorem C5_grow (tr : List AddArgs) : ∀ (s RH : RunHistory),
    runTrace s tr = .ok RH →
    (∀ a ∈ tr, a.origin = .INTERNAL ∧ a.force_update = false) →
    C5Inv s →
    C5Inv RH ∧ s.config_ids <+: RH.config_ids ∧ s.ids_config <+: RH.ids_config ∧
      s.core.data <+: RH.core.data := by
  induction tr with
  | nil =>
    intro s RH h _ hinv
    simp only [runTrace] at h
    cases h
    exact ⟨hinv, List.prefix_refl _, List.prefix_refl _, List.prefix_refl _⟩
  | cons a t ih =>
    intro s RH h hb hinv
    simp only [runTrace] at h
    split at h
    · rename_i s1 ha
      obtain ⟨hint, hfu⟩ := hb a (List.mem_cons_self _ _)
      obtain ⟨hinv1, hpc, hpi, hd⟩ := C5_step s s1 a hint hfu hinv ha
      have hdata : s.core.data <+: s1.core.data := by
        rcases hd with hEq | ⟨c₀, cid, j, X, _, _, _, _, _, _, _, _, _, hdat⟩
        · rw [hEq]
        · rw [hdat]
          exact List.prefix_append _ _
      obtain ⟨hinvR, hcR, hiR, hdR⟩ :=
        ih s1 RH h (fun x hx => hb x (List.mem_cons_of_mem _ hx)) hinv1
      exact ⟨hinvR, hpc.trans hcR, hpi.trans hiR, hdata.trans hdR⟩
    · exact absurd h (by simp)

theorem C5_replay (tr : List AddArgs) : ∀ (s RH rl : RunHistory),
    runTrace s tr = .ok RH →
    (∀ a ∈ tr, a.origin = .INTERNAL ∧ a.force_update = false) →
    C5Inv s →
    rl.config_ids = RH.config_ids → rl.ids_config = RH.ids_config → rl.core = s.core →
    ∃ rl2, loadEntries rl ((RH.core.data.drop s.core.data.length).map
        (fun p => encodeEntry p.1 p.2)) = .ok rl2 ∧
      rl2.core = RH.core ∧ rl2.config_ids = rl.config_ids ∧
      rl2.ids_config = rl.ids_config := by
  induction tr with
  | nil =>
    intro s RH rl h _ hinv hc hi hcore
    simp only [runTrace] at h
    cases h
    refine ⟨rl, ?_, hcore, rfl, rfl⟩
    rw [List.drop_length]
    rfl
  | cons a t ih =>
    intro s RH rl h hb hinv hc hi hcore
    simp only [runTrace] at h
    split at h
    · rename_i s1 ha
      obtain ⟨hint, hfu⟩ := hb a (List.mem_cons_self _ _)
      obtain ⟨hinv1, hpc, hpi, hd⟩ := C5_step s s1 a hint hfu hinv ha
      rcases hd with hEq | ⟨c₀, cid, j, X, hXc, hXi, hXcore, hnD, hmemF, hlid, hlcf,
        hjs, hXN, hdat⟩
      · rw [hEq] at h
        exact ih s RH rl h (fun x hx => hb x (List.mem_cons_of_mem _ hx)) hinv hc hi hcore
      · obtain ⟨hinvR, hgc, hgi, hgd⟩ :=
          C5_grow t s1 RH h (fun x hx => hb x (List.mem_cons_of_mem _ hx)) hinv1
        obtain ⟨rest, hrest⟩ := hgd
        have hRH : RH.core.data = s.core.data ++
            ((⟨cid, a.inst, a.seed, a.budget⟩,
              (⟨a.cost, a.time, a.status, a.starttime, a.endtime,
                a.additional_info⟩ : TrialValue)) :: rest) := by
          rw [← hrest, hdat, List.append_assoc]
          rfl
        have hdropS : RH.core.data.drop s.core.data.length =
            (⟨cid, a.inst, a.seed, a.budget⟩,
              (⟨a.cost, a.time, a.status, a.starttime, a.endtime,
                a.additional_info⟩ : TrialValue)) :: rest := by
          rw [hRH, List.drop_left]
        have hdropS1 : RH.core.data.drop s1.core.data.length = rest := by
          rw [← hrest, List.drop_left]
        have hlidF : odLookup RH.ids_config cid = some c₀ := by
          obtain ⟨restI, hrestI⟩ := hgi
          rw [← hrestI]
          refine odLookup_append_left _ _ _ _ ?_
          rw [← hXi]
          exact hlid
        have hlcfF : cfgLookup RH.config_ids c₀ = some cid := by
          obtain ⟨restC, hrestC⟩ := hgc
          rw [← hrestC]
          refine cfgLookup_append_left _ _ _ _ ?_
          rw [← hXc]
          exact hlcf
        have hres : cfgLookup rl.config_ids c₀ = some cid := by
          rw [hc]
          exact hlcfF
        have hargs : ({ config := c₀, cost := a.cost, time := a.time, status := a.status, inst := a.inst, seed := a.seed, budget := a.budget, starttime := a.starttime, endtime := a.endtime, additional_info := some j, origin := .INTERNAL, force_update := false } : AddArgs) = { a with config := c₀ } := by
          obtain ⟨a1, a2, a3, a4, a5, a6, a7, a8, a9, a10, a11, a12⟩ := a
          simp only at hjs hint hfu ⊢
          rw [hjs, hint, hfu]
        have hstep1 : loadEntry rl
            (encodeEntry ⟨cid, a.inst, a.seed, a.budget⟩
              ⟨a.cost, a.time, a.status, a.starttime, a.endtime, a.additional_info⟩) =
            .ok ({ rl with core := s1.core } : RunHistory) := by
          rw [loadEntry_encode rl ⟨cid, a.inst, a.seed, a.budget⟩
            ⟨a.cost, a.time, a.status, a.starttime, a.endtime, a.additional_info⟩ j c₀
            hjs (by rw [hi]; exact hlidF) (by rw [hcore]; exact hnD)]
          rw [show ({ config := c₀, cost := a.cost, time := a.time, status := a.status, inst := a.inst, seed := a.seed, budget := a.budget, starttime := a.starttime, endtime := a.endtime, additional_info := some j, origin := .INTERNAL, force_update := false } : AddArgs) = ({ a with config := c₀ } : AddArgs) from hargs]
          rw [add_resolved_to_afterN _ _ cid (by exact hres) (by rfl)]
          rw [addAfterN_config_irrel]
          have hcongr := addAfterN_congr X
            ({ rl with core := { rl.core with n_objectives := (a.cost.length : ℤ) } } : RunHistory) cid a s1
            (by show ({ rl.core with n_objectives := (a.cost.length : ℤ) } : Core) = X.core
                rw [hXcore, hcore])
            (by show odLookup rl.ids_config cid = odLookup X.ids_config cid
                rw [hi, hlidF, hlid])
            (by intro cc hcc
                rw [hlid] at hcc
                cases hcc
                show cfgLookup rl.config_ids c₀ = cfgLookup X.config_ids c₀
                rw [hres, hlcf])
            hXN
          rw [hcongr]
        obtain ⟨rl2, hle, hc2, hcc2, hci2⟩ := ih s1 RH
          ({ rl with core := s1.core } : RunHistory) h
          (fun x hx => hb x (List.mem_cons_of_mem _ hx)) hinv1
          (by show rl.config_ids = RH.config_ids; exact hc)
          (by show rl.ids_config = RH.ids_config; exact hi) rfl
        refine ⟨rl2, ?_, hc2, by rw [hcc2], by rw [hci2]⟩
        rw [hdropS, List.map_cons]
        simp only [loadEntries]
        rw [hstep1]
        rw [hdropS1] at hle
        exact hle
    · exact absurd h (by simp)


theorem C5Inv_init : C5Inv (RunHistory.init false) := by
  refine ⟨rfl, rfl, List.nodup_nil, List.nodup_nil, ?_, Or.inl rfl, ?_, ?_, ?_, ?_, ?_⟩
  · intro p hp; cases hp
  · intro p hp; cases hp
  · intro p hp; cases hp
  · intro p hp; cases hp
  · intro p hp; cases hp
  · intro p hp; cases hp

/-- C5 (amended): for a ledger built by any successful sequence of
internally-originated, non-forced `add` calls, `save_json` followed by
`load_json` into a fresh ledger reproduces the identical
configuration-id-to-configuration mapping and the identical list of recorded
trials (an `add` that raised after registering its configuration instead
loses that registration in the round trip). -/
theorem C5_round_trip (tr : List AddArgs) (rh : RunHistory)
    (hb : ∀ a ∈ tr, a.origin = .INTERNAL ∧ a.force_update = false)
    (hrun : runTrace (RunHistory.init false) tr = .ok rh) :
    ∃ doc rh₂, rh.save_json false = .ok doc ∧
      (RunHistory.init false).load_json (some doc) = .ok rh₂ ∧
      rh₂.ids_config = rh.ids_config ∧ rh₂.core.data = rh.core.data := by
  obtain ⟨hinvR, hg1, hg2, hg3⟩ := C5_grow tr _ rh hrun hb C5Inv_init
  have hserial : ∀ p ∈ rh.ids_config, ∃ r ∈ rh.core.data, r.1.config_id = p.1 := by
    intro p hp
    rw [hinvR.mirror] at hp
    rcases List.mem_map.mp hp with ⟨q, hq, hqp⟩
    obtain ⟨r, hr, hrc⟩ := hinvR.regrow q hq
    exact ⟨r, hr, by rw [hrc, ← hqp]⟩
  have hsave := save_json_spec rh hinvR.rowext hinvR.rowinfo hserial
  have hkeys : (rh.ids_config.map Prod.fst).Nodup := by
    rw [hinvR.mirror, List.map_map]
    exact hinvR.cidNodup
  have hvals : (rh.ids_config.map (fun p => p.2.values)).Nodup := by
    rw [hinvR.mirror, List.map_map]
    exact hinvR.cfgNodup
  have hload := load_json_saved (RunHistory.init false) rh.core.data rh.ids_config
    hkeys hvals
  have hswap : rh.ids_config.map (fun p => (p.2, p.1)) = rh.config_ids := by
    rw [hinvR.mirror, List.map_map]
    have hid : ((fun (p : ℤ × Config) => (p.2, p.1)) ∘
        (fun (p : Config × ℤ) => (p.2, p.1))) = id := by
      funext p
      rfl
    rw [hid, List.map_id]
  obtain ⟨rl2, hle, hc2, hcc2, hci2⟩ := C5_replay tr (RunHistory.init false) rh
    ({ RunHistory.init false with ids_config := rh.ids_config, config_ids := rh.ids_config.map (fun p => (p.2, p.1)), n_id := ((rh.ids_config.map (fun p => (p.2, p.1))).length : ℤ) } : RunHistory)
    hrun hb C5Inv_init hswap rfl rfl
  rw [show (RunHistory.init false).core.data.length = 0 from rfl, List.drop_zero] at hle
  refine ⟨_, rl2, hsave, ?_, ?_, ?_⟩
  · rw [hload]
    exact hle
  · rw [hci2]
  · rw [hc2]

/-- C5 witness: the round trip evaluated on a three-configuration internal
trace. -/
theorem C5_round_trip_witness :
    ∃ rh, runTrace (RunHistory.init false) exTrace = .ok rh ∧
      ∃ doc rh₂, rh.save_json false = .ok doc ∧
        (RunHistory.init false).load_json (some doc) = .ok rh₂ ∧
        rh₂.ids_config = rh.ids_config ∧ rh₂.core.data = rh.core.data :=
  ⟨_, rfl, C5_round_trip exTrace _ (by decide) rfl⟩

end SMAC
